import Mathlib

/-!
Lock coordinator (`DeadlockPrevention`) of the banking system.

A shallow embedding of `src/src/DeadlockPrevention.cpp` / `src/include/DeadlockPrevention.h`.

Modelling conventions.

* `std::unordered_map<K, V>` is an association list `List (K × V)`; the order of the list stands
  for the (unspecified) iteration order of the container.  `find` returns the first binding of a
  key, `erase` removes every binding of it and `assign` (the effect of `m[k] = v`) overwrites the
  first binding in place or appends a new one.
* `std::unordered_set<T>` is a `List T` with `setInsert` / `setErase`.
* `size_t` thread hashes are `Nat`, `int` account ids and transaction ids are `Int`.  The three
  statistics counters are `int` in the source; they are `Int` here (signed overflow is undefined
  behaviour in C++, so no wrap-around is modelled).
* `getThreadHash()` returns the address of a local variable of its own frame, reduced modulo
  1000000: its value depends on the frame it is called from.  Every evaluation of it is an
  explicit argument of the operation in which it takes place: `requestLocks` has two
  (`register_hash`, evaluated inside `registerThread`, and `thread_hash`, evaluated inside the
  strategy), `releaseLocks` has one, and so has `releaseAllLocks` (the call blocks before
  `unregisterThread` evaluates it again).  Nothing is assumed about how these values are
  related; a thread whose identity is stable is the special case in which they are equal.
* `std::chrono::steady_clock::now()` is an oracle `clock : Nat → Nat` (in milliseconds): the
  reading number `i` made during one call is `clock i`.
* Every operation is one atomic transition of the tables; the internal mutex is not part of the
  state.
-/

namespace DeadlockPrevention

/-! ## Containers -/

/-- Lookup of a key, as `unordered_map::find`: the first binding of `k`, if any. -/
def find {κ ν : Type} [DecidableEq κ] : List (κ × ν) → κ → Option ν
  | [], _ => none
  | (a, b) :: t, k => if a = k then some b else find t k

/-- Removal of a key, as `unordered_map::erase(key)`. -/
def erase {κ ν : Type} [DecidableEq κ] (m : List (κ × ν)) (k : κ) : List (κ × ν) :=
  m.filter (fun e => decide (e.1 ≠ k))

/-- Assignment through `operator[]`, as `m[k] = v`. -/
def assign {κ ν : Type} [DecidableEq κ] : List (κ × ν) → κ → ν → List (κ × ν)
  | [], k, v => [(k, v)]
  | (a, b) :: t, k, v => if a = k then (a, v) :: t else (a, b) :: assign t k v

/-- Insertion into a set, as `unordered_set::insert`. -/
def setInsert {α : Type} [DecidableEq α] (l : List α) (a : α) : List α :=
  if a ∈ l then l else l ++ [a]

/-- Removal from a set, as `unordered_set::erase(key)`. -/
def setErase {α : Type} [DecidableEq α] (l : List α) (a : α) : List α :=
  l.filter (fun x => decide (x ≠ a))

/-! ## Data model -/

/-- The four strategies of `enum class DeadlockStrategy`. -/
inductive DeadlockStrategy where
  | LOCK_ORDERING
  | WAIT_DIE
  | WOUND_WAIT
  | TIMEOUT_ROLLBACK
  deriving DecidableEq, Repr

/-- The record `struct LockRequest`. -/
structure LockRequest where
  thread_hash : Nat
  account_id : Int
  request_time : Nat
  transaction_id : Int
  deriving DecidableEq, Repr

/-- The data members of `class DeadlockPrevention` (without the mutex).  The member
`deadlock_check_interval` is the constant of the same name below. -/
structure State where
  strategy : DeadlockStrategy
  thread_locks : List (Nat × List Int)
  waiting_requests : List (Nat × List LockRequest)
  account_owners : List (Int × Nat)
  thread_timestamps : List (Nat × Int)
  lock_timeout : Int
  deadlocks_detected : Int
  deadlocks_prevented : Int
  transactions_aborted : Int
  deriving DecidableEq, Repr

/-- The polling interval: the member `deadlock_check_interval` is set to 100 ms by the
constructor and is never assigned again. -/
def deadlock_check_interval : Nat := 100

/-- The constructor `DeadlockPrevention(strategy)`: empty tables, timeout 5000 ms. -/
def init (strategy : DeadlockStrategy) : State :=
  { strategy := strategy
    thread_locks := []
    waiting_requests := []
    account_owners := []
    thread_timestamps := []
    lock_timeout := 5000
    deadlocks_detected := 0
    deadlocks_prevented := 0
    transactions_aborted := 0 }

/-! ## Thread management -/

/-- The method `registerThread`: `thread_timestamps[getThreadHash()] = transaction_id`. -/
def registerThread (s : State) (transaction_id : Int) (thread_hash : Nat) : State :=
  { s with thread_timestamps := assign s.thread_timestamps thread_hash transaction_id }

/-- The method `unregisterThread`. -/
def unregisterThread (s : State) (thread_hash : Nat) : State :=
  { s with
    thread_timestamps := erase s.thread_timestamps thread_hash
    thread_locks := erase s.thread_locks thread_hash
    waiting_requests := erase s.waiting_requests thread_hash }

/-- The method `getThreadTimestamp`: the recorded timestamp, 0 when there is none. -/
def getThreadTimestamp (s : State) (thread_hash : Nat) : Int :=
  match find s.thread_timestamps thread_hash with
  | some ts => ts
  | none => 0

/-- The method `isOlderTransaction`. -/
def isOlderTransaction (s : State) (t1 t2 : Nat) : Bool :=
  decide (getThreadTimestamp s t1 < getThreadTimestamp s t2)

/-! ## Acquisition and release -/

/-- One round of the acquisition loop shared by the four strategies:
`account_owners[account_id] = thread_hash; thread_locks[thread_hash].insert(account_id);`. -/
def lockAccount (thread_hash : Nat) (s : State) (account_id : Int) : State :=
  { s with
    account_owners := assign s.account_owners account_id thread_hash
    thread_locks :=
      assign s.thread_locks thread_hash
        (setInsert ((find s.thread_locks thread_hash).getD []) account_id) }

/-- The acquisition loop `for (int account_id : account_ids) { ... }`. -/
def acquireLocks (s : State) (thread_hash : Nat) (account_ids : List Int) : State :=
  account_ids.foldl (lockAccount thread_hash) s

/-- One round of the loop of `releaseLocks`:
`thread_locks[thread_hash].erase(account_id); account_owners.erase(account_id);`. -/
def unlockAccount (thread_hash : Nat) (s : State) (account_id : Int) : State :=
  { s with
    thread_locks :=
      assign s.thread_locks thread_hash
        (setErase ((find s.thread_locks thread_hash).getD []) account_id)
    account_owners := erase s.account_owners account_id }

/-- The method `releaseLocks`. -/
def releaseLocks (s : State) (account_ids : List Int) (thread_hash : Nat) : State :=
  let s1 :=
    match find s.thread_locks thread_hash with
    | some _ =>
      let s2 := account_ids.foldl (unlockAccount thread_hash) s
      if (find s2.thread_locks thread_hash).getD [] = [] then
        { s2 with thread_locks := erase s2.thread_locks thread_hash }
      else s2
    | none => s
  { s1 with waiting_requests := erase s1.waiting_requests thread_hash }

/-- The block shared by `releaseAllLocks` and `abortTransaction`: erase the owner of every account
in the thread's set, then erase the set. -/
def dropLocks (s : State) (thread_hash : Nat) : State :=
  match find s.thread_locks thread_hash with
  | some held =>
    { s with
      account_owners := held.foldl erase s.account_owners
      thread_locks := erase s.thread_locks thread_hash }
  | none => s

/-- The statements of the method `releaseAllLocks` in sequence, ending with those of
`unregisterThread`, the mutex left aside; `releaseAllLocksCall` is the call with the mutex.
The call itself blocks before `unregisterThread` evaluates `getThreadHash()`; here
`unregisterThread` is given the key of `releaseAllLocks`. -/
def releaseAllLocks (s : State) (thread_hash : Nat) : State :=
  let s1 := dropLocks s thread_hash
  let s2 := { s1 with waiting_requests := erase s1.waiting_requests thread_hash }
  unregisterThread s2 thread_hash

/-- The method `abortTransaction`. -/
def abortTransaction (s : State) (thread_hash : Nat) : State :=
  let s1 := dropLocks s thread_hash
  { s1 with
    waiting_requests := erase s1.waiting_requests thread_hash
    transactions_aborted := s1.transactions_aborted + 1 }

/-! ## Strategies -/

/-- The test `account_owners.find(id) != end() && account_owners[id] != thread_hash`. -/
def ownedByOther (s : State) (thread_hash : Nat) (account_id : Int) : Bool :=
  match find s.account_owners account_id with
  | some owner => decide (owner ≠ thread_hash)
  | none => false

/-- The method `lockOrderingStrategy`. -/
def lockOrderingStrategy (s : State) (account_ids : List Int) (_transaction_id : Int)
    (thread_hash : Nat) : Bool × State :=
  let sorted_ids := account_ids.insertionSort (fun a b => a ≤ b)
  if sorted_ids.any (ownedByOther s thread_hash) then (false, s)
  else
    let s1 := acquireLocks s thread_hash sorted_ids
    (true, { s1 with deadlocks_prevented := s1.deadlocks_prevented + 1 })

/-- The requests appended by the inner loop
`waiting_requests[thread_hash].emplace_back(thread_hash, acc_id, transaction_id)`; the request
number `i` reads the clock as `clock i`. -/
def newRequests (thread_hash : Nat) (transaction_id : Int) (clock : Nat → Nat) :
    List Int → Nat → List LockRequest
  | [], _ => []
  | acc_id :: rest, i =>
    { thread_hash := thread_hash, account_id := acc_id, request_time := clock i,
      transaction_id := transaction_id } :: newRequests thread_hash transaction_id clock rest (i + 1)

/-- The "wait" branch of Wait-Die and Wound-Wait: one `LockRequest` per element of the batch. -/
def enqueueRequests (s : State) (account_ids : List Int) (transaction_id : Int)
    (thread_hash : Nat) (clock : Nat → Nat) : State :=
  if account_ids = [] then s
  else
    { s with
      waiting_requests :=
        assign s.waiting_requests thread_hash
          ((find s.waiting_requests thread_hash).getD [] ++
            newRequests thread_hash transaction_id clock account_ids 0) }

/-- The scan of `waitDieStrategy`: the owner of the first account of the batch that is owned by
another thread. -/
def firstConflict (s : State) (thread_hash : Nat) : List Int → Option Nat
  | [] => none
  | account_id :: rest =>
    match find s.account_owners account_id with
    | some owner_thread =>
      if owner_thread ≠ thread_hash then some owner_thread else firstConflict s thread_hash rest
    | none => firstConflict s thread_hash rest

/-- The method `waitDieStrategy`. -/
def waitDieStrategy (s : State) (account_ids : List Int) (transaction_id : Int)
    (thread_hash : Nat) (clock : Nat → Nat) : Bool × State :=
  match firstConflict s thread_hash account_ids with
  | some owner_thread =>
    if isOlderTransaction s thread_hash owner_thread then
      (false, enqueueRequests s account_ids transaction_id thread_hash clock)
    else
      (false, { s with transactions_aborted := s.transactions_aborted + 1 })
  | none => (true, acquireLocks s thread_hash account_ids)

/-- The first loop of `woundWaitStrategy`.  The result `(true, s1)` means the loop ran to its end
in state `s1`; `(false, s1)` means it reached the "wait" branch in state `s1`. -/
def woundWaitLoop (thread_hash : Nat) : State → List Int → Bool × State
  | s, [] => (true, s)
  | s, account_id :: rest =>
    match find s.account_owners account_id with
    | some owner_thread =>
      if owner_thread ≠ thread_hash then
        if isOlderTransaction s thread_hash owner_thread then
          woundWaitLoop thread_hash (abortTransaction s owner_thread) rest
        else (false, s)
      else woundWaitLoop thread_hash s rest
    | none => woundWaitLoop thread_hash s rest

/-- The method `woundWaitStrategy`. -/
def woundWaitStrategy (s : State) (account_ids : List Int) (transaction_id : Int)
    (thread_hash : Nat) (clock : Nat → Nat) : Bool × State :=
  match woundWaitLoop thread_hash s account_ids with
  | (true, s1) => (true, acquireLocks s1 thread_hash account_ids)
  | (false, s1) => (false, enqueueRequests s1 account_ids transaction_id thread_hash clock)

/-- The method `tryLockAccounts`: false as soon as one account has an owner (whoever it is). -/
def tryLockAccounts (s : State) (account_ids : List Int) : Bool :=
  account_ids.all (fun account_id => (find s.account_owners account_id).isNone)

/-- The polling loop of `timeoutRollbackStrategy`.  `clock 0` is `start_time`, `clock (k + 1)` is
the reading of the loop condition of round `k`; `fuel` bounds the number of rounds, and the result
is `none` when the loop has not ended within `fuel` rounds. -/
def timeoutRollbackLoop (s : State) (account_ids : List Int) (thread_hash : Nat)
    (clock : Nat → Nat) : Nat → Nat → Option (Bool × State)
  | 0, _ => none
  | fuel + 1, k =>
    if (clock (k + 1) : Int) - (clock 0 : Int) < s.lock_timeout then
      if tryLockAccounts s account_ids then
        some (true, acquireLocks s thread_hash account_ids)
      else timeoutRollbackLoop s account_ids thread_hash clock fuel (k + 1)
    else some (false, { s with transactions_aborted := s.transactions_aborted + 1 })

/-- The method `timeoutRollbackStrategy`. -/
def timeoutRollbackStrategy (s : State) (account_ids : List Int) (_transaction_id : Int)
    (thread_hash : Nat) (clock : Nat → Nat) (fuel : Nat) : Option (Bool × State) :=
  timeoutRollbackLoop s account_ids thread_hash clock fuel 0

/-- The method `requestLocks`: register, then dispatch on the strategy.  `registerThread` and
the strategy each evaluate `getThreadHash()` in their own frame: `register_hash` is the value
the former gets, `thread_hash` the value the latter gets. -/
def requestLocks (s : State) (account_ids : List Int) (transaction_id : Int)
    (register_hash thread_hash : Nat) (clock : Nat → Nat) (fuel : Nat) :
    Option (Bool × State) :=
  let s1 := registerThread s transaction_id register_hash
  match s1.strategy with
  | DeadlockStrategy.LOCK_ORDERING =>
    some (lockOrderingStrategy s1 account_ids transaction_id thread_hash)
  | DeadlockStrategy.WAIT_DIE =>
    some (waitDieStrategy s1 account_ids transaction_id thread_hash clock)
  | DeadlockStrategy.WOUND_WAIT =>
    some (woundWaitStrategy s1 account_ids transaction_id thread_hash clock)
  | DeadlockStrategy.TIMEOUT_ROLLBACK =>
    timeoutRollbackStrategy s1 account_ids transaction_id thread_hash clock fuel

/-! ## Wait-for graph -/

/-- The loop over the requests of one thread inside `dfsHasCycle`; `visit` is the recursive
call.  A result is `(cycle found, visited, recursion_stack)`. -/
def dfsRequests (s : State) (visit : Nat → List Nat → List Nat → Option (Bool × List Nat × List Nat)) :
    List LockRequest → List Nat → List Nat → Option (Bool × List Nat × List Nat)
  | [], visited, recursion_stack => some (false, visited, recursion_stack)
  | request :: rest, visited, recursion_stack =>
    match find s.account_owners request.account_id with
    | some owner_thread =>
      if owner_thread ∈ recursion_stack then some (true, visited, recursion_stack)
      else if owner_thread ∉ visited then
        match visit owner_thread visited recursion_stack with
        | none => none
        | some (true, v, st) => some (true, v, st)
        | some (false, v, st) => dfsRequests s visit rest v st
      else dfsRequests s visit rest visited recursion_stack
    | none => dfsRequests s visit rest visited recursion_stack

/-- The method `dfsHasCycle`; `fuel` bounds the depth of the recursion. -/
def dfsHasCycle (s : State) : Nat → Nat → List Nat → List Nat → Option (Bool × List Nat × List Nat)
  | 0, _, _, _ => none
  | fuel + 1, current, visited, recursion_stack =>
    match dfsRequests s (dfsHasCycle s fuel) ((find s.waiting_requests current).getD [])
        (setInsert visited current) (setInsert recursion_stack current) with
    | none => none
    | some (true, v, st) => some (true, v, st)
    | some (false, v, st) => some (false, v, setErase st current)

/-- The loop of `findDeadlockCycle` over the entries of `thread_locks`. -/
def findCycleFrom (s : State) (fuel : Nat) :
    List (Nat × List Int) → List Nat → List Nat → Option (List Nat)
  | [], _, _ => some []
  | (thread_hash, _) :: rest, visited, recursion_stack =>
    if thread_hash ∉ visited then
      match dfsHasCycle s fuel thread_hash visited recursion_stack with
      | none => none
      | some (true, _, st) => some st
      | some (false, v, st) => findCycleFrom s fuel rest v st
    else findCycleFrom s fuel rest visited recursion_stack

/-- The method `findDeadlockCycle`. -/
def findDeadlockCycle (s : State) (fuel : Nat) : Option (List Nat) :=
  findCycleFrom s fuel s.thread_locks [] []

/-- The loop of `hasCycle` over the entries of `thread_locks`. -/
def hasCycleFrom (s : State) (fuel : Nat) :
    List (Nat × List Int) → List Nat → List Nat → Option Bool
  | [], _, _ => some false
  | (thread_hash, _) :: rest, visited, recursion_stack =>
    if thread_hash ∉ visited then
      match dfsHasCycle s fuel thread_hash visited recursion_stack with
      | none => none
      | some (true, _, _) => some true
      | some (false, v, st) => hasCycleFrom s fuel rest v st
    else hasCycleFrom s fuel rest visited recursion_stack

/-- The method `hasCycle`. -/
def hasCycle (s : State) (fuel : Nat) : Option Bool :=
  hasCycleFrom s fuel s.thread_locks [] []

/-- The method `detectDeadlock`. -/
def detectDeadlock (s : State) (fuel : Nat) : Option Bool :=
  hasCycle s fuel

/-- The call `std::max_element(first, rest, isOlderTransaction)`: the first greatest element. -/
def maxElement (s : State) (first : Nat) (rest : List Nat) : Nat :=
  rest.foldl (fun largest x => if isOlderTransaction s largest x then x else largest) first

/-- The method `resolveDeadlock`. -/
def resolveDeadlock (s : State) (fuel : Nat) : Option (Bool × State) :=
  match findDeadlockCycle s fuel with
  | none => none
  | some [] => some (false, s)
  | some (first :: rest) =>
    let s1 := abortTransaction s (maxElement s first rest)
    some (true, { s1 with deadlocks_detected := s1.deadlocks_detected + 1 })

/-! ## Configuration and statistics -/

/-- The method `setStrategy`. -/
def setStrategy (s : State) (new_strategy : DeadlockStrategy) : State :=
  { s with strategy := new_strategy }

/-- The method `setTimeout`. -/
def setTimeout (s : State) (timeout : Int) : State :=
  { s with lock_timeout := timeout }

/-- The method `resetStatistics`. -/
def resetStatistics (s : State) : State :=
  { s with deadlocks_detected := 0, deadlocks_prevented := 0, transactions_aborted := 0 }

/-! ## Observations and reachability -/

/-- The set of accounts recorded for a thread in `thread_locks` (empty when it has no entry). -/
def heldSet (s : State) (thread_hash : Nat) : List Int :=
  (find s.thread_locks thread_hash).getD []

/-- Invariant 1: the owner recorded for an account has a `thread_locks` entry containing it. -/
def OwnerHeld (s : State) : Prop :=
  ∀ r p, find s.account_owners r = some p → ∃ l, find s.thread_locks p = some l ∧ r ∈ l

/-- The converse of Invariant 1: every account in a `thread_locks` entry is owned by that
thread. -/
def HeldOwned (s : State) : Prop :=
  ∀ p l, find s.thread_locks p = some l → ∀ r ∈ l, find s.account_owners r = some p

/-- The states reached from a freshly constructed coordinator by calls of the public
operations, each call being one transition. -/
inductive Reachable : State → Prop where
  | init (strategy : DeadlockStrategy) : Reachable (init strategy)
  | requestLocks {s : State} (account_ids : List Int) (transaction_id : Int)
      (register_hash thread_hash : Nat)
      (clock : Nat → Nat) (fuel : Nat) (granted : Bool) (s2 : State) :
      Reachable s →
      requestLocks s account_ids transaction_id register_hash thread_hash clock fuel =
        some (granted, s2) →
      Reachable s2
  | releaseLocks {s : State} (account_ids : List Int) (thread_hash : Nat) :
      Reachable s → Reachable (releaseLocks s account_ids thread_hash)
  | releaseAllLocks {s : State} (thread_hash : Nat) :
      Reachable s → Reachable (releaseAllLocks s thread_hash)
  | resolveDeadlock {s : State} (fuel : Nat) (resolved : Bool) (s2 : State) :
      Reachable s → resolveDeadlock s fuel = some (resolved, s2) → Reachable s2
  | setStrategy {s : State} (new_strategy : DeadlockStrategy) :
      Reachable s → Reachable (setStrategy s new_strategy)
  | setTimeout {s : State} (timeout : Int) :
      Reachable s → Reachable (setTimeout s timeout)

/-- A steady clock for one call of `timeoutRollbackStrategy`: `start_time` and the first test of
the loop condition are read at time 0, and every later test is read exactly one polling interval
after the one before. -/
def tickClock : Nat → Nat := fun k => deadlock_check_interval * (k - 1)

/-- Every account of the batch is unowned or owned by the requester. -/
def AvailableTo (s : State) (th : Nat) (ids : List Int) : Prop :=
  ∀ r ∈ ids, find s.account_owners r = none ∨ find s.account_owners r = some th

/-- The distinct threads, other than `th`, that own an account of the batch. -/
def otherOwners (s : State) (th : Nat) (ids : List Int) : List Nat :=
  ((ids.filterMap (find s.account_owners)).filter (fun q => decide (q ≠ th))).dedup

/-- The number of owning threads that a depth-first search has not visited yet. -/
def unvisited (s : State) (visited : List Nat) : Nat :=
  ((s.account_owners.map Prod.snd).toFinset \ visited.toFinset).card

/-- A recursion depth that is enough for `dfsHasCycle`: one more than the number of entries of
the ownership map. -/
def dfsFuel (s : State) : Nat :=
  s.account_owners.length + 1

/-! ## Concrete runs used below -/

/-- Thread 1 acquires account 2 in a fresh Lock Ordering coordinator. -/
def overlapRun1 : State :=
  (lockOrderingStrategy (registerThread (init DeadlockStrategy.LOCK_ORDERING) 1 1) [2] 1 1).2

/-- Then thread 2 acquires account 3. -/
def overlapRun2 : State :=
  (lockOrderingStrategy (registerThread overlapRun1 2 2) [3] 2 2).2

/-- Then thread 2 releases account 2, which it never acquired. -/
def overlapRun3 : State :=
  releaseLocks overlapRun2 [2] 2

/-- Then thread 2 requests account 2. -/
def overlapRun4 : State :=
  (lockOrderingStrategy (registerThread overlapRun3 3 2) [2] 3 2).2

/-- Thread 1 acquires accounts 4 and 7 in a fresh Wait-Die coordinator. -/
def grantRun : State :=
  (waitDieStrategy (registerThread (init DeadlockStrategy.WAIT_DIE) 1 1) [4, 7] 1 1 tickClock).2

/-- Thread 1 acquires account 1 in a fresh Lock Ordering coordinator. -/
def denyRun1 : State :=
  (lockOrderingStrategy (registerThread (init DeadlockStrategy.LOCK_ORDERING) 1 1) [1] 1 1).2

/-- Then thread 2 acquires account 2. -/
def denyRun2 : State :=
  (lockOrderingStrategy (registerThread denyRun1 2 2) [2] 2 2).2

/-- Thread 2, with transaction id 2, acquires account 10 in a fresh Wait-Die coordinator. -/
def waitDieRun : State :=
  (waitDieStrategy (registerThread (init DeadlockStrategy.WAIT_DIE) 2 2) [10] 2 2 tickClock).2

/-- Thread 2, with transaction id 2, acquires accounts 10 and 11 in a fresh Wound-Wait
coordinator. -/
def preemptRun1 : State :=
  (woundWaitStrategy (registerThread (init DeadlockStrategy.WOUND_WAIT) 2 2) [10, 11] 2 2
    tickClock).2

/-- Thread 2 acquires account 1 in a fresh Timeout-Rollback coordinator. -/
def timeoutRun : State :=
  acquireLocks (registerThread (init DeadlockStrategy.TIMEOUT_ROLLBACK) 2 2) 2 [1]

/-- Thread 1 acquires account 1 in a fresh Timeout-Rollback coordinator. -/
def ownRun : State :=
  acquireLocks (registerThread (init DeadlockStrategy.TIMEOUT_ROLLBACK) 1 1) 1 [1]

/-- A Timeout-Rollback coordinator whose timeout was set to zero. -/
def zeroTimeoutRun : State :=
  setTimeout (init DeadlockStrategy.TIMEOUT_ROLLBACK) 0

/-! ## The internal mutex within one call -/

/-- One step of the body of a method, as far as `wait_graph_mutex` is concerned: the
construction of a `std::lock_guard` on it, the destruction of that guard, or statements that
update the tables. -/
inductive MutexStep where
  | lock : MutexStep
  | unlock : MutexStep
  | update (f : State → State) : MutexStep

/-- How a call ends: it returns in a state, or it blocks for ever in a state. -/
inductive CallOutcome where
  | returned (s : State) : CallOutcome
  | blocked (s : State) : CallOutcome
  deriving DecidableEq, Repr

/-- Execution of a method body by one thread.  `held` tells whether the calling thread holds
`wait_graph_mutex`.  The mutex is a plain `std::mutex`: locking it while the caller itself holds
it never succeeds (the standard leaves the behaviour undefined; the usual implementations block
for ever). -/
def runBody : Bool → State → List MutexStep → CallOutcome
  | _, s, [] => CallOutcome.returned s
  | held, s, MutexStep.lock :: rest =>
    if held then CallOutcome.blocked s else runBody true s rest
  | _, s, MutexStep.unlock :: rest => runBody false s rest
  | held, s, MutexStep.update f :: rest => runBody held (f s) rest

/-- The body of `unregisterThread`: a guard on the mutex around the three `erase` calls. -/
def unregisterThreadBody (thread_hash : Nat) : List MutexStep :=
  [MutexStep.lock, MutexStep.update (fun s => unregisterThread s thread_hash), MutexStep.unlock]

/-- The body of `releaseAllLocks`: a guard on the mutex, the removal of the locks and of the wait
queue, then the call of `unregisterThread` while the guard is still alive. -/
def releaseAllLocksBody (thread_hash : Nat) : List MutexStep :=
  [MutexStep.lock,
    MutexStep.update (fun s => dropLocks s thread_hash),
    MutexStep.update
      (fun s => { s with waiting_requests := erase s.waiting_requests thread_hash })] ++
  unregisterThreadBody thread_hash ++ [MutexStep.unlock]

/-- A call of `releaseAllLocks` made while the caller does not hold the mutex. -/
def releaseAllLocksCall (s : State) (thread_hash : Nat) : CallOutcome :=
  runBody false s (releaseAllLocksBody thread_hash)

/-- Thread 1 registered with age 1, then threads 1 and 2 both registered with age 7. -/
def tieRun : State :=
  registerThread (registerThread (registerThread (init DeadlockStrategy.WAIT_DIE) 1 1) 7 1) 7 2

/-! ## The wait-for graph -/

/-- The edge relation of the wait-for graph: `p` has a pending request, in its wait queue, for an
account that is currently owned by `q`. -/
def WaitsFor (s : State) (p q : Nat) : Prop :=
  ∃ req ∈ (find s.waiting_requests p).getD [], find s.account_owners req.account_id = some q

/-- The wait-for graph has a directed cycle: some thread reaches itself along one or more
edges. -/
def HasCycle (s : State) : Prop :=
  ∃ p, Relation.TransGen (WaitsFor s) p p

/-- The finished threads of a search (visited and no longer on the recursion stack) only wait for
finished threads. -/
def DfsClosed (s : State) (visited stack : List Nat) : Prop :=
  ∀ x ∈ visited, x ∉ stack → ∀ y, WaitsFor s x y → y ∈ visited ∧ y ∉ stack

/-- No finished thread of a search lies on a cycle. -/
def DfsAcyclic (s : State) (visited stack : List Nat) : Prop :=
  ∀ x ∈ visited, x ∉ stack → ¬ Relation.TransGen (WaitsFor s) x x

/-- What a call of `dfsHasCycle` on `c` with `visited` and `stack` establishes: a result `true`
comes with a cycle; a result `false` restores the stack, keeps what was visited, has visited
`c`, and leaves the finished threads closed and free of cycles. -/
def DfsPost (s : State) (c : Nat) (visited stack : List Nat)
    (res : Bool × List Nat × List Nat) : Prop :=
  (res.1 = true → HasCycle s) ∧
  (res.1 = false →
    res.2.2 = stack ∧ (∀ x ∈ visited, x ∈ res.2.1) ∧ c ∈ res.2.1 ∧
    DfsClosed s res.2.1 stack ∧ DfsAcyclic s res.2.1 stack)
/-- Thread 1, with transaction id 1, acquires account 10 in a fresh Wait-Die coordinator. -/
def cycleRun1 : State :=
  (waitDieStrategy (registerThread (init DeadlockStrategy.WAIT_DIE) 1 1) [10] 1 1 tickClock).2

/-- Then thread 2, with transaction id 2, acquires account 20. -/
def cycleRun2 : State :=
  (waitDieStrategy (registerThread cycleRun1 2 2) [20] 2 2 tickClock).2

/-- Then thread 1, still with transaction id 1, requests account 20 and is queued. -/
def cycleRun3 : State :=
  (waitDieStrategy (registerThread cycleRun2 1 1) [20] 1 1 tickClock).2

/-- Then thread 2, now with transaction id 0, requests account 10 and is queued. -/
def cycleRun : State :=
  (waitDieStrategy (registerThread cycleRun3 0 2) [10] 0 2 tickClock).2

/-! ## Reachability under a restricted set of strategies -/

/-- The states reached from a freshly constructed coordinator by `requestLocks`, `releaseLocks`
and `releaseAllLocks` calls (and `setTimeout`), the strategy of the coordinator being at every
moment one of the `allowed` ones. -/
inductive ReachableUnder (allowed : DeadlockStrategy → Prop) : State → Prop where
  | init (strategy : DeadlockStrategy) : allowed strategy → ReachableUnder allowed (init strategy)
  | requestLocks {s : State} (account_ids : List Int) (transaction_id : Int)
      (register_hash thread_hash : Nat)
      (clock : Nat → Nat) (fuel : Nat) (granted : Bool) (s2 : State) :
      ReachableUnder allowed s →
      requestLocks s account_ids transaction_id register_hash thread_hash clock fuel =
        some (granted, s2) →
      ReachableUnder allowed s2
  | releaseLocks {s : State} (account_ids : List Int) (thread_hash : Nat) :
      ReachableUnder allowed s → ReachableUnder allowed (releaseLocks s account_ids thread_hash)
  | releaseAllLocks {s : State} (thread_hash : Nat) :
      ReachableUnder allowed s → ReachableUnder allowed (releaseAllLocks s thread_hash)
  | setStrategy {s : State} (new_strategy : DeadlockStrategy) :
      allowed new_strategy → ReachableUnder allowed s →
      ReachableUnder allowed (setStrategy s new_strategy)
  | setTimeout {s : State} (timeout : Int) :
      ReachableUnder allowed s → ReachableUnder allowed (setTimeout s timeout)

/-! ## States that differ in the statistics only -/

/-- Two states have the same configuration and the same four tables; the three statistics
counters may differ. -/
def SameTables (s t : State) : Prop :=
  s.strategy = t.strategy ∧ s.thread_locks = t.thread_locks ∧
  s.waiting_requests = t.waiting_requests ∧ s.account_owners = t.account_owners ∧
  s.thread_timestamps = t.thread_timestamps ∧ s.lock_timeout = t.lock_timeout

/-- Two results of `requestLocks` agree: both calls are still running, or both return the same
answer in states with the same tables. -/
def SameResult : Option (Bool × State) → Option (Bool × State) → Prop
  | none, none => True
  | some (b1, r1), some (b2, r2) => b1 = b2 ∧ SameTables r1 r2
  | _, _ => False

/-- The body of `registerThread`: a guard on the mutex around the assignment. -/
def registerThreadBody (transaction_id : Int) (thread_hash : Nat) : List MutexStep :=
  [MutexStep.lock, MutexStep.update (fun s => registerThread s transaction_id thread_hash),
    MutexStep.unlock]

/-- The body of `releaseLocks`: a guard on the mutex around the whole method. -/
def releaseLocksBody (account_ids : List Int) (thread_hash : Nat) : List MutexStep :=
  [MutexStep.lock, MutexStep.update (fun s => releaseLocks s account_ids thread_hash),
    MutexStep.unlock]

/-- The body of `detectDeadlock`: a guard on the mutex around `hasCycle`, which reads the tables
and takes no lock. -/
def detectDeadlockBody : List MutexStep :=
  [MutexStep.lock, MutexStep.update (fun s => s), MutexStep.unlock]

/-- The guarded block of `lockOrderingStrategy`, `waitDieStrategy` and `woundWaitStrategy`, and of
one round of `timeoutRollbackStrategy`: a guard on the mutex around the table updates `step`
(`abortTransaction`, `isOlderTransaction` and `tryLockAccounts` take no lock). -/
def strategyBody (step : State → State) : List MutexStep :=
  [MutexStep.lock, MutexStep.update step, MutexStep.unlock]

/-- The body of `requestLocks`: `registerThread`, then one guarded block per round of the
strategy (a single block for the three strategies that do not poll). -/
def requestLocksBody (transaction_id : Int) (register_hash : Nat)
    (rounds : List (State → State)) : List MutexStep :=
  registerThreadBody transaction_id register_hash ++ (rounds.map strategyBody).flatten

/-- Whether a body, run by a thread that holds the mutex or not according to `held`, reaches a
`lock` while the thread holds the mutex. -/
def relocks : Bool → List MutexStep → Bool
  | _, [] => false
  | held, MutexStep.lock :: rest => held || relocks true rest
  | _, MutexStep.unlock :: rest => relocks false rest
  | held, MutexStep.update _ :: rest => relocks held rest

/-- Thread 1, with transaction id 5, acquires account 1 in a fresh Wound-Wait coordinator. -/
def mixedRun1 : State :=
  (woundWaitStrategy (registerThread (init DeadlockStrategy.WOUND_WAIT) 5 1) [1] 5 1
    tickClock).2

/-- Then thread 2, with transaction id 0, acquires account 2. -/
def mixedRun2 : State :=
  (woundWaitStrategy (registerThread mixedRun1 0 2) [2] 0 2 tickClock).2

/-- A set of threads that leads into a cycle: one of its members lies on a cycle of the wait-for
graph and every member reaches that one along zero or more edges. -/
def LeadsIntoCycle (s : State) (threads : List Nat) : Prop :=
  ∃ z ∈ threads, Relation.TransGen (WaitsFor s) z z ∧
    ∀ x ∈ threads, Relation.ReflTransGen (WaitsFor s) x z

/-- Thread 1, with transaction id 9, acquires account 100 in a fresh Wound-Wait coordinator. -/
def bystanderRun1 : State :=
  (woundWaitStrategy (registerThread (init DeadlockStrategy.WOUND_WAIT) 9 1) [100] 9 1
    tickClock).2

/-- Then thread 2, with transaction id 2, acquires account 10. -/
def bystanderRun2 : State :=
  (woundWaitStrategy (registerThread bystanderRun1 2 2) [10] 2 2 tickClock).2

/-- Then thread 3, with transaction id 1, acquires account 20. -/
def bystanderRun3 : State :=
  (woundWaitStrategy (registerThread bystanderRun2 1 3) [20] 1 3 tickClock).2

/-- Then thread 2, with transaction id 2, requests account 20 and is queued behind thread 3. -/
def bystanderRun4 : State :=
  (woundWaitStrategy (registerThread bystanderRun3 2 2) [20] 2 2 tickClock).2

/-- Then thread 3, now with transaction id 5, requests account 10 and is queued behind
thread 2. -/
def bystanderRun5 : State :=
  (woundWaitStrategy (registerThread bystanderRun4 5 3) [10] 5 3 tickClock).2

/-- Then thread 1, with transaction id 9, requests account 10 and is queued behind thread 2:
threads 2 and 3 wait for each other, and thread 1 waits for thread 2 while nobody waits for
thread 1. -/
def bystanderRun : State :=
  (woundWaitStrategy (registerThread bystanderRun5 9 1) [10] 9 1 tickClock).2

/-! ## Batches with repeated account ids -/

/-- The batch with repeated account ids removed, keeping first occurrences. -/
def dedupFirst : List Int → List Int
  | [] => []
  | a :: t => a :: (dedupFirst t).filter (fun x => decide (x ≠ a))

/-- Two states that agree on everything except, possibly, the wait queues. -/
def SameButQueues (s t : State) : Prop :=
  s.strategy = t.strategy ∧ s.thread_locks = t.thread_locks ∧
  s.account_owners = t.account_owners ∧ s.thread_timestamps = t.thread_timestamps ∧
  s.lock_timeout = t.lock_timeout ∧ s.deadlocks_detected = t.deadlocks_detected ∧
  s.deadlocks_prevented = t.deadlocks_prevented ∧
  s.transactions_aborted = t.transactions_aborted

/-- A Wound-Wait state that violates Invariant 1: account 1 is recorded as owned by thread 2
(age 5), which has no `thread_locks` entry. -/
def orphanOwner : State :=
  { strategy := DeadlockStrategy.WOUND_WAIT
    thread_locks := []
    waiting_requests := []
    account_owners := [(1, 2)]
    thread_timestamps := [(2, 5)]
    lock_timeout := 5000
    deadlocks_detected := 0
    deadlocks_prevented := 0
    transactions_aborted := 0 }

/-! ## Runs in which every call evaluates `getThreadHash()` in its own frame

In the runs below the thread number `n` gets the key `100 + n` inside `registerThread`, the key
`n` inside a strategy and the key `200 + n` inside `releaseLocks`. -/

/-- Lock Ordering: thread 1, with transaction id 1, is granted accounts 5, 2 and 9. -/
def frameRun1 : State :=
  (lockOrderingStrategy (registerThread (init DeadlockStrategy.LOCK_ORDERING) 1 101)
    [5, 2, 9] 1 1).2

/-- Then thread 2, with transaction id 2, is refused accounts 9, 2 and 5. -/
def frameRun2 : State :=
  (lockOrderingStrategy (registerThread frameRun1 2 102) [9, 2, 5] 2 2).2

/-- Then thread 1 calls `releaseLocks` on accounts 5, 2 and 9, and thread 2, with transaction
id 3, asks for accounts 9, 2 and 5 again. -/
def frameRun3 : State :=
  (lockOrderingStrategy (registerThread (releaseLocks frameRun2 [5, 2, 9] 201) 3 102)
    [9, 2, 5] 3 2).2

/-- Wait-Die: thread 2, with transaction id 2, is granted account 10. -/
def dieRun1 : State :=
  (waitDieStrategy (registerThread (init DeadlockStrategy.WAIT_DIE) 2 102) [10] 2 2
    tickClock).2

/-- Then thread 1, with transaction id 1, asks for account 10. -/
def dieRun2 : State :=
  (waitDieStrategy (registerThread dieRun1 1 101) [10] 1 1 tickClock).2

/-- Wound-Wait: thread 2, with transaction id 2, is granted accounts 10 and 11. -/
def spareRun1 : State :=
  (woundWaitStrategy (registerThread (init DeadlockStrategy.WOUND_WAIT) 2 102) [10, 11] 2 2
    tickClock).2

/-- Then thread 1, with transaction id 1, asks for account 10. -/
def spareRun2 : State :=
  (woundWaitStrategy (registerThread spareRun1 1 101) [10] 1 1 tickClock).2

/-- Wait-Die: thread 1, with transaction id 1, is granted accounts 4 and 7. -/
def splitRun : State :=
  (waitDieStrategy (registerThread (init DeadlockStrategy.WAIT_DIE) 1 101) [4, 7] 1 1
    tickClock).2

/-- Wound-Wait: thread 1, with transaction id 5, is granted account 1. -/
def loopRun1 : State :=
  (woundWaitStrategy (registerThread (init DeadlockStrategy.WOUND_WAIT) 5 101) [1] 5 1
    tickClock).2

/-- Then thread 2, with transaction id 0, is granted account 2. -/
def loopRun2 : State :=
  (woundWaitStrategy (registerThread loopRun1 0 102) [2] 0 2 tickClock).2

/-- Then thread 1, with transaction id 5, asks for accounts 1 and 2. -/
def loopRun3 : State :=
  (woundWaitStrategy (registerThread loopRun2 5 101) [1, 2] 5 1 tickClock).2

/-- After `loopRun2`, thread 1, with transaction id 5, asks for account 2. -/
def crossRun3 : State :=
  (woundWaitStrategy (registerThread loopRun2 5 101) [2] 5 1 tickClock).2

/-- Wound-Wait: thread 2, with transaction id 0, is granted account 2. -/
def staleRun1 : State :=
  (woundWaitStrategy (registerThread (init DeadlockStrategy.WOUND_WAIT) 0 102) [2] 0 2
    tickClock).2

/-- Then thread 1, with transaction id 5, asks for accounts 1 and 2 (account 1 is free). -/
def staleRun2 : State :=
  (woundWaitStrategy (registerThread staleRun1 5 101) [1, 2] 5 1 tickClock).2

/-- Then thread 1, with transaction id 5, asks for account 1 alone. -/
def staleRun3 : State :=
  (woundWaitStrategy (registerThread staleRun2 5 101) [1] 5 1 tickClock).2

/-- Invariant 2: no thread has a pending request for an account that it owns. -/
def OwnerNotWaiter (s : State) : Prop :=
  ∀ p req, req ∈ (find s.waiting_requests p).getD [] →
    find s.account_owners req.account_id ≠ some p

/-- The batch is fresh for the thread: the thread owns none of its accounts and has no pending
request for any of them. -/
def FreshBatch (s : State) (thread_hash : Nat) (account_ids : List Int) : Prop :=
  ∀ r ∈ account_ids, find s.account_owners r ≠ some thread_hash ∧
    ∀ req ∈ (find s.waiting_requests thread_hash).getD [], req.account_id ≠ r

/-- The states reached from a freshly constructed coordinator by `requestLocks`, `releaseLocks`
and `releaseAllLocks` calls, every `requestLocks` call made under Wait-Die or Wound-Wait being
for a batch that is fresh for the requester. -/
inductive ReachableFresh : State → Prop where
  | init (strategy : DeadlockStrategy) : ReachableFresh (init strategy)
  | requestLocks {s : State} (account_ids : List Int) (transaction_id : Int)
      (register_hash thread_hash : Nat)
      (clock : Nat → Nat) (fuel : Nat) (granted : Bool) (s2 : State) :
      ReachableFresh s →
      (s.strategy = DeadlockStrategy.WAIT_DIE ∨ s.strategy = DeadlockStrategy.WOUND_WAIT →
        FreshBatch s thread_hash account_ids) →
      requestLocks s account_ids transaction_id register_hash thread_hash clock fuel =
        some (granted, s2) →
      ReachableFresh s2
  | releaseLocks {s : State} (account_ids : List Int) (thread_hash : Nat) :
      ReachableFresh s → ReachableFresh (releaseLocks s account_ids thread_hash)
  | releaseAllLocks {s : State} (thread_hash : Nat) :
      ReachableFresh s → ReachableFresh (releaseAllLocks s thread_hash)

/-! ## Container lemmas -/

section Containers
variable {κ ν : Type} [DecidableEq κ]

theorem find_assign (m : List (κ × ν)) (k k2 : κ) (v : ν) :
    find (assign m k v) k2 = if k = k2 then some v else find m k2 := by
  induction m with
  | nil =>
    by_cases h : k = k2 <;> simp [assign, find, h]
  | cons e t ih =>
    obtain ⟨a, b⟩ := e
    by_cases h1 : a = k
    · subst h1
      by_cases h2 : a = k2 <;> simp [assign, find, h2]
    · by_cases h2 : a = k2
      · subst h2
        have h3 : ¬ k = a := fun h => h1 h.symm
        simp [assign, find, h1, h3]
      · simp [assign, find, h1, h2, ih]

theorem find_erase (m : List (κ × ν)) (k k2 : κ) :
    find (erase m k) k2 = if k = k2 then none else find m k2 := by
  induction m with
  | nil => simp [erase, find]
  | cons e t ih =>
    obtain ⟨a, b⟩ := e
    unfold erase at ih ⊢
    by_cases h1 : a = k
    · subst h1
      by_cases h2 : a = k2
      · simpa [List.filter, h2] using ih
      · simpa [List.filter, find, h2] using ih
    · by_cases h2 : a = k2
      · subst h2
        have h3 : ¬ k = a := fun h => h1 h.symm
        simp [List.filter, find, h1, h3]
      · simp only [List.filter, find, h1, h2, ne_eq, not_false_eq_true, decide_True, if_false]
        exact ih

theorem assign_eq_self (m : List (κ × ν)) (k : κ) (v : ν) (h : find m k = some v) :
    assign m k v = m := by
  induction m with
  | nil => simp [find] at h
  | cons e t ih =>
    obtain ⟨a, b⟩ := e
    by_cases h1 : a = k
    · simp [find, h1] at h
      simp [assign, h1, h]
    · simp [find, h1] at h
      simp [assign, h1, ih h]

theorem find_foldl_erase (ks : List κ) (m : List (κ × ν)) (k2 : κ) :
    find (ks.foldl erase m) k2 = if k2 ∈ ks then none else find m k2 := by
  induction ks generalizing m with
  | nil => simp
  | cons k t ih =>
    simp only [List.foldl_cons, ih, find_erase, List.mem_cons]
    by_cases h1 : k2 ∈ t
    · simp [h1]
    · by_cases h2 : k = k2
      · simp [h2]
      · have h3 : ¬ k2 = k := fun h => h2 h.symm
        simp [h1, h2, h3]

theorem mem_of_find {m : List (κ × ν)} {k : κ} {v : ν} (h : find m k = some v) : (k, v) ∈ m := by
  induction m with
  | nil => simp [find] at h
  | cons e t ih =>
    obtain ⟨a, b⟩ := e
    by_cases h1 : a = k
    · simp [find, h1] at h
      simp [h1, h]
    · simp [find, h1] at h
      exact List.mem_cons_of_mem _ (ih h)

end Containers

theorem mem_setInsert {α : Type} [DecidableEq α] (l : List α) (a x : α) :
    x ∈ setInsert l a ↔ x ∈ l ∨ x = a := by
  unfold setInsert
  by_cases h : a ∈ l
  · simp only [h, if_true]
    constructor
    · exact Or.inl
    · rintro (h1 | h1)
      · exact h1
      · exact h1 ▸ h
  · simp [h]

theorem mem_setErase {α : Type} [DecidableEq α] (l : List α) (a x : α) :
    x ∈ setErase l a ↔ x ∈ l ∧ x ≠ a := by
  simp [setErase]

theorem setInsert_eq_self {α : Type} [DecidableEq α] (l : List α) (a : α) (h : a ∈ l) :
    setInsert l a = l := by
  simp [setInsert, h]

/-! ## Effect of the table operations -/

section Acquire
variable (th : Nat)

theorem owner_lockAccount (s : State) (id r : Int) :
    find (lockAccount th s id).account_owners r =
      if id = r then some th else find s.account_owners r := by
  simp [lockAccount, find_assign]

theorem locks_lockAccount (s : State) (id : Int) (p : Nat) :
    find (lockAccount th s id).thread_locks p =
      if th = p then some (setInsert (heldSet s th) id) else find s.thread_locks p := by
  simp [lockAccount, find_assign, heldSet]

theorem owner_acquireLocks (ids : List Int) (s : State) (r : Int) :
    find (acquireLocks s th ids).account_owners r =
      if r ∈ ids then some th else find s.account_owners r := by
  induction ids generalizing s with
  | nil => simp [acquireLocks]
  | cons id t ih =>
    have h := ih (lockAccount th s id)
    simp only [acquireLocks, List.foldl_cons] at h ⊢
    rw [h, owner_lockAccount]
    by_cases h1 : r ∈ t
    · simp [h1]
    · by_cases h2 : id = r
      · simp [h2]
      · have h3 : ¬ r = id := fun e => h2 e.symm
        simp [h1, h2, h3]

theorem locks_acquireLocks_other (ids : List Int) (s : State) (p : Nat) (hp : p ≠ th) :
    find (acquireLocks s th ids).thread_locks p = find s.thread_locks p := by
  induction ids generalizing s with
  | nil => simp [acquireLocks]
  | cons id t ih =>
    have h := ih (lockAccount th s id)
    simp only [acquireLocks, List.foldl_cons] at h ⊢
    rw [h, locks_lockAccount]
    have h3 : ¬ th = p := fun e => hp e.symm
    simp [h3]

theorem mem_heldSet_acquireLocks (ids : List Int) (s : State) (r : Int) :
    r ∈ heldSet (acquireLocks s th ids) th ↔ r ∈ heldSet s th ∨ r ∈ ids := by
  induction ids generalizing s with
  | nil => simp [acquireLocks]
  | cons id t ih =>
    have h := ih (lockAccount th s id)
    simp only [acquireLocks, List.foldl_cons] at h ⊢
    rw [h]
    have h2 : heldSet (lockAccount th s id) th = setInsert (heldSet s th) id := by
      simp [heldSet, locks_lockAccount]
    rw [h2, mem_setInsert, List.mem_cons]
    tauto

theorem acquireLocks_frame (ids : List Int) (s : State) :
    (acquireLocks s th ids).strategy = s.strategy ∧
    (acquireLocks s th ids).waiting_requests = s.waiting_requests ∧
    (acquireLocks s th ids).thread_timestamps = s.thread_timestamps ∧
    (acquireLocks s th ids).lock_timeout = s.lock_timeout ∧
    (acquireLocks s th ids).deadlocks_detected = s.deadlocks_detected ∧
    (acquireLocks s th ids).deadlocks_prevented = s.deadlocks_prevented ∧
    (acquireLocks s th ids).transactions_aborted = s.transactions_aborted := by
  induction ids generalizing s with
  | nil => simp [acquireLocks]
  | cons id t ih =>
    have h := ih (lockAccount th s id)
    simp only [acquireLocks, List.foldl_cons] at h ⊢
    simpa [lockAccount] using h

theorem ownerHeld_lockAccount (s : State) (id : Int) (h : OwnerHeld s) :
    OwnerHeld (lockAccount th s id) := by
  intro r p hr
  rw [owner_lockAccount] at hr
  rw [locks_lockAccount]
  by_cases h1 : id = r
  · simp only [h1, if_true, Option.some.injEq] at hr
    subst hr
    subst h1
    exact ⟨setInsert (heldSet s th) id, by simp, by simp [mem_setInsert]⟩
  · simp only [h1, if_false] at hr
    obtain ⟨l, hl, hm⟩ := h r p hr
    by_cases h2 : th = p
    · subst h2
      refine ⟨setInsert (heldSet s th) id, by simp, ?_⟩
      simp [mem_setInsert, heldSet, hl, hm]
    · exact ⟨l, by simp [h2, hl], hm⟩

theorem ownerHeld_acquireLocks (ids : List Int) (s : State) (h : OwnerHeld s) :
    OwnerHeld (acquireLocks s th ids) := by
  induction ids generalizing s with
  | nil => simpa [acquireLocks] using h
  | cons id t ih =>
    have h2 := ih (lockAccount th s id) (ownerHeld_lockAccount th s id h)
    simpa [acquireLocks] using h2

end Acquire

section Release
variable (th : Nat)

theorem owner_unlockAccount (s : State) (id r : Int) :
    find (unlockAccount th s id).account_owners r =
      if id = r then none else find s.account_owners r := by
  simp [unlockAccount, find_erase]

theorem locks_unlockAccount (s : State) (id : Int) (p : Nat) :
    find (unlockAccount th s id).thread_locks p =
      if th = p then some (setErase (heldSet s th) id) else find s.thread_locks p := by
  simp [unlockAccount, find_assign, heldSet]

theorem ownerHeld_unlockAccount (s : State) (id : Int) (h : OwnerHeld s) :
    OwnerHeld (unlockAccount th s id) := by
  intro r p hr
  rw [owner_unlockAccount] at hr
  rw [locks_unlockAccount]
  by_cases h1 : id = r
  · simp [h1] at hr
  · simp only [h1, if_false] at hr
    obtain ⟨l, hl, hm⟩ := h r p hr
    by_cases h2 : th = p
    · subst h2
      refine ⟨setErase (heldSet s th) id, by simp, ?_⟩
      have h3 : ¬ r = id := fun e => h1 e.symm
      simp [mem_setErase, heldSet, hl, hm, h3]
    · exact ⟨l, by simp [h2, hl], hm⟩

theorem ownerHeld_foldl_unlockAccount (ids : List Int) (s : State) (h : OwnerHeld s) :
    OwnerHeld (ids.foldl (unlockAccount th) s) := by
  induction ids generalizing s with
  | nil => simpa using h
  | cons id t ih =>
    simpa using ih (unlockAccount th s id) (ownerHeld_unlockAccount th s id h)

/-- Erasing the `thread_locks` entry of a thread whose set is empty keeps Invariant 1. -/
theorem ownerHeld_erase_empty (s : State) (h : OwnerHeld s) (he : heldSet s th = []) :
    OwnerHeld { s with thread_locks := erase s.thread_locks th } := by
  intro r p hr
  obtain ⟨l, hl, hm⟩ := h r p hr
  by_cases h2 : th = p
  · subst h2
    simp [heldSet, hl] at he
    subst he
    simp at hm
  · exact ⟨l, by simp [find_erase, h2, hl], hm⟩

theorem ownerHeld_waiting (s : State) (w : List (Nat × List LockRequest)) (h : OwnerHeld s) :
    OwnerHeld { s with waiting_requests := w } := h

theorem ownerHeld_releaseLocks (s : State) (ids : List Int) (h : OwnerHeld s) :
    OwnerHeld (releaseLocks s ids th) := by
  unfold releaseLocks
  apply ownerHeld_waiting
  cases hf : find s.thread_locks th with
  | none => simpa using h
  | some l =>
    have h2 := ownerHeld_foldl_unlockAccount th ids s h
    simp only
    split
    · next he => exact ownerHeld_erase_empty th _ h2 he
    · exact h2

theorem owner_dropLocks (s : State) (r : Int) :
    find (dropLocks s th).account_owners r =
      if r ∈ heldSet s th then none else find s.account_owners r := by
  unfold dropLocks heldSet
  cases hf : find s.thread_locks th with
  | none => simp
  | some l => simp [find_foldl_erase]

theorem locks_dropLocks (s : State) (p : Nat) :
    find (dropLocks s th).thread_locks p = if th = p then none else find s.thread_locks p := by
  unfold dropLocks
  cases hf : find s.thread_locks th with
  | none =>
    by_cases h : th = p
    · subst h
      simp [hf]
    · simp [h]
  | some l => simp [find_erase]

theorem dropLocks_frame (s : State) :
    (dropLocks s th).strategy = s.strategy ∧
    (dropLocks s th).waiting_requests = s.waiting_requests ∧
    (dropLocks s th).thread_timestamps = s.thread_timestamps ∧
    (dropLocks s th).lock_timeout = s.lock_timeout ∧
    (dropLocks s th).deadlocks_detected = s.deadlocks_detected ∧
    (dropLocks s th).deadlocks_prevented = s.deadlocks_prevented ∧
    (dropLocks s th).transactions_aborted = s.transactions_aborted := by
  unfold dropLocks
  cases hf : find s.thread_locks th <;> simp

theorem ownerHeld_dropLocks (s : State) (h : OwnerHeld s) : OwnerHeld (dropLocks s th) := by
  intro r p hr
  rw [owner_dropLocks] at hr
  rw [locks_dropLocks]
  by_cases h1 : r ∈ heldSet s th
  · simp [h1] at hr
  · simp only [h1, if_false] at hr
    obtain ⟨l, hl, hm⟩ := h r p hr
    by_cases h2 : th = p
    · subst h2
      exact absurd (by simpa [heldSet, hl] using hm) h1
    · exact ⟨l, by simp [h2, hl], hm⟩

theorem owner_abortTransaction (s : State) (r : Int) :
    find (abortTransaction s th).account_owners r =
      if r ∈ heldSet s th then none else find s.account_owners r := by
  simp [abortTransaction, owner_dropLocks]

theorem locks_abortTransaction (s : State) (p : Nat) :
    find (abortTransaction s th).thread_locks p =
      if th = p then none else find s.thread_locks p := by
  simp [abortTransaction, locks_dropLocks]

theorem ownerHeld_abortTransaction (s : State) (h : OwnerHeld s) :
    OwnerHeld (abortTransaction s th) := by
  have h2 := ownerHeld_dropLocks th s h
  unfold abortTransaction
  exact h2

theorem ownerHeld_releaseAllLocks (s : State) (h : OwnerHeld s) :
    OwnerHeld (releaseAllLocks s th) := by
  have h2 := ownerHeld_dropLocks th s h
  intro r p hr
  have hr2 : find (dropLocks s th).account_owners r = some p := by
    simpa [releaseAllLocks, unregisterThread] using hr
  obtain ⟨l, hl, hm⟩ := h2 r p hr2
  have h3 : th ≠ p := by
    intro e
    subst e
    simp [locks_dropLocks] at hl
  refine ⟨l, ?_, hm⟩
  simp only [releaseAllLocks, unregisterThread]
  rw [find_erase]
  simp [h3, hl]

end Release

/-! ## Invariant 1 along the strategies -/

theorem ownerHeld_counters (s : State) (a b c : Int) (h : OwnerHeld s) :
    OwnerHeld { s with deadlocks_detected := a, deadlocks_prevented := b,
                       transactions_aborted := c } := h

theorem ownerHeld_registerThread (s : State) (txn : Int) (th : Nat) (h : OwnerHeld s) :
    OwnerHeld (registerThread s txn th) := h

theorem ownerHeld_enqueueRequests (s : State) (ids : List Int) (txn : Int) (th : Nat)
    (clock : Nat → Nat) (h : OwnerHeld s) : OwnerHeld (enqueueRequests s ids txn th clock) := by
  unfold enqueueRequests
  split
  · exact h
  · exact h

theorem ownerHeld_lockOrderingStrategy (s : State) (ids : List Int) (txn : Int) (th : Nat)
    (h : OwnerHeld s) : OwnerHeld (lockOrderingStrategy s ids txn th).2 := by
  unfold lockOrderingStrategy
  simp only
  split
  · exact h
  · exact ownerHeld_acquireLocks th _ s h

theorem ownerHeld_waitDieStrategy (s : State) (ids : List Int) (txn : Int) (th : Nat)
    (clock : Nat → Nat) (h : OwnerHeld s) : OwnerHeld (waitDieStrategy s ids txn th clock).2 := by
  unfold waitDieStrategy
  split
  · split
    · exact ownerHeld_enqueueRequests s ids txn th clock h
    · exact h
  · exact ownerHeld_acquireLocks th _ s h

theorem ownerHeld_woundWaitLoop (th : Nat) (ids : List Int) (s : State) (h : OwnerHeld s) :
    OwnerHeld (woundWaitLoop th s ids).2 := by
  induction ids generalizing s with
  | nil => simpa [woundWaitLoop] using h
  | cons id t ih =>
    unfold woundWaitLoop
    split
    · split
      · split
        · exact ih _ (ownerHeld_abortTransaction _ s h)
        · exact h
      · exact ih s h
    · exact ih s h

theorem ownerHeld_woundWaitStrategy (s : State) (ids : List Int) (txn : Int) (th : Nat)
    (clock : Nat → Nat) (h : OwnerHeld s) :
    OwnerHeld (woundWaitStrategy s ids txn th clock).2 := by
  have h2 := ownerHeld_woundWaitLoop th ids s h
  unfold woundWaitStrategy
  split
  · next s1 he =>
    rw [he] at h2
    exact ownerHeld_acquireLocks th _ s1 h2
  · next s1 he =>
    rw [he] at h2
    exact ownerHeld_enqueueRequests s1 ids txn th clock h2

theorem ownerHeld_timeoutRollbackLoop (s : State) (ids : List Int) (th : Nat) (clock : Nat → Nat)
    (fuel k : Nat) (b : Bool) (s2 : State) (h : OwnerHeld s)
    (hr : timeoutRollbackLoop s ids th clock fuel k = some (b, s2)) : OwnerHeld s2 := by
  induction fuel generalizing k with
  | zero => simp [timeoutRollbackLoop] at hr
  | succ n ih =>
    unfold timeoutRollbackLoop at hr
    split at hr
    · split at hr
      · simp only [Option.some.injEq, Prod.mk.injEq] at hr
        rw [← hr.2]
        exact ownerHeld_acquireLocks th _ s h
      · exact ih _ hr
    · simp only [Option.some.injEq, Prod.mk.injEq] at hr
      rw [← hr.2]
      exact h

theorem ownerHeld_requestLocks (s : State) (ids : List Int) (txn : Int) (rh th : Nat)
    (clock : Nat → Nat) (fuel : Nat) (b : Bool) (s2 : State) (h : OwnerHeld s)
    (hr : requestLocks s ids txn rh th clock fuel = some (b, s2)) : OwnerHeld s2 := by
  have h1 := ownerHeld_registerThread s txn rh h
  unfold requestLocks at hr
  simp only at hr
  split at hr
  · simp only [Option.some.injEq] at hr
    have := ownerHeld_lockOrderingStrategy _ ids txn th h1
    rwa [hr] at this
  · simp only [Option.some.injEq] at hr
    have := ownerHeld_waitDieStrategy _ ids txn th clock h1
    rwa [hr] at this
  · simp only [Option.some.injEq] at hr
    have := ownerHeld_woundWaitStrategy _ ids txn th clock h1
    rwa [hr] at this
  · exact ownerHeld_timeoutRollbackLoop _ ids th clock fuel 0 b s2 h1 hr

theorem ownerHeld_resolveDeadlock (s : State) (fuel : Nat) (b : Bool) (s2 : State)
    (h : OwnerHeld s) (hr : resolveDeadlock s fuel = some (b, s2)) : OwnerHeld s2 := by
  unfold resolveDeadlock at hr
  split at hr
  · simp at hr
  · simp only [Option.some.injEq, Prod.mk.injEq] at hr
    rw [← hr.2]
    exact h
  · simp only [Option.some.injEq, Prod.mk.injEq] at hr
    rw [← hr.2]
    exact ownerHeld_abortTransaction _ s h

theorem ownerHeld_init (strategy : DeadlockStrategy) : OwnerHeld (init strategy) := by
  intro r p hr
  simp [init, find] at hr

theorem ownerHeld_of_reachable {s : State} (h : Reachable s) : OwnerHeld s := by
  induction h with
  | init strategy => exact ownerHeld_init strategy
  | requestLocks ids txn rh th clock fuel b s2 _ hr ih =>
    exact ownerHeld_requestLocks _ ids txn rh th clock fuel b s2 ih hr
  | releaseLocks ids th _ ih => exact ownerHeld_releaseLocks th _ ids ih
  | releaseAllLocks th _ ih => exact ownerHeld_releaseAllLocks th _ ih
  | resolveDeadlock fuel b s2 _ hr ih => exact ownerHeld_resolveDeadlock _ fuel b s2 ih hr
  | setStrategy st _ ih => exact ih
  | setTimeout t _ ih => exact ih

/-! ## Shape of the result of `requestLocks` -/

theorem mem_sorted (ids : List Int) (r : Int) :
    r ∈ ids.insertionSort (fun a b => a ≤ b) ↔ r ∈ ids :=
  (List.perm_insertionSort (fun a b : Int => a ≤ b) ids).mem_iff

theorem timeoutRollbackLoop_granted (s : State) (ids : List Int) (th : Nat) (clock : Nat → Nat)
    (fuel k : Nat) (s2 : State)
    (hr : timeoutRollbackLoop s ids th clock fuel k = some (true, s2)) :
    s2 = acquireLocks s th ids := by
  induction fuel generalizing k with
  | zero => simp [timeoutRollbackLoop] at hr
  | succ n ih =>
    unfold timeoutRollbackLoop at hr
    split at hr
    · split at hr
      · simp only [Option.some.injEq, Prod.mk.injEq, true_and] at hr
        exact hr.symm
      · exact ih _ hr
    · simp at hr

theorem timeoutRollbackLoop_refused (s : State) (ids : List Int) (th : Nat) (clock : Nat → Nat)
    (fuel k : Nat) (s2 : State)
    (hr : timeoutRollbackLoop s ids th clock fuel k = some (false, s2)) :
    s2 = { s with transactions_aborted := s.transactions_aborted + 1 } := by
  induction fuel generalizing k with
  | zero => simp [timeoutRollbackLoop] at hr
  | succ n ih =>
    unfold timeoutRollbackLoop at hr
    split at hr
    · split at hr
      · simp at hr
      · exact ih _ hr
    · simp only [Option.some.injEq, Prod.mk.injEq, true_and] at hr
      exact hr.symm

/-- A granted request ends with the acquisition loop over the batch (or a permutation of it). -/
theorem requestLocks_granted (s : State) (ids : List Int) (txn : Int) (rh th : Nat)
    (clock : Nat → Nat) (fuel : Nat) (s2 : State)
    (hr : requestLocks s ids txn rh th clock fuel = some (true, s2)) :
    ∃ s1 ids2, (∀ r, r ∈ ids2 ↔ r ∈ ids) ∧
      s2.account_owners = (acquireLocks s1 th ids2).account_owners ∧
      s2.thread_locks = (acquireLocks s1 th ids2).thread_locks := by
  unfold requestLocks at hr
  simp only at hr
  split at hr
  · simp only [Option.some.injEq] at hr
    unfold lockOrderingStrategy at hr
    simp only at hr
    split at hr
    · simp at hr
    · simp only [Prod.mk.injEq, true_and] at hr
      exact ⟨_, _, mem_sorted ids, by rw [← hr], by rw [← hr]⟩
  · simp only [Option.some.injEq] at hr
    unfold waitDieStrategy at hr
    split at hr
    · split at hr <;> simp at hr
    · simp only [Prod.mk.injEq, true_and] at hr
      exact ⟨_, ids, fun _ => Iff.rfl, by rw [← hr], by rw [← hr]⟩
  · simp only [Option.some.injEq] at hr
    unfold woundWaitStrategy at hr
    split at hr
    · simp only [Prod.mk.injEq, true_and] at hr
      exact ⟨_, ids, fun _ => Iff.rfl, by rw [← hr], by rw [← hr]⟩
    · simp at hr
  · have h := timeoutRollbackLoop_granted _ ids th clock fuel 0 s2 hr
    exact ⟨_, ids, fun _ => Iff.rfl, by rw [h], by rw [h]⟩

theorem locks_woundWaitLoop_self (th : Nat) (ids : List Int) (s : State) :
    find (woundWaitLoop th s ids).2.thread_locks th = find s.thread_locks th := by
  induction ids generalizing s with
  | nil => simp [woundWaitLoop]
  | cons id t ih =>
    unfold woundWaitLoop
    split
    · next owner _ =>
      split
      · next hne =>
        split
        · rw [ih, locks_abortTransaction]
          simp [hne]
        · rfl
      · exact ih s
    · exact ih s

theorem enqueueRequests_tables (s : State) (ids : List Int) (txn : Int) (th : Nat)
    (clock : Nat → Nat) :
    (enqueueRequests s ids txn th clock).thread_locks = s.thread_locks ∧
    (enqueueRequests s ids txn th clock).account_owners = s.account_owners ∧
    (enqueueRequests s ids txn th clock).thread_timestamps = s.thread_timestamps ∧
    (enqueueRequests s ids txn th clock).transactions_aborted = s.transactions_aborted := by
  unfold enqueueRequests
  split <;> simp

/-- A request that is not granted leaves the requester's `thread_locks` entry as it was. -/
theorem requestLocks_refused_locks (s : State) (ids : List Int) (txn : Int) (rh th : Nat)
    (clock : Nat → Nat) (fuel : Nat) (s2 : State)
    (hr : requestLocks s ids txn rh th clock fuel = some (false, s2)) :
    find s2.thread_locks th = find s.thread_locks th := by
  unfold requestLocks at hr
  simp only at hr
  split at hr
  · simp only [Option.some.injEq] at hr
    unfold lockOrderingStrategy at hr
    simp only at hr
    split at hr
    · simp only [Prod.mk.injEq, true_and] at hr
      rw [← hr]
      rfl
    · simp at hr
  · simp only [Option.some.injEq] at hr
    unfold waitDieStrategy at hr
    split at hr
    · split at hr
      · simp only [Prod.mk.injEq, true_and] at hr
        rw [← hr, (enqueueRequests_tables _ ids txn th clock).1]
        rfl
      · simp only [Prod.mk.injEq, true_and] at hr
        rw [← hr]
        rfl
    · simp at hr
  · simp only [Option.some.injEq] at hr
    unfold woundWaitStrategy at hr
    split at hr
    · simp at hr
    · next s1 he =>
      simp only [Prod.mk.injEq, true_and] at hr
      rw [← hr, (enqueueRequests_tables _ ids txn th clock).1]
      have h := locks_woundWaitLoop_self th ids (registerThread s txn rh)
      rw [he] at h
      exact h
  · have h := timeoutRollbackLoop_refused _ ids th clock fuel 0 s2 hr
    rw [h]
    rfl

/-! ## Lock Ordering -/

theorem ownedByOther_eq_false (s : State) (th : Nat) (r : Int) :
    ownedByOther s th r = false ↔
      (find s.account_owners r = none ∨ find s.account_owners r = some th) := by
  unfold ownedByOther
  cases h : find s.account_owners r with
  | none => simp
  | some o => simp

theorem any_ownedByOther_eq_false (s : State) (th : Nat) (ids : List Int) :
    ids.any (ownedByOther s th) = false ↔ AvailableTo s th ids := by
  simp only [List.any_eq_false, Bool.not_eq_true, ownedByOther_eq_false, AvailableTo]

theorem availableTo_sorted (s : State) (th : Nat) (ids : List Int) :
    AvailableTo s th (ids.insertionSort (fun a b => a ≤ b)) ↔ AvailableTo s th ids := by
  unfold AvailableTo
  constructor
  · intro h r hr
    exact h r ((mem_sorted ids r).2 hr)
  · intro h r hr
    exact h r ((mem_sorted ids r).1 hr)

theorem lockOrdering_granted (s : State) (ids : List Int) (txn : Int) (rh th : Nat)
    (clock : Nat → Nat) (fuel : Nat) (hs : s.strategy = DeadlockStrategy.LOCK_ORDERING)
    (ha : AvailableTo s th ids) :
    requestLocks s ids txn rh th clock fuel =
      some (true,
        { acquireLocks (registerThread s txn rh) th (ids.insertionSort (fun a b => a ≤ b)) with
          deadlocks_prevented :=
            (acquireLocks (registerThread s txn rh) th
              (ids.insertionSort (fun a b => a ≤ b))).deadlocks_prevented + 1 }) := by
  have h1 : (ids.insertionSort (fun a b => a ≤ b)).any
      (ownedByOther (registerThread s txn rh) th) = false :=
    (any_ownedByOther_eq_false _ th _).2 ((availableTo_sorted _ th ids).2 ha)
  have h2 : (registerThread s txn rh).strategy = DeadlockStrategy.LOCK_ORDERING := hs
  simp only [requestLocks, h2, lockOrderingStrategy, h1]
  rfl

theorem lockOrdering_refused (s : State) (ids : List Int) (txn : Int) (rh th : Nat)
    (clock : Nat → Nat) (fuel : Nat) (hs : s.strategy = DeadlockStrategy.LOCK_ORDERING)
    (ha : ¬ AvailableTo s th ids) :
    requestLocks s ids txn rh th clock fuel = some (false, registerThread s txn rh) := by
  have h1 : (ids.insertionSort (fun a b => a ≤ b)).any
      (ownedByOther (registerThread s txn rh) th) = true := by
    cases h : (ids.insertionSort (fun a b => a ≤ b)).any
      (ownedByOther (registerThread s txn rh) th) with
    | true => rfl
    | false =>
      exact absurd ((availableTo_sorted _ th ids).1 ((any_ownedByOther_eq_false _ th _).1 h)) ha
  have h2 : (registerThread s txn rh).strategy = DeadlockStrategy.LOCK_ORDERING := hs
  simp only [requestLocks, h2, lockOrderingStrategy, h1]
  rfl

theorem owner_foldl_unlockAccount (th : Nat) (ids : List Int) (s : State) (r : Int) :
    find (ids.foldl (unlockAccount th) s).account_owners r =
      if r ∈ ids then none else find s.account_owners r := by
  induction ids generalizing s with
  | nil => simp
  | cons id t ih =>
    simp only [List.foldl_cons, ih, owner_unlockAccount, List.mem_cons]
    by_cases h1 : r ∈ t
    · simp [h1]
    · by_cases h2 : id = r
      · simp [h2]
      · have h3 : ¬ r = id := fun e => h2 e.symm
        simp [h1, h2, h3]

theorem foldl_unlockAccount_frame (th : Nat) (ids : List Int) (s : State) :
    (ids.foldl (unlockAccount th) s).strategy = s.strategy := by
  induction ids generalizing s with
  | nil => simp
  | cons id t ih =>
    simp only [List.foldl_cons, ih]
    rfl

theorem owner_releaseLocks_of_entry (s : State) (ids : List Int) (th : Nat) (l : List Int)
    (hl : find s.thread_locks th = some l) (r : Int) :
    find (releaseLocks s ids th).account_owners r =
      if r ∈ ids then none else find s.account_owners r := by
  unfold releaseLocks
  simp only [hl]
  split
  · exact owner_foldl_unlockAccount th ids s r
  · exact owner_foldl_unlockAccount th ids s r

theorem strategy_releaseLocks (s : State) (ids : List Int) (th : Nat) :
    (releaseLocks s ids th).strategy = s.strategy := by
  unfold releaseLocks
  cases hf : find s.thread_locks th with
  | none => rfl
  | some l =>
    simp only
    split
    · exact foldl_unlockAccount_frame th ids s
    · exact foldl_unlockAccount_frame th ids s

theorem find_some_of_mem_heldSet {s : State} {th : Nat} {r : Int} (h : r ∈ heldSet s th) :
    ∃ l, find s.thread_locks th = some l := by
  unfold heldSet at h
  cases hf : find s.thread_locks th with
  | none => simp [hf] at h
  | some l => exact ⟨l, rfl⟩

/-! ## Wait-Die -/

theorem getThreadTimestamp_registerThread_self (s : State) (txn : Int) (th : Nat) :
    getThreadTimestamp (registerThread s txn th) th = txn := by
  simp [getThreadTimestamp, registerThread, find_assign]

theorem getThreadTimestamp_registerThread_other (s : State) (txn : Int) (th q : Nat)
    (h : q ≠ th) :
    getThreadTimestamp (registerThread s txn th) q = getThreadTimestamp s q := by
  have h2 : ¬ th = q := fun e => h e.symm
  simp [getThreadTimestamp, registerThread, find_assign, h2]

theorem firstConflict_none (s : State) (th : Nat) (ids : List Int)
    (h : ∀ r ∈ ids, ∀ q, find s.account_owners r = some q → q = th) :
    firstConflict s th ids = none := by
  induction ids with
  | nil => rfl
  | cons id t ih =>
    have ht := ih (fun r hr => h r (List.mem_cons_of_mem _ hr))
    unfold firstConflict
    cases ho : find s.account_owners id with
    | none => simpa using ht
    | some o =>
      have := h id (List.mem_cons_self _ _) o ho
      simpa [this] using ht

theorem firstConflict_split (s : State) (th : Nat) (pre : List Int) (r : Int) (post : List Int)
    (Q : Nat) (hpre : ∀ x ∈ pre, ∀ q, find s.account_owners x = some q → q = th)
    (hr : find s.account_owners r = some Q) (hQ : Q ≠ th) :
    firstConflict s th (pre ++ r :: post) = some Q := by
  induction pre with
  | nil => simp [firstConflict, hr, hQ]
  | cons id t ih =>
    have ht := ih (fun x hx => hpre x (List.mem_cons_of_mem _ hx))
    simp only [List.cons_append]
    unfold firstConflict
    cases ho : find s.account_owners id with
    | none => simpa using ht
    | some o =>
      have := hpre id (List.mem_cons_self _ _) o ho
      simpa [this] using ht

theorem newRequests_account_ids (th : Nat) (txn : Int) (clock : Nat → Nat) (ids : List Int)
    (i : Nat) : (newRequests th txn clock ids i).map LockRequest.account_id = ids := by
  induction ids generalizing i with
  | nil => rfl
  | cons id t ih => simp [newRequests, ih]

theorem newRequests_origin (th : Nat) (txn : Int) (clock : Nat → Nat) (ids : List Int)
    (i : Nat) :
    ∀ q ∈ newRequests th txn clock ids i, q.thread_hash = th ∧ q.transaction_id = txn := by
  induction ids generalizing i with
  | nil => simp [newRequests]
  | cons id t ih =>
    intro q hq
    simp only [newRequests, List.mem_cons] at hq
    rcases hq with hq | hq
    · subst hq
      exact ⟨rfl, rfl⟩
    · exact ih _ q hq

theorem waiting_enqueueRequests (s : State) (ids : List Int) (txn : Int) (th : Nat)
    (clock : Nat → Nat) (hne : ids ≠ []) (p : Nat) :
    find (enqueueRequests s ids txn th clock).waiting_requests p =
      if th = p then
        some ((find s.waiting_requests th).getD [] ++ newRequests th txn clock ids 0)
      else find s.waiting_requests p := by
  simp [enqueueRequests, hne, find_assign]

/-! ## Wound-Wait -/

theorem mem_otherOwners (s : State) (th : Nat) (ids : List Int) (q : Nat) :
    q ∈ otherOwners s th ids ↔ q ≠ th ∧ ∃ r ∈ ids, find s.account_owners r = some q := by
  simp only [otherOwners, List.mem_dedup, List.mem_filter, List.mem_filterMap, decide_eq_true_eq]
  tauto

theorem otherOwners_cons_skip (s : State) (th : Nat) (id : Int) (t : List Int)
    (h : ∀ q, find s.account_owners id = some q → q = th) :
    otherOwners s th (id :: t) = otherOwners s th t := by
  unfold otherOwners
  cases ho : find s.account_owners id with
  | none => simp [List.filterMap_cons, ho]
  | some o =>
    have := h o ho
    subst this
    simp [List.filterMap_cons, ho]

theorem length_of_mem_iff_cons {O O2 : List Nat} {Q : Nat} (h1 : O.Nodup) (h2 : O2.Nodup)
    (hQ : Q ∉ O2) (hm : ∀ q, q ∈ O ↔ q = Q ∨ q ∈ O2) : O.length = O2.length + 1 := by
  have hp : O.Perm (Q :: O2) := by
    rw [List.perm_ext_iff_of_nodup h1 (List.nodup_cons.2 ⟨hQ, h2⟩)]
    intro a
    rw [hm a, List.mem_cons]
  simpa using hp.length_eq

theorem heldOwned_abortTransaction (s : State) (Q : Nat) (h : HeldOwned s) :
    HeldOwned (abortTransaction s Q) := by
  intro p l hl r hr
  rw [locks_abortTransaction] at hl
  by_cases hp : Q = p
  · simp [hp] at hl
  · simp only [hp, if_false] at hl
    rw [owner_abortTransaction]
    have ho := h p l hl r hr
    by_cases hm : r ∈ heldSet s Q
    · exfalso
      unfold heldSet at hm
      cases hq : find s.thread_locks Q with
      | none => simp [hq] at hm
      | some lq =>
        simp only [hq, Option.getD_some] at hm
        have := h Q lq hq r hm
        rw [ho] at this
        exact hp (Option.some.inj this).symm
    · simp [hm, ho]

theorem mem_heldSet_iff_owner (s : State) (h1 : OwnerHeld s) (h2 : HeldOwned s) (Q : Nat)
    (r : Int) : r ∈ heldSet s Q ↔ find s.account_owners r = some Q := by
  constructor
  · intro hm
    unfold heldSet at hm
    cases hq : find s.thread_locks Q with
    | none => simp [hq] at hm
    | some lq =>
      simp only [hq, Option.getD_some] at hm
      exact h2 Q lq hq r hm
  · intro ho
    obtain ⟨l, hl, hm⟩ := h1 r Q ho
    simpa [heldSet, hl] using hm

theorem abortTransaction_frame (s : State) (Q : Nat) :
    (abortTransaction s Q).thread_timestamps = s.thread_timestamps ∧
    (abortTransaction s Q).transactions_aborted = s.transactions_aborted + 1 ∧
    (abortTransaction s Q).strategy = s.strategy := by
  have h := dropLocks_frame Q s
  refine ⟨?_, ?_, ?_⟩
  · exact h.2.2.1
  · show (dropLocks s Q).transactions_aborted + 1 = _
    rw [h.2.2.2.2.2.2]
  · exact h.1

theorem isOlderTransaction_congr (s s2 : State) (h : s2.thread_timestamps = s.thread_timestamps)
    (a b : Nat) : isOlderTransaction s2 a b = isOlderTransaction s a b := by
  simp [isOlderTransaction, getThreadTimestamp, h]

/-- The first loop of Wound-Wait when every contested account is owned by a younger thread: it
runs to its end, having aborted exactly the other owners of the batch. -/
theorem woundWaitLoop_wounds (th : Nat) (ids : List Int) (s : State)
    (h1 : OwnerHeld s) (h2 : HeldOwned s)
    (hy : ∀ r ∈ ids, ∀ q, find s.account_owners r = some q → q ≠ th →
      isOlderTransaction s th q = true) :
    ∃ s1, woundWaitLoop th s ids = (true, s1) ∧ OwnerHeld s1 ∧ HeldOwned s1 ∧
      (∀ r q, find s1.account_owners r = some q ↔
        find s.account_owners r = some q ∧ q ∉ otherOwners s th ids) ∧
      (∀ p l, find s1.thread_locks p = some l ↔
        find s.thread_locks p = some l ∧ p ∉ otherOwners s th ids) ∧
      s1.transactions_aborted = s.transactions_aborted + ((otherOwners s th ids).length : Int) ∧
      s1.thread_timestamps = s.thread_timestamps := by
  induction ids generalizing s with
  | nil =>
    refine ⟨s, rfl, h1, h2, ?_, ?_, ?_, rfl⟩
    · intro r q
      simp [otherOwners]
    · intro p l
      simp [otherOwners]
    · simp [otherOwners]
  | cons id t ih =>
    have hyt : ∀ r ∈ t, ∀ q, find s.account_owners r = some q → q ≠ th →
        isOlderTransaction s th q = true :=
      fun r hr => hy r (List.mem_cons_of_mem _ hr)
    cases ho : find s.account_owners id with
    | none =>
      have hsk := otherOwners_cons_skip s th id t (fun q hq => by simp [ho] at hq)
      obtain ⟨s1, e, r1, r2, r3, r4, r5, r6⟩ := ih s h1 h2 hyt
      refine ⟨s1, ?_, r1, r2, ?_, ?_, ?_, r6⟩
      · simp only [woundWaitLoop, ho]
        exact e
      · rw [hsk]; exact r3
      · rw [hsk]; exact r4
      · rw [hsk]; exact r5
    | some Q =>
      by_cases hQ : Q = th
      · have hsk := otherOwners_cons_skip s th id t
          (fun q hq => by rw [ho] at hq; exact (Option.some.inj hq) ▸ hQ)
        obtain ⟨s1, e, r1, r2, r3, r4, r5, r6⟩ := ih s h1 h2 hyt
        refine ⟨s1, ?_, r1, r2, ?_, ?_, ?_, r6⟩
        · simp only [woundWaitLoop, ho, hQ, ne_eq, not_true_eq_false, if_false]
          exact e
        · rw [hsk]; exact r3
        · rw [hsk]; exact r4
        · rw [hsk]; exact r5
      · have hold : isOlderTransaction s th Q = true :=
          hy id (List.mem_cons_self _ _) Q ho hQ
        have hfr := abortTransaction_frame s Q
        have hown : ∀ r q, find (abortTransaction s Q).account_owners r = some q ↔
            find s.account_owners r = some q ∧ q ≠ Q := by
          intro r q
          have hiff := mem_heldSet_iff_owner s h1 h2 Q r
          rw [owner_abortTransaction]
          by_cases hc : find s.account_owners r = some Q
          · have hm : r ∈ heldSet s Q := hiff.2 hc
            simp only [hm, if_true]
            constructor
            · intro h; simp at h
            · rintro ⟨h, h3⟩
              rw [hc] at h
              exact absurd (Option.some.inj h).symm h3
          · have hm : r ∉ heldSet s Q := fun h => hc (hiff.1 h)
            simp only [hm, if_false]
            constructor
            · intro h
              refine ⟨h, ?_⟩
              rintro rfl
              exact hc h
            · exact fun h => h.1
        have hyt2 : ∀ r ∈ t, ∀ q, find (abortTransaction s Q).account_owners r = some q →
            q ≠ th → isOlderTransaction (abortTransaction s Q) th q = true := by
          intro r hr q hq hne
          rw [isOlderTransaction_congr s _ hfr.1]
          exact hyt r hr q ((hown r q).1 hq).1 hne
        obtain ⟨s1, e, r1, r2, r3, r4, r5, r6⟩ :=
          ih (abortTransaction s Q) (ownerHeld_abortTransaction Q s h1)
            (heldOwned_abortTransaction s Q h2) hyt2
        have hO2 : ∀ q, q ∈ otherOwners (abortTransaction s Q) th t ↔
            q ≠ Q ∧ q ∈ otherOwners s th t := by
          intro q
          rw [mem_otherOwners, mem_otherOwners]
          constructor
          · rintro ⟨hq, r, hr, hrq⟩
            have := (hown r q).1 hrq
            exact ⟨this.2, hq, r, hr, this.1⟩
          · rintro ⟨hq1, hq, r, hr, hrq⟩
            exact ⟨hq, r, hr, (hown r q).2 ⟨hrq, hq1⟩⟩
        have hO : ∀ q, q ∈ otherOwners s th (id :: t) ↔
            q = Q ∨ q ∈ otherOwners (abortTransaction s Q) th t := by
          intro q
          rw [hO2, mem_otherOwners, mem_otherOwners]
          constructor
          · rintro ⟨hq, r, hr, hrq⟩
            by_cases hqQ : q = Q
            · exact Or.inl hqQ
            · right
              refine ⟨hqQ, hq, r, ?_, hrq⟩
              rcases List.mem_cons.1 hr with hr | hr
              · subst hr
                rw [ho] at hrq
                exact absurd (Option.some.inj hrq).symm hqQ
              · exact hr
          · rintro (hq | ⟨_, hq, r, hr, hrq⟩)
            · subst hq
              exact ⟨hQ, id, List.mem_cons_self _ _, ho⟩
            · exact ⟨hq, r, List.mem_cons_of_mem _ hr, hrq⟩
        have hQn : Q ∉ otherOwners (abortTransaction s Q) th t := by
          intro h
          exact ((hO2 Q).1 h).1 rfl
        have hlen : (otherOwners s th (id :: t)).length =
            (otherOwners (abortTransaction s Q) th t).length + 1 :=
          length_of_mem_iff_cons (List.nodup_dedup _) (List.nodup_dedup _) hQn hO
        refine ⟨s1, ?_, r1, r2, ?_, ?_, ?_, ?_⟩
        · simp only [woundWaitLoop, ho, ne_eq, hQ, not_false_eq_true, if_true, hold]
          exact e
        · intro r q
          rw [r3, hown, hO]
          tauto
        · intro p l
          rw [r4, locks_abortTransaction, hO]
          by_cases hp : Q = p
          · subst hp
            simp
          · have hp2 : ¬ p = Q := fun e => hp e.symm
            simp [hp, hp2]
        · rw [r5, hfr.2.1, hlen]
          push_cast
          ring
        · rw [r6, hfr.1]

theorem ownerHeld_of_check (s : State)
    (h : ∀ e ∈ s.account_owners, e.1 ∈ heldSet s e.2) : OwnerHeld s := by
  intro r p hr
  have hm := h (r, p) (mem_of_find hr)
  obtain ⟨l, hl⟩ := find_some_of_mem_heldSet hm
  exact ⟨l, hl, by simpa [heldSet, hl] using hm⟩

theorem heldOwned_of_check (s : State)
    (h : ∀ e ∈ s.thread_locks, ∀ r ∈ e.2, find s.account_owners r = some e.1) :
    HeldOwned s := by
  intro p l hl r hr
  exact h (p, l) (mem_of_find hl) r hr

/-! ## Timeout-Rollback -/

theorem tryLockAccounts_eq_false (s : State) (ids : List Int) (r : Int) (q : Nat)
    (hr : r ∈ ids) (ho : find s.account_owners r = some q) : tryLockAccounts s ids = false := by
  unfold tryLockAccounts
  rw [List.all_eq_false]
  exact ⟨r, hr, by simp [ho]⟩

/-- When every attempt fails, the polling loop ends with an abort as soon as one of the clock
readings within the fuel is past the timeout. -/
theorem timeoutRollbackLoop_expires (s : State) (ids : List Int) (th : Nat) (clock : Nat → Nat)
    (ht : tryLockAccounts s ids = false) (fuel k : Nat) (hf : 0 < fuel)
    (hc : s.lock_timeout ≤ (clock (k + fuel) : Int) - (clock 0 : Int)) :
    timeoutRollbackLoop s ids th clock fuel k =
      some (false, { s with transactions_aborted := s.transactions_aborted + 1 }) := by
  induction fuel generalizing k with
  | zero => exact absurd hf (lt_irrefl 0)
  | succ n ih =>
    unfold timeoutRollbackLoop
    by_cases hlt : (clock (k + 1) : Int) - (clock 0 : Int) < s.lock_timeout
    · simp only [hlt, if_true, ht]
      have hn : 0 < n := by
        rcases Nat.eq_zero_or_pos n with h0 | h0
        · subst h0
          exact absurd hc (not_le.2 hlt)
        · exact h0
      have hc2 : s.lock_timeout ≤ (clock (k + 1 + n) : Int) - (clock 0 : Int) := by
        have : k + 1 + n = k + (n + 1) := by omega
        rw [this]
        exact hc
      simpa using ih (k + 1) hn hc2
    · simp [hlt]

/-- The loop sleeps for one polling interval after every failed attempt, so the test number
`k` of the loop condition is read at least `k` intervals after `start_time`. -/
theorem clock_progress (clock : Nat → Nat) (hstart : clock 0 ≤ clock 1)
    (hsleep : ∀ k, 1 ≤ k → clock k + deadlock_check_interval ≤ clock (k + 1)) (k : Nat) :
    clock 0 + deadlock_check_interval * k ≤ clock (k + 1) := by
  induction k with
  | zero => simpa using hstart
  | succ n ih =>
    have := hsleep (n + 1) (Nat.succ_pos n)
    rw [Nat.mul_succ]
    omega

theorem timeout_elapsed (T : Int) (clock : Nat → Nat) (hstart : clock 0 ≤ clock 1)
    (hsleep : ∀ k, 1 ≤ k → clock k + deadlock_check_interval ≤ clock (k + 1)) (fuel : Nat)
    (hfuel : T.toNat / deadlock_check_interval + 2 ≤ fuel) :
    T ≤ (clock (0 + fuel) : Int) - (clock 0 : Int) := by
  have h3 : T.toNat < deadlock_check_interval * (T.toNat / deadlock_check_interval + 1) :=
    Nat.lt_mul_div_succ T.toNat (by decide)
  generalize T.toNat / deadlock_check_interval = q at h3 hfuel
  obtain ⟨n, rfl⟩ : ∃ n, fuel = n + 1 := ⟨fuel - 1, by omega⟩
  have h1 := clock_progress clock hstart hsleep n
  have h2 : T.toNat < deadlock_check_interval * n :=
    lt_of_lt_of_le h3 (Nat.mul_le_mul_left _ (by omega))
  have h4 : T ≤ (T.toNat : Int) := Int.self_le_toNat T
  rw [Nat.zero_add]
  omega

/-! ## Termination of the depth-first search -/

theorem unvisited_le (s : State) (v : List Nat) : unvisited s v ≤ s.account_owners.length := by
  unfold unvisited
  calc ((s.account_owners.map Prod.snd).toFinset \ v.toFinset).card
      ≤ (s.account_owners.map Prod.snd).toFinset.card :=
        Finset.card_le_card Finset.sdiff_subset
    _ ≤ (s.account_owners.map Prod.snd).length := List.toFinset_card_le _
    _ = s.account_owners.length := List.length_map _ _

theorem unvisited_mono (s : State) (v v2 : List Nat) (h : ∀ x ∈ v, x ∈ v2) :
    unvisited s v2 ≤ unvisited s v := by
  unfold unvisited
  apply Finset.card_le_card
  intro x hx
  simp only [Finset.mem_sdiff, List.mem_toFinset] at hx ⊢
  exact ⟨hx.1, fun hv => hx.2 (h x hv)⟩

theorem unvisited_insert_lt (s : State) (v : List Nat) (o : Nat) (r : Int)
    (ho : find s.account_owners r = some o) (hv : o ∉ v) :
    unvisited s (setInsert v o) < unvisited s v := by
  unfold unvisited
  apply Finset.card_lt_card
  rw [Finset.ssubset_iff_of_subset]
  · refine ⟨o, ?_, ?_⟩
    · simp only [Finset.mem_sdiff, List.mem_toFinset, List.mem_map]
      exact ⟨⟨(r, o), mem_of_find ho, rfl⟩, hv⟩
    · simp [mem_setInsert]
  · intro x hx
    simp only [Finset.mem_sdiff, List.mem_toFinset, mem_setInsert] at hx ⊢
    exact ⟨hx.1, fun h => hx.2 (Or.inl h)⟩

theorem dfsRequests_visited (s : State)
    (visit : Nat → List Nat → List Nat → Option (Bool × List Nat × List Nat))
    (hvisit : ∀ o v st b v2 st2, visit o v st = some (b, v2, st2) → ∀ x ∈ v, x ∈ v2)
    (reqs : List LockRequest) (v st : List Nat) (b : Bool) (v2 st2 : List Nat)
    (h : dfsRequests s visit reqs v st = some (b, v2, st2)) : ∀ x ∈ v, x ∈ v2 := by
  induction reqs generalizing v st with
  | nil =>
    simp only [dfsRequests, Option.some.injEq, Prod.mk.injEq] at h
    intro x hx
    exact h.2.1 ▸ hx
  | cons req t ih =>
    unfold dfsRequests at h
    split at h
    · split at h
      · simp only [Option.some.injEq, Prod.mk.injEq] at h
        intro x hx
        exact h.2.1 ▸ hx
      · split at h
        · split at h
          · simp at h
          · next vv stt hcall =>
            simp only [Option.some.injEq, Prod.mk.injEq] at h
            intro x hx
            exact h.2.1 ▸ hvisit _ _ _ _ _ _ hcall x hx
          · next vv stt hcall =>
            intro x hx
            exact ih vv stt h x (hvisit _ _ _ _ _ _ hcall x hx)
        · exact ih v st h
    · exact ih v st h

theorem dfsHasCycle_visited (s : State) (fuel : Nat) (c : Nat) (v st : List Nat) (b : Bool)
    (v2 st2 : List Nat) (h : dfsHasCycle s fuel c v st = some (b, v2, st2)) :
    ∀ x ∈ v, x ∈ v2 := by
  induction fuel generalizing c v st b v2 st2 with
  | zero => simp [dfsHasCycle] at h
  | succ n ih =>
    unfold dfsHasCycle at h
    split at h
    · simp at h
    · next vv stt hcall =>
      simp only [Option.some.injEq, Prod.mk.injEq] at h
      intro x hx
      have := dfsRequests_visited s (dfsHasCycle s n) ih _ _ _ _ _ _ hcall x
        ((mem_setInsert v c x).2 (Or.inl hx))
      exact h.2.1 ▸ this
    · next vv stt hcall =>
      simp only [Option.some.injEq, Prod.mk.injEq] at h
      intro x hx
      have := dfsRequests_visited s (dfsHasCycle s n) ih _ _ _ _ _ _ hcall x
        ((mem_setInsert v c x).2 (Or.inl hx))
      exact h.2.1 ▸ this

theorem dfsRequests_isSome (s : State) (n : Nat)
    (ih : ∀ c v st, unvisited s (setInsert v c) < n → (dfsHasCycle s n c v st).isSome = true)
    (reqs : List LockRequest) (v st : List Nat) (hv : unvisited s v ≤ n) :
    (dfsRequests s (dfsHasCycle s n) reqs v st).isSome = true := by
  induction reqs generalizing v st with
  | nil => simp [dfsRequests]
  | cons req t iht =>
    unfold dfsRequests
    cases ho : find s.account_owners req.account_id with
    | none => exact iht v st hv
    | some o =>
      simp only
      by_cases h1 : o ∈ st
      · simp [h1]
      · simp only [h1, if_false]
        by_cases h2 : o ∈ v
        · simp only [h2, not_true_eq_false, if_false]
          exact iht v st hv
        · simp only [h2, not_false_eq_true, if_true]
          have hlt : unvisited s (setInsert v o) < n :=
            lt_of_lt_of_le (unvisited_insert_lt s v o _ ho h2) hv
          have hsome := ih o v st hlt
          cases hcall : dfsHasCycle s n o v st with
          | none => simp [hcall] at hsome
          | some res =>
            obtain ⟨b, vv, stt⟩ := res
            cases b with
            | true => simp
            | false =>
              simp only
              exact iht vv stt
                (le_trans (unvisited_mono s v vv (dfsHasCycle_visited s n o v st _ _ _ hcall)) hv)

theorem dfsHasCycle_isSome (s : State) (fuel : Nat) (c : Nat) (v st : List Nat)
    (h : unvisited s (setInsert v c) < fuel) : (dfsHasCycle s fuel c v st).isSome = true := by
  induction fuel generalizing c v st with
  | zero => exact absurd h (Nat.not_lt_zero _)
  | succ n ih =>
    unfold dfsHasCycle
    have hsome := dfsRequests_isSome s n ih ((find s.waiting_requests c).getD [])
      (setInsert v c) (setInsert st c) (Nat.lt_succ_iff.1 h)
    cases hcall : dfsRequests s (dfsHasCycle s n) ((find s.waiting_requests c).getD [])
        (setInsert v c) (setInsert st c) with
    | none => simp [hcall] at hsome
    | some res =>
      obtain ⟨b, vv, stt⟩ := res
      cases b <;> simp

theorem dfsHasCycle_dfsFuel (s : State) (c : Nat) (v st : List Nat) :
    (dfsHasCycle s (dfsFuel s) c v st).isSome = true :=
  dfsHasCycle_isSome s _ c v st (Nat.lt_succ_of_le (unvisited_le s _))

theorem findCycleFrom_isSome (s : State) (entries : List (Nat × List Int)) (v st : List Nat) :
    (findCycleFrom s (dfsFuel s) entries v st).isSome = true := by
  induction entries generalizing v st with
  | nil => simp [findCycleFrom]
  | cons e t ih =>
    obtain ⟨th, l⟩ := e
    unfold findCycleFrom
    by_cases h : th ∈ v
    · simp only [h, not_true_eq_false, if_false]
      exact ih v st
    · simp only [h, not_false_eq_true, if_true]
      have hsome := dfsHasCycle_dfsFuel s th v st
      cases hcall : dfsHasCycle s (dfsFuel s) th v st with
      | none => simp [hcall] at hsome
      | some res =>
        obtain ⟨b, vv, stt⟩ := res
        cases b with
        | true => simp
        | false => exact ih vv stt

theorem hasCycleFrom_isSome (s : State) (entries : List (Nat × List Int)) (v st : List Nat) :
    (hasCycleFrom s (dfsFuel s) entries v st).isSome = true := by
  induction entries generalizing v st with
  | nil => simp [hasCycleFrom]
  | cons e t ih =>
    obtain ⟨th, l⟩ := e
    unfold hasCycleFrom
    by_cases h : th ∈ v
    · simp only [h, not_true_eq_false, if_false]
      exact ih v st
    · simp only [h, not_false_eq_true, if_true]
      have hsome := dfsHasCycle_dfsFuel s th v st
      cases hcall : dfsHasCycle s (dfsFuel s) th v st with
      | none => simp [hcall] at hsome
      | some res =>
        obtain ⟨b, vv, stt⟩ := res
        cases b with
        | true => simp
        | false => exact ih vv stt

/-- With depth `dfsFuel s` the method `detectDeadlock` returns. -/
theorem detectDeadlock_returns (s : State) : ∃ b, detectDeadlock s (dfsFuel s) = some b := by
  have h := hasCycleFrom_isSome s s.thread_locks [] []
  exact Option.isSome_iff_exists.1 h

/-- With depth `dfsFuel s` the method `resolveDeadlock` returns. -/
theorem resolveDeadlock_returns (s : State) :
    ∃ b s2, resolveDeadlock s (dfsFuel s) = some (b, s2) := by
  have h := findCycleFrom_isSome s s.thread_locks [] []
  unfold resolveDeadlock findDeadlockCycle
  cases hc : findCycleFrom s (dfsFuel s) s.thread_locks [] [] with
  | none => simp [hc] at h
  | some cyc =>
    cases cyc with
    | nil => exact ⟨false, s, rfl⟩
    | cons a t => exact ⟨true, _, rfl⟩

/-- The polling loop returns as soon as one of the clock readings within the fuel is past the
timeout. -/
theorem timeoutRollbackLoop_isSome (s : State) (ids : List Int) (th : Nat) (clock : Nat → Nat)
    (fuel k : Nat) (hf : 0 < fuel)
    (hc : s.lock_timeout ≤ (clock (k + fuel) : Int) - (clock 0 : Int)) :
    (timeoutRollbackLoop s ids th clock fuel k).isSome = true := by
  induction fuel generalizing k with
  | zero => exact absurd hf (lt_irrefl 0)
  | succ n ih =>
    unfold timeoutRollbackLoop
    by_cases hlt : (clock (k + 1) : Int) - (clock 0 : Int) < s.lock_timeout
    · simp only [hlt, if_true]
      by_cases ht : tryLockAccounts s ids = true
      · simp [ht]
      · simp only [ht, Bool.false_eq_true, if_false]
        have hn : 0 < n := by
          rcases Nat.eq_zero_or_pos n with h0 | h0
          · subst h0
            exact absurd hc (not_le.2 hlt)
          · exact h0
        have hc2 : s.lock_timeout ≤ (clock (k + 1 + n) : Int) - (clock 0 : Int) := by
          have : k + 1 + n = k + (n + 1) := by omega
          rw [this]
          exact hc
        exact ih (k + 1) hn hc2
    · simp [hlt]

/-- Under every strategy `requestLocks` returns, provided the clock does not go back and
advances by at least one polling interval over every sleep, and the fuel covers the timeout. -/
theorem requestLocks_returns (s : State) (ids : List Int) (txn : Int) (rh th : Nat)
    (clock : Nat → Nat) (fuel : Nat) (hstart : clock 0 ≤ clock 1)
    (hsleep : ∀ k, 1 ≤ k → clock k + deadlock_check_interval ≤ clock (k + 1))
    (hfuel : s.lock_timeout.toNat / deadlock_check_interval + 2 ≤ fuel) :
    ∃ b s2, requestLocks s ids txn rh th clock fuel = some (b, s2) := by
  unfold requestLocks
  simp only
  split
  · exact ⟨_, _, rfl⟩
  · exact ⟨_, _, rfl⟩
  · exact ⟨_, _, rfl⟩
  · have hpos : 0 < fuel := lt_of_lt_of_le (Nat.succ_pos _) hfuel
    have h := timeoutRollbackLoop_isSome (registerThread s txn rh) ids th clock fuel 0 hpos
      (timeout_elapsed s.lock_timeout clock hstart hsleep fuel hfuel)
    obtain ⟨res, hres⟩ := Option.isSome_iff_exists.1 h
    exact ⟨res.1, res.2, hres⟩

/-! ## Effect of `releaseLocks` and `releaseAllLocks` -/

theorem mem_foldl_setErase (B : List Int) (l : List Int) (x : Int) :
    x ∈ B.foldl setErase l ↔ x ∈ l ∧ x ∉ B := by
  induction B generalizing l with
  | nil => simp
  | cons b t ih =>
    simp only [List.foldl_cons, ih, mem_setErase, List.mem_cons, not_or]
    tauto

theorem heldSet_unlockAccount (th : Nat) (s : State) (id : Int) :
    heldSet (unlockAccount th s id) th = setErase (heldSet s th) id := by
  simp [heldSet, locks_unlockAccount]

theorem heldSet_foldl_unlockAccount (th : Nat) (B : List Int) (s : State) :
    heldSet (B.foldl (unlockAccount th) s) th = B.foldl setErase (heldSet s th) := by
  induction B generalizing s with
  | nil => rfl
  | cons b t ih =>
    simp only [List.foldl_cons, ih, heldSet_unlockAccount]

theorem locks_foldl_unlockAccount_other (th : Nat) (B : List Int) (s : State) (p : Nat)
    (hp : p ≠ th) :
    find (B.foldl (unlockAccount th) s).thread_locks p = find s.thread_locks p := by
  induction B generalizing s with
  | nil => rfl
  | cons b t ih =>
    have h3 : ¬ th = p := fun e => hp e.symm
    simp only [List.foldl_cons, ih, locks_unlockAccount, h3, if_false]

theorem foldl_unlockAccount_rest (th : Nat) (B : List Int) (s : State) :
    (B.foldl (unlockAccount th) s).waiting_requests = s.waiting_requests ∧
    (B.foldl (unlockAccount th) s).thread_timestamps = s.thread_timestamps ∧
    (B.foldl (unlockAccount th) s).lock_timeout = s.lock_timeout ∧
    (B.foldl (unlockAccount th) s).deadlocks_detected = s.deadlocks_detected ∧
    (B.foldl (unlockAccount th) s).deadlocks_prevented = s.deadlocks_prevented ∧
    (B.foldl (unlockAccount th) s).transactions_aborted = s.transactions_aborted ∧
    (B.foldl (unlockAccount th) s).account_owners = B.foldl erase s.account_owners := by
  induction B generalizing s with
  | nil => simp
  | cons b t ih =>
    have h := ih (unlockAccount th s b)
    simp only [List.foldl_cons]
    exact ⟨h.1, h.2.1, h.2.2.1, h.2.2.2.1, h.2.2.2.2.1, h.2.2.2.2.2.1, h.2.2.2.2.2.2⟩

/-- The owner of an account after `releaseLocks`: erased when the caller has a `thread_locks`
entry and the account is in the batch, kept otherwise. -/
theorem owner_releaseLocks (s : State) (B : List Int) (th : Nat) (r : Int) :
    find (releaseLocks s B th).account_owners r =
      if (find s.thread_locks th).isSome = true ∧ r ∈ B then none
      else find s.account_owners r := by
  cases hl : find s.thread_locks th with
  | none =>
    simp [releaseLocks, hl]
  | some l =>
    rw [owner_releaseLocks_of_entry s B th l hl r]
    simp

theorem locks_releaseLocks_other (s : State) (B : List Int) (th p : Nat) (hp : p ≠ th) :
    find (releaseLocks s B th).thread_locks p = find s.thread_locks p := by
  unfold releaseLocks
  cases hl : find s.thread_locks th with
  | none => rfl
  | some l =>
    simp only
    have h3 : ¬ th = p := fun e => hp e.symm
    split
    · simp only [find_erase, h3, if_false]
      exact locks_foldl_unlockAccount_other th B s p hp
    · exact locks_foldl_unlockAccount_other th B s p hp

theorem mem_heldSet_releaseLocks_self (s : State) (B : List Int) (th : Nat) (r : Int) :
    r ∈ heldSet (releaseLocks s B th) th ↔ r ∈ heldSet s th ∧ r ∉ B := by
  cases hl : find s.thread_locks th with
  | none =>
    have h1 : heldSet (releaseLocks s B th) th = [] := by
      simp [releaseLocks, heldSet, hl]
    have h2 : heldSet s th = [] := by simp [heldSet, hl]
    simp [h1, h2]
  | some l =>
    have hf := heldSet_foldl_unlockAccount th B s
    have hm := mem_foldl_setErase B (heldSet s th) r
    by_cases he : heldSet (B.foldl (unlockAccount th) s) th = []
    · have h1 : heldSet (releaseLocks s B th) th = [] := by
        unfold heldSet at he
        simp [releaseLocks, heldSet, hl, he, find_erase]
      rw [h1, ← hm, ← hf, he]
    · have h1 : heldSet (releaseLocks s B th) th =
          heldSet (B.foldl (unlockAccount th) s) th := by
        unfold heldSet at he
        simp [releaseLocks, heldSet, hl, he]
      rw [h1, hf, hm]

section Idempotence
variable {κ ν : Type} [DecidableEq κ]

theorem erase_erase (m : List (κ × ν)) (k : κ) : erase (erase m k) k = erase m k := by
  simp [erase, List.filter_filter]

theorem erase_eq_self (m : List (κ × ν)) (k : κ) (h : ∀ e ∈ m, e.1 ≠ k) : erase m k = m := by
  unfold erase
  rw [List.filter_eq_self]
  intro e he
  simpa using h e he

theorem mem_foldl_erase (ks : List κ) (m : List (κ × ν)) (e : κ × ν) :
    e ∈ ks.foldl erase m ↔ e ∈ m ∧ e.1 ∉ ks := by
  induction ks generalizing m with
  | nil => simp
  | cons k t ih =>
    simp only [List.foldl_cons, ih, erase, List.mem_filter, List.mem_cons, not_or,
      decide_eq_true_eq]
    tauto

end Idempotence

theorem setErase_eq_self (l : List Int) (a : Int) (h : a ∉ l) : setErase l a = l := by
  unfold setErase
  rw [List.filter_eq_self]
  intro x hx
  have : x ≠ a := fun e => h (e ▸ hx)
  simpa using this

/-- Unlocking an account that is neither in the caller's set nor in the ownership map changes
nothing. -/
theorem unlockAccount_eq_self (th : Nat) (s : State) (id : Int) (l : List Int)
    (hl : find s.thread_locks th = some l) (hid : id ∉ l)
    (ho : ∀ e ∈ s.account_owners, e.1 ≠ id) : unlockAccount th s id = s := by
  have h1 : assign s.thread_locks th (setErase ((find s.thread_locks th).getD []) id) =
      s.thread_locks := by
    rw [hl, Option.getD_some, setErase_eq_self l id hid]
    exact assign_eq_self _ _ _ hl
  have h2 : erase s.account_owners id = s.account_owners := erase_eq_self _ _ ho
  unfold unlockAccount
  rw [h1, h2]

theorem foldl_unlockAccount_eq_self (th : Nat) (B : List Int) (s : State) (l : List Int)
    (hl : find s.thread_locks th = some l) (hid : ∀ id ∈ B, id ∉ l)
    (ho : ∀ id ∈ B, ∀ e ∈ s.account_owners, e.1 ≠ id) :
    B.foldl (unlockAccount th) s = s := by
  induction B with
  | nil => rfl
  | cons b t ih =>
    rw [List.foldl_cons,
      unlockAccount_eq_self th s b l hl (hid b (List.mem_cons_self _ _))
        (ho b (List.mem_cons_self _ _))]
    exact ih (fun id h => hid id (List.mem_cons_of_mem _ h))
      (fun id h => ho id (List.mem_cons_of_mem _ h))

theorem releaseLocks_of_no_entry (s : State) (B : List Int) (th : Nat)
    (hl : find s.thread_locks th = none) :
    releaseLocks s B th = { s with waiting_requests := erase s.waiting_requests th } := by
  simp [releaseLocks, hl]

theorem releaseLocks_of_entry_empty (s : State) (B : List Int) (th : Nat) (l : List Int)
    (hl : find s.thread_locks th = some l)
    (he : heldSet (B.foldl (unlockAccount th) s) th = []) :
    releaseLocks s B th =
      { B.foldl (unlockAccount th) s with
        thread_locks := erase (B.foldl (unlockAccount th) s).thread_locks th
        waiting_requests := erase (B.foldl (unlockAccount th) s).waiting_requests th } := by
  unfold heldSet at he
  simp [releaseLocks, hl, he]

theorem releaseLocks_of_entry_nonempty (s : State) (B : List Int) (th : Nat) (l : List Int)
    (hl : find s.thread_locks th = some l)
    (he : ¬ heldSet (B.foldl (unlockAccount th) s) th = []) :
    releaseLocks s B th =
      { B.foldl (unlockAccount th) s with
        waiting_requests := erase (B.foldl (unlockAccount th) s).waiting_requests th } := by
  unfold heldSet at he
  simp [releaseLocks, hl, he]

theorem state_waiting_eta (s : State) (th : Nat) (h : erase s.waiting_requests th = s.waiting_requests) :
    { s with waiting_requests := erase s.waiting_requests th } = s := by
  rw [h]

/-- A second `releaseLocks` of the same batch by the same thread changes nothing. -/
theorem releaseLocks_idem (s : State) (B : List Int) (th : Nat) :
    releaseLocks (releaseLocks s B th) B th = releaseLocks s B th := by
  cases hl : find s.thread_locks th with
  | none =>
    have h1 := releaseLocks_of_no_entry s B th hl
    have h2 : find (releaseLocks s B th).thread_locks th = none := by
      rw [h1]
      exact hl
    rw [releaseLocks_of_no_entry _ B th h2]
    apply state_waiting_eta
    rw [h1]
    exact erase_erase _ _
  | some l =>
    have hrest := foldl_unlockAccount_rest th B s
    by_cases he : heldSet (B.foldl (unlockAccount th) s) th = []
    · have h1 := releaseLocks_of_entry_empty s B th l hl he
      have h2 : find (releaseLocks s B th).thread_locks th = none := by
        rw [h1]
        simp [find_erase]
      rw [releaseLocks_of_no_entry _ B th h2]
      apply state_waiting_eta
      rw [h1]
      exact erase_erase _ _
    · have h1 := releaseLocks_of_entry_nonempty s B th l hl he
      obtain ⟨l2, hl2⟩ : ∃ l2, find (B.foldl (unlockAccount th) s).thread_locks th = some l2 := by
        cases hf : find (B.foldl (unlockAccount th) s).thread_locks th with
        | none => simp [heldSet, hf] at he
        | some l2 => exact ⟨l2, rfl⟩
      have hheld : l2 = B.foldl setErase (heldSet s th) := by
        have := heldSet_foldl_unlockAccount th B s
        simpa [heldSet, hl2] using this
      have hid : ∀ id ∈ B, id ∉ l2 := by
        intro id hid hm
        rw [hheld, mem_foldl_setErase] at hm
        exact hm.2 hid
      have hown : (releaseLocks s B th).account_owners = B.foldl erase s.account_owners := by
        rw [h1]
        exact hrest.2.2.2.2.2.2
      have ho : ∀ id ∈ B, ∀ e ∈ (releaseLocks s B th).account_owners, e.1 ≠ id := by
        intro id hid e hm
        rw [hown, mem_foldl_erase] at hm
        exact fun h => hm.2 (h ▸ hid)
      have hl3 : find (releaseLocks s B th).thread_locks th = some l2 := by
        rw [h1]
        exact hl2
      have hfold := foldl_unlockAccount_eq_self th B (releaseLocks s B th) l2 hl3 hid ho
      have hne : ¬ heldSet (B.foldl (unlockAccount th) (releaseLocks s B th)) th = [] := by
        rw [hfold]
        simp only [heldSet, hl3, Option.getD_some]
        simpa [heldSet, hl2] using he
      have h4 := releaseLocks_of_entry_nonempty (releaseLocks s B th) B th l2 hl3 hne
      rw [hfold] at h4
      rw [h4]
      apply state_waiting_eta
      rw [h1]
      exact erase_erase _ _

/-- The table updates of `releaseAllLocks`, mutex left aside: the thread has no entry left in
`thread_locks`, `waiting_requests` and `thread_timestamps`, the accounts of its set have no owner,
and nothing else changes. -/
theorem releaseAllLocks_tables (s : State) (P : Nat) :
    find (releaseAllLocks s P).thread_locks P = none ∧
    find (releaseAllLocks s P).waiting_requests P = none ∧
    find (releaseAllLocks s P).thread_timestamps P = none ∧
    (∀ r ∈ heldSet s P, find (releaseAllLocks s P).account_owners r = none) ∧
    (∀ q, q ≠ P →
      find (releaseAllLocks s P).thread_locks q = find s.thread_locks q ∧
      find (releaseAllLocks s P).waiting_requests q = find s.waiting_requests q ∧
      find (releaseAllLocks s P).thread_timestamps q = find s.thread_timestamps q) ∧
    (∀ r, r ∉ heldSet s P →
      find (releaseAllLocks s P).account_owners r = find s.account_owners r) ∧
    (releaseAllLocks s P).deadlocks_detected = s.deadlocks_detected ∧
    (releaseAllLocks s P).deadlocks_prevented = s.deadlocks_prevented ∧
    (releaseAllLocks s P).transactions_aborted = s.transactions_aborted := by
  have hfr := dropLocks_frame P s
  have hown : ∀ r, find (releaseAllLocks s P).account_owners r =
      if r ∈ heldSet s P then none else find s.account_owners r := by
    intro r
    have := owner_dropLocks P s r
    simpa [releaseAllLocks, unregisterThread] using this
  have hlocks : ∀ q, find (releaseAllLocks s P).thread_locks q =
      if P = q then none else find s.thread_locks q := by
    intro q
    simp only [releaseAllLocks, unregisterThread, find_erase, locks_dropLocks]
    by_cases h : P = q <;> simp [h]
  have hwait : ∀ q, find (releaseAllLocks s P).waiting_requests q =
      if P = q then none else find s.waiting_requests q := by
    intro q
    simp only [releaseAllLocks, unregisterThread, find_erase, hfr.2.1]
    by_cases h : P = q <;> simp [h]
  have hts : ∀ q, find (releaseAllLocks s P).thread_timestamps q =
      if P = q then none else find s.thread_timestamps q := by
    intro q
    simp only [releaseAllLocks, unregisterThread, find_erase, hfr.2.2.1]
  refine ⟨by simp [hlocks], by simp [hwait], by simp [hts], ?_, ?_, ?_, ?_, ?_, ?_⟩
  · intro r hr
    simp [hown, hr]
  · intro q hq
    have h : ¬ P = q := fun e => hq e.symm
    simp [hlocks, hwait, hts, h]
  · intro r hr
    simp [hown, hr]
  · exact hfr.2.2.2.2.1
  · exact hfr.2.2.2.2.2.1
  · exact hfr.2.2.2.2.2.2

/-- A call of `releaseAllLocks` never returns: it blocks on the guard of `unregisterThread`,
before the timestamp of the thread is erased. -/
theorem releaseAllLocksCall_blocked (s : State) (P : Nat) :
    releaseAllLocksCall s P =
      CallOutcome.blocked
        { dropLocks s P with waiting_requests := erase (dropLocks s P).waiting_requests P } :=
  rfl

/-! ## Ages -/

theorem timestamps_acquireLocks (s : State) (th : Nat) (ids : List Int) :
    (acquireLocks s th ids).thread_timestamps = s.thread_timestamps :=
  (acquireLocks_frame th ids s).2.2.1

theorem timestamps_woundWaitLoop (th : Nat) (ids : List Int) (s : State) :
    (woundWaitLoop th s ids).2.thread_timestamps = s.thread_timestamps := by
  induction ids generalizing s with
  | nil => rfl
  | cons id t ih =>
    unfold woundWaitLoop
    split
    · split
      · split
        · rw [ih, (abortTransaction_frame s _).1]
        · rfl
      · exact ih s
    · exact ih s

/-- No strategy writes `thread_timestamps`: after `requestLocks` the table is the one left by
the registration at the start of the call. -/
theorem timestamps_requestLocks (s : State) (ids : List Int) (txn : Int) (rh th : Nat)
    (clock : Nat → Nat) (fuel : Nat) (b : Bool) (s2 : State)
    (hr : requestLocks s ids txn rh th clock fuel = some (b, s2)) :
    s2.thread_timestamps = assign s.thread_timestamps rh txn := by
  unfold requestLocks at hr
  simp only at hr
  split at hr
  · simp only [Option.some.injEq] at hr
    unfold lockOrderingStrategy at hr
    simp only at hr
    split at hr
    · simp only [Prod.mk.injEq] at hr
      rw [← hr.2]
      rfl
    · simp only [Prod.mk.injEq] at hr
      rw [← hr.2]
      exact timestamps_acquireLocks _ th _
  · simp only [Option.some.injEq] at hr
    unfold waitDieStrategy at hr
    split at hr
    · split at hr
      · simp only [Prod.mk.injEq] at hr
        rw [← hr.2]
        exact (enqueueRequests_tables _ ids txn th clock).2.2.1
      · simp only [Prod.mk.injEq] at hr
        rw [← hr.2]
        rfl
    · simp only [Prod.mk.injEq] at hr
      rw [← hr.2]
      exact timestamps_acquireLocks _ th _
  · simp only [Option.some.injEq] at hr
    unfold woundWaitStrategy at hr
    have hloop := timestamps_woundWaitLoop th ids (registerThread s txn rh)
    split at hr
    · next s1 he =>
      simp only [Prod.mk.injEq] at hr
      rw [he] at hloop
      rw [← hr.2, timestamps_acquireLocks]
      exact hloop
    · next s1 he =>
      simp only [Prod.mk.injEq] at hr
      rw [he] at hloop
      rw [← hr.2, (enqueueRequests_tables _ ids txn th clock).2.2.1]
      exact hloop
  · cases b with
    | true =>
      rw [timeoutRollbackLoop_granted _ ids th clock fuel 0 s2 hr]
      exact timestamps_acquireLocks _ th _
    | false =>
      rw [timeoutRollbackLoop_refused _ ids th clock fuel 0 s2 hr]
      rfl

/-! ## Correctness of the depth-first search -/

theorem setErase_setInsert (st : List Nat) (c : Nat) (h : c ∉ st) :
    setErase (setInsert st c) c = st := by
  simp only [setInsert, h, if_false, setErase, List.filter_append]
  have h1 : st.filter (fun x => decide (x ≠ c)) = st := by
    rw [List.filter_eq_self]
    intro x hx
    have : x ≠ c := fun e => h (e ▸ hx)
    simpa using this
  rw [h1]
  simp

theorem dfsClosed_reach (s : State) (v st : List Nat) (hcl : DfsClosed s v st) (x z : Nat)
    (hx : x ∈ v) (hxs : x ∉ st) (hr : Relation.ReflTransGen (WaitsFor s) x z) :
    z ∈ v ∧ z ∉ st := by
  induction hr with
  | refl => exact ⟨hx, hxs⟩
  | tail _ hw ih => exact hcl _ ih.1 ih.2 _ hw

theorem dfsRequests_spec (s : State) (c : Nat)
    (visit : Nat → List Nat → List Nat → Option (Bool × List Nat × List Nat))
    (hvisit : ∀ o v st res, visit o v st = some res → o ∉ v → o ∉ st →
      (∀ x ∈ st, Relation.TransGen (WaitsFor s) x o) → DfsClosed s v st → DfsAcyclic s v st →
      DfsPost s o v st res)
    (reqs : List LockRequest) (v st : List Nat) (res : Bool × List Nat × List Nat)
    (hreqs : ∀ req ∈ reqs, ∀ o, find s.account_owners req.account_id = some o → WaitsFor s c o)
    (hpath : ∀ x ∈ st, Relation.ReflTransGen (WaitsFor s) x c)
    (hcl : DfsClosed s v st) (hac : DfsAcyclic s v st)
    (h : dfsRequests s visit reqs v st = some res) :
    (res.1 = true → HasCycle s) ∧
    (res.1 = false →
      res.2.2 = st ∧ (∀ x ∈ v, x ∈ res.2.1) ∧
      DfsClosed s res.2.1 st ∧ DfsAcyclic s res.2.1 st ∧
      ∀ req ∈ reqs, ∀ o, find s.account_owners req.account_id = some o →
        o ∈ res.2.1 ∧ o ∉ st) := by
  induction reqs generalizing v st with
  | nil =>
    simp only [dfsRequests, Option.some.injEq] at h
    subst h
    refine ⟨fun hb => by simp at hb, fun _ => ⟨rfl, fun x hx => hx, hcl, hac, ?_⟩⟩
    intro req hreq
    simp at hreq
  | cons req t ih =>
    have hreqs_t : ∀ r ∈ t, ∀ o, find s.account_owners r.account_id = some o → WaitsFor s c o :=
      fun r hr => hreqs r (List.mem_cons_of_mem _ hr)
    cases ho : find s.account_owners req.account_id with
    | none =>
      simp only [dfsRequests, ho] at h
      obtain ⟨p1, p2⟩ := ih v st hreqs_t hpath hcl hac h
      refine ⟨p1, fun hb => ?_⟩
      obtain ⟨q1, q2, q3, q4, q5⟩ := p2 hb
      refine ⟨q1, q2, q3, q4, ?_⟩
      intro r hr o hro
      rcases List.mem_cons.1 hr with hr | hr
      · subst hr
        rw [ho] at hro
        simp at hro
      · exact q5 r hr o hro
    | some o =>
      have hw : WaitsFor s c o := hreqs req (List.mem_cons_self _ _) o ho
      by_cases h1 : o ∈ st
      · simp only [dfsRequests, ho, h1, if_true, Option.some.injEq] at h
        subst h
        refine ⟨fun _ => ⟨c, Relation.TransGen.head' hw (hpath o h1)⟩, fun hb => ?_⟩
        simp at hb
      · by_cases h2 : o ∈ v
        · simp only [dfsRequests, ho, h1, if_false, h2, not_true_eq_false] at h
          obtain ⟨p1, p2⟩ := ih v st hreqs_t hpath hcl hac h
          refine ⟨p1, fun hb => ?_⟩
          obtain ⟨q1, q2, q3, q4, q5⟩ := p2 hb
          refine ⟨q1, q2, q3, q4, ?_⟩
          intro r hr o2 hro
          rcases List.mem_cons.1 hr with hr | hr
          · subst hr
            rw [ho] at hro
            have := Option.some.inj hro
            subst this
            exact ⟨q2 _ h2, h1⟩
          · exact q5 r hr o2 hro
        · simp only [dfsRequests, ho, h1, if_false, h2, not_false_eq_true, if_true] at h
          cases hcall : visit o v st with
          | none => simp [hcall] at h
          | some r1 =>
            obtain ⟨b, v1, st1⟩ := r1
            have hpo : ∀ x ∈ st, Relation.TransGen (WaitsFor s) x o :=
              fun x hx => Relation.TransGen.tail' (hpath x hx) hw
            have hpost := hvisit o v st (b, v1, st1) hcall h2 h1 hpo hcl hac
            cases b with
            | true =>
              simp only [hcall, Option.some.injEq] at h
              subst h
              exact ⟨fun _ => hpost.1 rfl, fun hb => by simp at hb⟩
            | false =>
              simp only [hcall] at h
              obtain ⟨e1, e2, e3, e4, e5⟩ := hpost.2 rfl
              simp only at e1 e2 e3 e4 e5
              subst e1
              obtain ⟨p1, p2⟩ := ih v1 st1 hreqs_t hpath e4 e5 h
              refine ⟨p1, fun hb => ?_⟩
              obtain ⟨q1, q2, q3, q4, q5⟩ := p2 hb
              refine ⟨q1, fun x hx => q2 x (e2 x hx), q3, q4, ?_⟩
              intro r hr o2 hro
              rcases List.mem_cons.1 hr with hr | hr
              · subst hr
                rw [ho] at hro
                have := Option.some.inj hro
                subst this
                exact ⟨q2 _ e3, h1⟩
              · exact q5 r hr o2 hro

theorem dfsHasCycle_spec (s : State) (fuel : Nat) (c : Nat) (v st : List Nat)
    (res : Bool × List Nat × List Nat) (h : dfsHasCycle s fuel c v st = some res)
    (hcv : c ∉ v) (hcs : c ∉ st) (hpath : ∀ x ∈ st, Relation.TransGen (WaitsFor s) x c)
    (hcl : DfsClosed s v st) (hac : DfsAcyclic s v st) : DfsPost s c v st res := by
  induction fuel generalizing c v st res with
  | zero => simp [dfsHasCycle] at h
  | succ n ih =>
    have hvisit : ∀ o v st res, dfsHasCycle s n o v st = some res → o ∉ v → o ∉ st →
        (∀ x ∈ st, Relation.TransGen (WaitsFor s) x o) → DfsClosed s v st →
        DfsAcyclic s v st → DfsPost s o v st res :=
      fun o v st res h1 h2 h3 h4 h5 h6 => ih o v st res h1 h2 h3 h4 h5 h6
    have hreqs : ∀ req ∈ (find s.waiting_requests c).getD [], ∀ o,
        find s.account_owners req.account_id = some o → WaitsFor s c o :=
      fun req hreq o ho => ⟨req, hreq, ho⟩
    have hpath2 : ∀ x ∈ setInsert st c, Relation.ReflTransGen (WaitsFor s) x c := by
      intro x hx
      rcases (mem_setInsert st c x).1 hx with hx | hx
      · exact (hpath x hx).to_reflTransGen
      · subst hx
        exact Relation.ReflTransGen.refl
    have hcl2 : DfsClosed s (setInsert v c) (setInsert st c) := by
      intro x hx hxs y hy
      have hxc : x ≠ c := fun e => hxs ((mem_setInsert st c x).2 (Or.inr e))
      have hxv : x ∈ v := by
        rcases (mem_setInsert v c x).1 hx with h1 | h1
        · exact h1
        · exact absurd h1 hxc
      have hxst : x ∉ st := fun e => hxs ((mem_setInsert st c x).2 (Or.inl e))
      obtain ⟨y1, y2⟩ := hcl x hxv hxst y hy
      refine ⟨(mem_setInsert v c y).2 (Or.inl y1), ?_⟩
      intro hys
      rcases (mem_setInsert st c y).1 hys with h1 | h1
      · exact y2 h1
      · exact hcv (h1 ▸ y1)
    have hac2 : DfsAcyclic s (setInsert v c) (setInsert st c) := by
      intro x hx hxs
      have hxc : x ≠ c := fun e => hxs ((mem_setInsert st c x).2 (Or.inr e))
      have hxv : x ∈ v := by
        rcases (mem_setInsert v c x).1 hx with h1 | h1
        · exact h1
        · exact absurd h1 hxc
      have hxst : x ∉ st := fun e => hxs ((mem_setInsert st c x).2 (Or.inl e))
      exact hac x hxv hxst
    unfold dfsHasCycle at h
    cases hloop : dfsRequests s (dfsHasCycle s n) ((find s.waiting_requests c).getD [])
        (setInsert v c) (setInsert st c) with
    | none => simp [hloop] at h
    | some r1 =>
      obtain ⟨b, v2, st2⟩ := r1
      obtain ⟨p1, p2⟩ := dfsRequests_spec s c (dfsHasCycle s n) hvisit _ _ _ _ hreqs hpath2
        hcl2 hac2 hloop
      cases b with
      | true =>
        simp only [hloop, Option.some.injEq] at h
        subst h
        exact ⟨fun _ => p1 rfl, fun hb => by simp at hb⟩
      | false =>
        simp only [hloop, Option.some.injEq] at h
        subst h
        obtain ⟨q1, q2, q3, q4, q5⟩ := p2 rfl
        simp only at q1 q2 q3 q4 q5
        subst q1
        refine ⟨fun hb => by simp at hb, fun _ => ?_⟩
        have hcv2 : c ∈ v2 := q2 c ((mem_setInsert v c c).2 (Or.inr rfl))
        have hsub : ∀ x, x ∉ st → x ≠ c → x ∉ setInsert st c := by
          intro x hx hxc hm
          rcases (mem_setInsert st c x).1 hm with h1 | h1
          · exact hx h1
          · exact hxc h1
        have hsucc : ∀ y, WaitsFor s c y → y ∈ v2 ∧ y ∉ setInsert st c := by
          rintro y ⟨req, hreq, hy⟩
          exact q5 req hreq y hy
        refine ⟨setErase_setInsert st c hcs,
          fun x hx => q2 x ((mem_setInsert v c x).2 (Or.inl hx)), hcv2, ?_, ?_⟩
        · intro x hx hxs y hy
          by_cases hxc : x = c
          · subst hxc
            obtain ⟨y1, y2⟩ := hsucc y hy
            exact ⟨y1, fun e => y2 ((mem_setInsert st x y).2 (Or.inl e))⟩
          · obtain ⟨y1, y2⟩ := q3 x hx (hsub x hxs hxc) y hy
            exact ⟨y1, fun e => y2 ((mem_setInsert st c y).2 (Or.inl e))⟩
        · intro x hx hxs hcyc
          by_cases hxc : x = c
          · subst hxc
            obtain ⟨y, hy, hyx⟩ := Relation.TransGen.head'_iff.1 hcyc
            obtain ⟨y1, y2⟩ := hsucc y hy
            have := dfsClosed_reach s v2 (setInsert st x) q3 y x y1 y2 hyx
            exact this.2 ((mem_setInsert st x x).2 (Or.inr rfl))
          · exact q4 x hx (hsub x hxs hxc) hcyc

theorem hasCycleFrom_spec (s : State) (fuel : Nat) (entries : List (Nat × List Int))
    (v : List Nat) (b : Bool) (hcl : DfsClosed s v []) (hac : DfsAcyclic s v [])
    (h : hasCycleFrom s fuel entries v [] = some b) :
    (b = true → HasCycle s) ∧
    (b = false → ∃ v2, (∀ x ∈ v, x ∈ v2) ∧ (∀ e ∈ entries, e.1 ∈ v2) ∧
      DfsClosed s v2 [] ∧ DfsAcyclic s v2 []) := by
  induction entries generalizing v with
  | nil =>
    simp only [hasCycleFrom, Option.some.injEq] at h
    subst h
    exact ⟨fun hb => by simp at hb, fun _ => ⟨v, fun x hx => hx, by simp, hcl, hac⟩⟩
  | cons e t ih =>
    obtain ⟨th, l⟩ := e
    by_cases hv : th ∈ v
    · simp only [hasCycleFrom, hv, not_true_eq_false, if_false] at h
      obtain ⟨p1, p2⟩ := ih v hcl hac h
      refine ⟨p1, fun hb => ?_⟩
      obtain ⟨v2, q1, q2, q3, q4⟩ := p2 hb
      refine ⟨v2, q1, ?_, q3, q4⟩
      intro e he
      rcases List.mem_cons.1 he with he | he
      · subst he
        exact q1 _ hv
      · exact q2 e he
    · simp only [hasCycleFrom, hv, not_false_eq_true, if_true] at h
      cases hcall : dfsHasCycle s fuel th v [] with
      | none => simp [hcall] at h
      | some r1 =>
        obtain ⟨b1, v1, st1⟩ := r1
        have hpost := dfsHasCycle_spec s fuel th v [] (b1, v1, st1) hcall hv (by simp)
          (by simp) hcl hac
        cases b1 with
        | true =>
          simp only [hcall, Option.some.injEq] at h
          subst h
          exact ⟨fun _ => hpost.1 rfl, fun hb => by simp at hb⟩
        | false =>
          simp only [hcall] at h
          obtain ⟨e1, e2, e3, e4, e5⟩ := hpost.2 rfl
          simp only at e1 e2 e3 e4 e5
          subst e1
          obtain ⟨p1, p2⟩ := ih v1 e4 e5 h
          refine ⟨p1, fun hb => ?_⟩
          obtain ⟨v2, q1, q2, q3, q4⟩ := p2 hb
          refine ⟨v2, fun x hx => q1 x (e2 x hx), ?_, q3, q4⟩
          intro e he
          rcases List.mem_cons.1 he with he | he
          · subst he
            exact q1 _ e3
          · exact q2 e he

/-- When every recorded owner has a `thread_locks` entry, a result of `detectDeadlock` is true
exactly when the wait-for graph has a cycle. -/
theorem detectDeadlock_exact (s : State)
    (hinv : ∀ r p, find s.account_owners r = some p → ∃ l, find s.thread_locks p = some l)
    (fuel : Nat) (b : Bool)
    (h : detectDeadlock s fuel = some b) : b = true ↔ HasCycle s := by
  have hcl : DfsClosed s [] [] := by
    intro x hx
    simp at hx
  have hac : DfsAcyclic s [] [] := by
    intro x hx
    simp at hx
  obtain ⟨p1, p2⟩ := hasCycleFrom_spec s fuel s.thread_locks [] b hcl hac h
  constructor
  · exact p1
  · intro hcyc
    cases b with
    | true => rfl
    | false =>
      exfalso
      obtain ⟨v2, _, q2, _, q4⟩ := p2 rfl
      obtain ⟨p, hp⟩ := hcyc
      obtain ⟨q, _, hq⟩ := Relation.TransGen.tail'_iff.1 hp
      obtain ⟨req, _, hown⟩ := hq
      obtain ⟨l, hl⟩ := hinv _ _ hown
      exact q4 p (q2 (p, l) (mem_of_find hl)) (by simp) hp

/-! ## A deadlock between two threads -/

theorem waiting_abortTransaction (s : State) (Q p : Nat) :
    find (abortTransaction s Q).waiting_requests p =
      if Q = p then none else find s.waiting_requests p := by
  simp only [abortTransaction, find_erase, (dropLocks_frame Q s).2.1]

theorem maxElement_spec (s : State) (rest : List Nat) (first : Nat) :
    maxElement s first rest ∈ first :: rest ∧
    getThreadTimestamp s first ≤ getThreadTimestamp s (maxElement s first rest) ∧
    ∀ x ∈ rest, getThreadTimestamp s x ≤ getThreadTimestamp s (maxElement s first rest) := by
  induction rest generalizing first with
  | nil => simp [maxElement]
  | cons y t ih =>
    cases ho : isOlderTransaction s first y with
    | true =>
      have hstep : maxElement s first (y :: t) = maxElement s y t := by
        simp [maxElement, ho]
      rw [hstep]
      obtain ⟨h1, h2, h3⟩ := ih y
      have hlt : getThreadTimestamp s first < getThreadTimestamp s y := by
        simpa [isOlderTransaction] using ho
      refine ⟨List.mem_cons_of_mem _ h1, le_trans (le_of_lt hlt) h2, ?_⟩
      intro x hx
      rcases List.mem_cons.1 hx with hx | hx
      · subst hx
        exact h2
      · exact h3 x hx
    | false =>
      have hstep : maxElement s first (y :: t) = maxElement s first t := by
        simp [maxElement, ho]
      rw [hstep]
      obtain ⟨h1, h2, h3⟩ := ih first
      have hge : getThreadTimestamp s y ≤ getThreadTimestamp s first := by
        simpa [isOlderTransaction] using ho
      refine ⟨?_, h2, ?_⟩
      · rcases List.mem_cons.1 h1 with h1 | h1
        · rw [h1]
          exact List.mem_cons_self _ _
        · exact List.mem_cons_of_mem _ (List.mem_cons_of_mem _ h1)
      · intro x hx
        rcases List.mem_cons.1 hx with hx | hx
        · subst hx
          exact le_trans hge h2
        · exact h3 x hx

/-! ## Strategies that never queue -/

theorem reachable_of_reachableUnder {allowed : DeadlockStrategy → Prop} {s : State}
    (h : ReachableUnder allowed s) : Reachable s := by
  induction h with
  | init strategy _ => exact Reachable.init strategy
  | requestLocks ids txn rh th clock fuel b s2 _ hr ih =>
    exact Reachable.requestLocks ids txn rh th clock fuel b s2 ih hr
  | releaseLocks ids th _ ih => exact Reachable.releaseLocks ids th ih
  | releaseAllLocks th _ ih => exact Reachable.releaseAllLocks th ih
  | setStrategy st _ _ ih => exact Reachable.setStrategy st ih
  | setTimeout t _ ih => exact Reachable.setTimeout t ih

theorem strategy_enqueueRequests (s : State) (ids : List Int) (txn : Int) (th : Nat)
    (clock : Nat → Nat) : (enqueueRequests s ids txn th clock).strategy = s.strategy := by
  unfold enqueueRequests
  split <;> rfl

theorem strategy_woundWaitLoop (th : Nat) (ids : List Int) (s : State) :
    (woundWaitLoop th s ids).2.strategy = s.strategy := by
  induction ids generalizing s with
  | nil => rfl
  | cons id t ih =>
    unfold woundWaitLoop
    split
    · split
      · split
        · rw [ih, (abortTransaction_frame s _).2.2]
        · rfl
      · exact ih s
    · exact ih s

theorem strategy_requestLocks (s : State) (ids : List Int) (txn : Int) (rh th : Nat)
    (clock : Nat → Nat) (fuel : Nat) (b : Bool) (s2 : State)
    (hr : requestLocks s ids txn rh th clock fuel = some (b, s2)) : s2.strategy = s.strategy := by
  unfold requestLocks at hr
  simp only at hr
  split at hr
  · simp only [Option.some.injEq] at hr
    unfold lockOrderingStrategy at hr
    simp only at hr
    split at hr
    · simp only [Prod.mk.injEq] at hr
      rw [← hr.2]
      rfl
    · simp only [Prod.mk.injEq] at hr
      rw [← hr.2]
      exact (acquireLocks_frame th _ _).1
  · simp only [Option.some.injEq] at hr
    unfold waitDieStrategy at hr
    split at hr
    · split at hr
      · simp only [Prod.mk.injEq] at hr
        rw [← hr.2]
        exact strategy_enqueueRequests _ ids txn th clock
      · simp only [Prod.mk.injEq] at hr
        rw [← hr.2]
        rfl
    · simp only [Prod.mk.injEq] at hr
      rw [← hr.2]
      exact (acquireLocks_frame th _ _).1
  · simp only [Option.some.injEq] at hr
    unfold woundWaitStrategy at hr
    have hloop := strategy_woundWaitLoop th ids (registerThread s txn rh)
    split at hr
    · next s1 he =>
      simp only [Prod.mk.injEq] at hr
      rw [he] at hloop
      rw [← hr.2, (acquireLocks_frame th _ _).1]
      exact hloop
    · next s1 he =>
      simp only [Prod.mk.injEq] at hr
      rw [he] at hloop
      rw [← hr.2, strategy_enqueueRequests]
      exact hloop
  · cases b with
    | true =>
      rw [timeoutRollbackLoop_granted _ ids th clock fuel 0 s2 hr]
      exact (acquireLocks_frame th _ _).1
    | false =>
      rw [timeoutRollbackLoop_refused _ ids th clock fuel 0 s2 hr]
      rfl

theorem strategy_of_reachableUnder {allowed : DeadlockStrategy → Prop} {s : State}
    (h : ReachableUnder allowed s) : allowed s.strategy := by
  induction h with
  | init strategy ha => exact ha
  | requestLocks ids txn rh th clock fuel b s2 _ hr ih =>
    rw [strategy_requestLocks _ ids txn rh th clock fuel b s2 hr]
    exact ih
  | releaseLocks ids th _ ih =>
    rw [strategy_releaseLocks]
    exact ih
  | @releaseAllLocks s0 th _ ih =>
    have h1 : (releaseAllLocks s0 th).strategy = (dropLocks s0 th).strategy := rfl
    rw [h1, (dropLocks_frame th s0).1]
    exact ih
  | setStrategy st ha _ _ => exact ha
  | setTimeout t _ ih => exact ih

/-- Under Lock Ordering and Timeout-Rollback a request never touches the wait queues. -/
theorem waiting_requestLocks_of_no_queue (s : State) (ids : List Int) (txn : Int) (rh th : Nat)
    (clock : Nat → Nat) (fuel : Nat) (b : Bool) (s2 : State)
    (hs : s.strategy = DeadlockStrategy.LOCK_ORDERING ∨
      s.strategy = DeadlockStrategy.TIMEOUT_ROLLBACK)
    (hr : requestLocks s ids txn rh th clock fuel = some (b, s2)) :
    s2.waiting_requests = s.waiting_requests := by
  rcases hs with hs | hs
  · by_cases ha : AvailableTo s th ids
    · rw [lockOrdering_granted s ids txn rh th clock fuel hs ha] at hr
      simp only [Option.some.injEq, Prod.mk.injEq] at hr
      rw [← hr.2]
      exact (acquireLocks_frame th _ _).2.1
    · rw [lockOrdering_refused s ids txn rh th clock fuel hs ha] at hr
      simp only [Option.some.injEq, Prod.mk.injEq] at hr
      rw [← hr.2]
      rfl
  · have hst : (registerThread s txn rh).strategy = DeadlockStrategy.TIMEOUT_ROLLBACK := hs
    simp only [requestLocks, hst, timeoutRollbackStrategy] at hr
    cases b with
    | true =>
      rw [timeoutRollbackLoop_granted _ ids th clock fuel 0 s2 hr]
      exact (acquireLocks_frame th _ _).2.1
    | false =>
      rw [timeoutRollbackLoop_refused _ ids th clock fuel 0 s2 hr]
      rfl

theorem erase_nil_of_nil {κ ν : Type} [DecidableEq κ] (m : List (κ × ν)) (k : κ) (h : m = []) :
    erase m k = [] := by
  subst h
  rfl

theorem waiting_releaseLocks (s : State) (ids : List Int) (th : Nat) :
    (releaseLocks s ids th).waiting_requests = erase s.waiting_requests th := by
  unfold releaseLocks
  cases hf : find s.thread_locks th with
  | none => rfl
  | some l =>
    simp only
    split
    · simp only [(foldl_unlockAccount_rest th ids s).1]
    · simp only [(foldl_unlockAccount_rest th ids s).1]

theorem aborted_releaseLocks (s : State) (ids : List Int) (th : Nat) :
    (releaseLocks s ids th).transactions_aborted = s.transactions_aborted := by
  unfold releaseLocks
  cases hf : find s.thread_locks th with
  | none => rfl
  | some l =>
    simp only
    split
    · exact (foldl_unlockAccount_rest th ids s).2.2.2.2.2.1
    · exact (foldl_unlockAccount_rest th ids s).2.2.2.2.2.1

theorem waiting_releaseAllLocks (s : State) (th : Nat) :
    (releaseAllLocks s th).waiting_requests = erase (erase s.waiting_requests th) th := by
  simp only [releaseAllLocks, unregisterThread, (dropLocks_frame th s).2.1]

/-- No wait queue means no edge in the wait-for graph, hence no cycle. -/
theorem not_hasCycle_of_no_queue (s : State) (h : s.waiting_requests = []) : ¬ HasCycle s := by
  rintro ⟨p, hp⟩
  obtain ⟨y, ⟨req, hreq, _⟩, _⟩ := Relation.TransGen.head'_iff.1 hp
  rw [h] at hreq
  simp [find] at hreq

/-- The invariant of Lock Ordering: nothing is ever queued or aborted. -/
theorem lockOrdering_invariant {s : State}
    (h : ReachableUnder (fun st => st = DeadlockStrategy.LOCK_ORDERING) s) :
    s.waiting_requests = [] ∧ s.transactions_aborted = 0 := by
  induction h with
  | init strategy _ => exact ⟨rfl, rfl⟩
  | @requestLocks s0 ids txn rh th clock fuel b s2 hreach hr ih =>
    have hs : s0.strategy = DeadlockStrategy.LOCK_ORDERING := strategy_of_reachableUnder hreach
    refine ⟨?_, ?_⟩
    · rw [waiting_requestLocks_of_no_queue s0 ids txn rh th clock fuel b s2 (Or.inl hs) hr]
      exact ih.1
    · by_cases ha : AvailableTo s0 th ids
      · rw [lockOrdering_granted s0 ids txn rh th clock fuel hs ha] at hr
        simp only [Option.some.injEq, Prod.mk.injEq] at hr
        rw [← hr.2]
        show (acquireLocks _ th _).transactions_aborted = 0
        rw [(acquireLocks_frame th _ _).2.2.2.2.2.2]
        exact ih.2
      · rw [lockOrdering_refused s0 ids txn rh th clock fuel hs ha] at hr
        simp only [Option.some.injEq, Prod.mk.injEq] at hr
        rw [← hr.2]
        exact ih.2
  | releaseLocks ids th _ ih =>
    refine ⟨?_, ?_⟩
    · rw [waiting_releaseLocks]
      exact erase_nil_of_nil _ _ ih.1
    · rw [aborted_releaseLocks]
      exact ih.2
  | releaseAllLocks th _ ih =>
    refine ⟨?_, ?_⟩
    · rw [waiting_releaseAllLocks, erase_nil_of_nil _ _ ih.1]
      rfl
    · rw [(releaseAllLocks_tables _ th).2.2.2.2.2.2.2.2]
      exact ih.2
  | setStrategy st _ _ ih => exact ih
  | setTimeout t _ ih => exact ih

/-! ## The statistics do not influence locking -/

theorem sameTables_refl (s : State) : SameTables s s := ⟨rfl, rfl, rfl, rfl, rfl, rfl⟩

theorem sameTables_counters (s t : State) (a b c : Int) (h : SameTables s t) :
    SameTables s { t with deadlocks_detected := a, deadlocks_prevented := b,
                          transactions_aborted := c } := h

theorem sameTables_counters_left (s t : State) (a b c : Int) (h : SameTables s t) :
    SameTables { s with deadlocks_detected := a, deadlocks_prevented := b,
                        transactions_aborted := c } t := h

theorem sameTables_registerThread (s t : State) (txn : Int) (th : Nat) (h : SameTables s t) :
    SameTables (registerThread s txn th) (registerThread t txn th) := by
  obtain ⟨h1, h2, h3, h4, h5, h6⟩ := h
  exact ⟨h1, h2, h3, h4, by simp [registerThread, h5], h6⟩

theorem sameTables_lockAccount (th : Nat) (s t : State) (id : Int) (h : SameTables s t) :
    SameTables (lockAccount th s id) (lockAccount th t id) := by
  obtain ⟨h1, h2, h3, h4, h5, h6⟩ := h
  exact ⟨h1, by simp [lockAccount, h2], h3, by simp [lockAccount, h4], h5, h6⟩

theorem sameTables_acquireLocks (th : Nat) (ids : List Int) (s t : State) (h : SameTables s t) :
    SameTables (acquireLocks s th ids) (acquireLocks t th ids) := by
  induction ids generalizing s t with
  | nil => exact h
  | cons id rest ih =>
    simp only [acquireLocks, List.foldl_cons]
    exact ih _ _ (sameTables_lockAccount th s t id h)

theorem sameTables_dropLocks (th : Nat) (s t : State) (h : SameTables s t) :
    SameTables (dropLocks s th) (dropLocks t th) := by
  obtain ⟨h1, h2, h3, h4, h5, h6⟩ := h
  unfold dropLocks
  rw [h2]
  cases find t.thread_locks th with
  | none => exact ⟨h1, h2, h3, h4, h5, h6⟩
  | some l => exact ⟨h1, by simp [h2], h3, by simp [h4], h5, h6⟩

theorem sameTables_abortTransaction (th : Nat) (s t : State) (h : SameTables s t) :
    SameTables (abortTransaction s th) (abortTransaction t th) := by
  obtain ⟨h1, h2, h3, h4, h5, h6⟩ := sameTables_dropLocks th s t h
  exact ⟨h1, h2, by simp [abortTransaction, h3], h4, h5, h6⟩

theorem sameTables_enqueueRequests (s t : State) (ids : List Int) (txn : Int) (th : Nat)
    (clock : Nat → Nat) (h : SameTables s t) :
    SameTables (enqueueRequests s ids txn th clock) (enqueueRequests t ids txn th clock) := by
  obtain ⟨h1, h2, h3, h4, h5, h6⟩ := h
  unfold enqueueRequests
  split
  · exact ⟨h1, h2, h3, h4, h5, h6⟩
  · exact ⟨h1, h2, by simp [h3], h4, h5, h6⟩

theorem firstConflict_congr (s t : State) (th : Nat) (ids : List Int)
    (h : s.account_owners = t.account_owners) :
    firstConflict s th ids = firstConflict t th ids := by
  induction ids with
  | nil => rfl
  | cons id rest ih => simp only [firstConflict, h, ih]

theorem ownedByOther_congr (s t : State) (th : Nat) (h : s.account_owners = t.account_owners) :
    ownedByOther s th = ownedByOther t th := by
  funext r
  simp only [ownedByOther, h]

theorem tryLockAccounts_congr (s t : State) (ids : List Int)
    (h : s.account_owners = t.account_owners) :
    tryLockAccounts s ids = tryLockAccounts t ids := by
  simp only [tryLockAccounts, h]

theorem sameTables_woundWaitLoop (th : Nat) (ids : List Int) (s t : State)
    (h : SameTables s t) :
    (woundWaitLoop th s ids).1 = (woundWaitLoop th t ids).1 ∧
      SameTables (woundWaitLoop th s ids).2 (woundWaitLoop th t ids).2 := by
  induction ids generalizing s t with
  | nil => exact ⟨rfl, h⟩
  | cons id rest ih =>
    have h4 : s.account_owners = t.account_owners := h.2.2.2.1
    have h5 : t.thread_timestamps = s.thread_timestamps := h.2.2.2.2.1.symm
    unfold woundWaitLoop
    rw [h4]
    cases find t.account_owners id with
    | none => exact ih s t h
    | some owner =>
      simp only
      by_cases hne : owner ≠ th
      · simp only [hne, if_true, ne_eq, not_false_eq_true]
        rw [isOlderTransaction_congr s t h5]
        cases isOlderTransaction s th owner with
        | true =>
          simp only [if_true]
          exact ih _ _ (sameTables_abortTransaction owner s t h)
        | false => exact ⟨rfl, h⟩
      · simp only [hne, if_false]
        exact ih s t h

theorem sameResult_timeoutRollbackLoop (s t : State) (ids : List Int) (th : Nat)
    (clock : Nat → Nat) (fuel k : Nat) (h : SameTables s t) :
    SameResult (timeoutRollbackLoop s ids th clock fuel k)
      (timeoutRollbackLoop t ids th clock fuel k) := by
  induction fuel generalizing k with
  | zero => simp [timeoutRollbackLoop, SameResult]
  | succ n ih =>
    have htry := tryLockAccounts_congr s t ids h.2.2.2.1
    unfold timeoutRollbackLoop
    by_cases hc : (clock (k + 1) : Int) - (clock 0 : Int) < s.lock_timeout
    · have hc2 : (clock (k + 1) : Int) - (clock 0 : Int) < t.lock_timeout := h.2.2.2.2.2 ▸ hc
      rw [if_pos hc, if_pos hc2]
      cases hb : tryLockAccounts s ids with
      | true =>
        rw [← htry, hb]
        exact ⟨rfl, sameTables_acquireLocks th ids s t h⟩
      | false =>
        rw [← htry, hb]
        exact ih (k + 1)
    · have hc2 : ¬ (clock (k + 1) : Int) - (clock 0 : Int) < t.lock_timeout :=
        h.2.2.2.2.2 ▸ hc
      rw [if_neg hc, if_neg hc2]
      exact ⟨rfl, h⟩

theorem sameResult_lockOrderingStrategy (s t : State) (ids : List Int) (txn : Int) (th : Nat)
    (h : SameTables s t) :
    SameResult (some (lockOrderingStrategy s ids txn th))
      (some (lockOrderingStrategy t ids txn th)) := by
  have hc : (ids.insertionSort (fun a b => a ≤ b)).any (ownedByOther s th) =
      (ids.insertionSort (fun a b => a ≤ b)).any (ownedByOther t th) := by
    rw [ownedByOther_congr s t th h.2.2.2.1]
  unfold lockOrderingStrategy
  simp only
  cases hb : (ids.insertionSort (fun a b => a ≤ b)).any (ownedByOther s th) with
  | true =>
    rw [← hc, hb]
    exact ⟨rfl, h⟩
  | false =>
    rw [← hc, hb]
    exact ⟨rfl, sameTables_acquireLocks th _ s t h⟩

theorem sameResult_waitDieStrategy (s t : State) (ids : List Int) (txn : Int) (th : Nat)
    (clock : Nat → Nat) (h : SameTables s t) :
    SameResult (some (waitDieStrategy s ids txn th clock))
      (some (waitDieStrategy t ids txn th clock)) := by
  have hc := firstConflict_congr s t th ids h.2.2.2.1
  unfold waitDieStrategy
  cases hf : firstConflict s th ids with
  | none =>
    rw [← hc, hf]
    exact ⟨rfl, sameTables_acquireLocks th _ s t h⟩
  | some owner =>
    rw [← hc, hf]
    have ho := isOlderTransaction_congr s t h.2.2.2.2.1.symm th owner
    simp only
    cases hb : isOlderTransaction s th owner with
    | true =>
      rw [hb] at ho
      rw [ho]
      exact ⟨rfl, sameTables_enqueueRequests s t ids txn th clock h⟩
    | false =>
      rw [hb] at ho
      rw [ho]
      exact ⟨rfl, h⟩

theorem sameResult_woundWaitStrategy (s t : State) (ids : List Int) (txn : Int) (th : Nat)
    (clock : Nat → Nat) (h : SameTables s t) :
    SameResult (some (woundWaitStrategy s ids txn th clock))
      (some (woundWaitStrategy t ids txn th clock)) := by
  obtain ⟨h1, h2⟩ := sameTables_woundWaitLoop th ids s t h
  unfold woundWaitStrategy
  cases hs1 : woundWaitLoop th s ids with
  | mk b1 r1 =>
    cases ht1 : woundWaitLoop th t ids with
    | mk b2 r2 =>
      rw [hs1, ht1] at h1 h2
      simp only at h1 h2
      subst h1
      cases b1 with
      | true => exact ⟨rfl, sameTables_acquireLocks th _ _ _ h2⟩
      | false => exact ⟨rfl, sameTables_enqueueRequests _ _ ids txn th clock h2⟩

/-- Two calls of `requestLocks` in states with the same tables agree. -/
theorem sameResult_requestLocks (s t : State) (ids : List Int) (txn : Int) (rh th : Nat)
    (clock : Nat → Nat) (fuel : Nat) (h : SameTables s t) :
    SameResult (requestLocks s ids txn rh th clock fuel)
      (requestLocks t ids txn rh th clock fuel) := by
  have hr := sameTables_registerThread s t txn rh h
  have hcase : s.strategy = DeadlockStrategy.LOCK_ORDERING ∨
      s.strategy = DeadlockStrategy.WAIT_DIE ∨ s.strategy = DeadlockStrategy.WOUND_WAIT ∨
      s.strategy = DeadlockStrategy.TIMEOUT_ROLLBACK := by
    cases s.strategy <;> simp
  rcases hcase with hs | hs | hs | hs
  · have h1 : (registerThread s txn rh).strategy = DeadlockStrategy.LOCK_ORDERING := hs
    have h2 : (registerThread t txn rh).strategy = DeadlockStrategy.LOCK_ORDERING := by
      rw [← hr.1]
      exact h1
    have e1 : requestLocks s ids txn rh th clock fuel =
        some (lockOrderingStrategy (registerThread s txn rh) ids txn th) := by
      simp only [requestLocks, h1]
    have e2 : requestLocks t ids txn rh th clock fuel =
        some (lockOrderingStrategy (registerThread t txn rh) ids txn th) := by
      simp only [requestLocks, h2]
    rw [e1, e2]
    exact sameResult_lockOrderingStrategy _ _ ids txn th hr
  · have h1 : (registerThread s txn rh).strategy = DeadlockStrategy.WAIT_DIE := hs
    have h2 : (registerThread t txn rh).strategy = DeadlockStrategy.WAIT_DIE := by
      rw [← hr.1]
      exact h1
    have e1 : requestLocks s ids txn rh th clock fuel =
        some (waitDieStrategy (registerThread s txn rh) ids txn th clock) := by
      simp only [requestLocks, h1]
    have e2 : requestLocks t ids txn rh th clock fuel =
        some (waitDieStrategy (registerThread t txn rh) ids txn th clock) := by
      simp only [requestLocks, h2]
    rw [e1, e2]
    exact sameResult_waitDieStrategy _ _ ids txn th clock hr
  · have h1 : (registerThread s txn rh).strategy = DeadlockStrategy.WOUND_WAIT := hs
    have h2 : (registerThread t txn rh).strategy = DeadlockStrategy.WOUND_WAIT := by
      rw [← hr.1]
      exact h1
    have e1 : requestLocks s ids txn rh th clock fuel =
        some (woundWaitStrategy (registerThread s txn rh) ids txn th clock) := by
      simp only [requestLocks, h1]
    have e2 : requestLocks t ids txn rh th clock fuel =
        some (woundWaitStrategy (registerThread t txn rh) ids txn th clock) := by
      simp only [requestLocks, h2]
    rw [e1, e2]
    exact sameResult_woundWaitStrategy _ _ ids txn th clock hr
  · have h1 : (registerThread s txn rh).strategy = DeadlockStrategy.TIMEOUT_ROLLBACK := hs
    have h2 : (registerThread t txn rh).strategy = DeadlockStrategy.TIMEOUT_ROLLBACK := by
      rw [← hr.1]
      exact h1
    have e1 : requestLocks s ids txn rh th clock fuel =
        timeoutRollbackLoop (registerThread s txn rh) ids th clock fuel 0 := by
      simp only [requestLocks, h1, timeoutRollbackStrategy]
    have e2 : requestLocks t ids txn rh th clock fuel =
        timeoutRollbackLoop (registerThread t txn rh) ids th clock fuel 0 := by
      simp only [requestLocks, h2, timeoutRollbackStrategy]
    rw [e1, e2]
    exact sameResult_timeoutRollbackLoop _ _ ids th clock fuel 0 hr

/-! ## The mutex discipline of the public methods -/

/-- A body that never locks the mutex it holds runs to its end. -/
theorem runBody_returns_of_not_relocks (body : List MutexStep) (held : Bool) (s : State)
    (h : relocks held body = false) : ∃ s2, runBody held s body = CallOutcome.returned s2 := by
  induction body generalizing held s with
  | nil => exact ⟨s, rfl⟩
  | cons step rest ih =>
    cases step with
    | lock =>
      simp only [relocks, Bool.or_eq_false_iff] at h
      obtain ⟨h1, h2⟩ := h
      subst h1
      obtain ⟨s2, hs2⟩ := ih true s h2
      exact ⟨s2, by simpa [runBody] using hs2⟩
    | unlock =>
      simp only [relocks] at h
      obtain ⟨s2, hs2⟩ := ih false s h
      exact ⟨s2, by simpa [runBody] using hs2⟩
    | update f =>
      simp only [relocks] at h
      obtain ⟨s2, hs2⟩ := ih held (f s) h
      exact ⟨s2, by simpa [runBody] using hs2⟩

theorem relocks_strategy_rounds (rounds : List (State → State)) :
    relocks false ((rounds.map strategyBody).flatten) = false := by
  induction rounds with
  | nil => rfl
  | cons f rest ih => simpa [strategyBody, relocks] using ih

/-- A `requestLocks` call never locks the mutex it holds, however many rounds it polls. -/
theorem relocks_requestLocksBody (txn : Int) (th : Nat) (rounds : List (State → State)) :
    relocks false (requestLocksBody txn th rounds) = false := by
  simpa [requestLocksBody, registerThreadBody, relocks] using relocks_strategy_rounds rounds

/-! ## What `unregisterThread` and `abortTransaction` purge -/

theorem abortTransaction_owns_nothing (s : State) (P : Nat) (h : OwnerHeld s) (r : Int) :
    find (abortTransaction s P).account_owners r ≠ some P := by
  rw [owner_abortTransaction]
  by_cases hm : r ∈ heldSet s P
  · simp [hm]
  · simp only [hm, if_false]
    intro ho
    obtain ⟨l, hl, hr⟩ := h r P ho
    exact hm (by simpa [heldSet, hl] using hr)

/-- A thread that owns no account that anybody has a pending request for has no incoming edge. -/
theorem no_incoming_of_check (s : State) (q : Nat)
    (h : ∀ e ∈ s.waiting_requests, ∀ req ∈ e.2, find s.account_owners req.account_id ≠ some q)
    (p : Nat) : ¬ WaitsFor s p q := by
  rintro ⟨req, hreq, ho⟩
  cases hf : find s.waiting_requests p with
  | none => simp [hf] at hreq
  | some l =>
    rw [hf] at hreq
    exact h (p, l) (mem_of_find hf) req hreq ho

theorem dfsRequests_true (s : State) (c : Nat)
    (visit : Nat → List Nat → List Nat → Option (Bool × List Nat × List Nat))
    (hvisit : ∀ o v st res, visit o v st = some res → o ∉ v → o ∉ st →
      (∀ x ∈ st, Relation.TransGen (WaitsFor s) x o) → DfsClosed s v st → DfsAcyclic s v st →
      DfsPost s o v st res ∧ (res.1 = true → LeadsIntoCycle s res.2.2))
    (reqs : List LockRequest) (v st : List Nat) (res : Bool × List Nat × List Nat)
    (hreqs : ∀ req ∈ reqs, ∀ o, find s.account_owners req.account_id = some o → WaitsFor s c o)
    (hpath : ∀ x ∈ st, Relation.ReflTransGen (WaitsFor s) x c)
    (hcl : DfsClosed s v st) (hac : DfsAcyclic s v st)
    (h : dfsRequests s visit reqs v st = some res) :
    res.1 = true → LeadsIntoCycle s res.2.2 := by
  induction reqs generalizing v st with
  | nil =>
    simp only [dfsRequests, Option.some.injEq] at h
    subst h
    intro hb
    simp at hb
  | cons req t ih =>
    have hreqs_t : ∀ r ∈ t, ∀ o, find s.account_owners r.account_id = some o → WaitsFor s c o :=
      fun r hr => hreqs r (List.mem_cons_of_mem _ hr)
    cases ho : find s.account_owners req.account_id with
    | none =>
      simp only [dfsRequests, ho] at h
      exact ih v st hreqs_t hpath hcl hac h
    | some o =>
      have hw : WaitsFor s c o := hreqs req (List.mem_cons_self _ _) o ho
      by_cases h1 : o ∈ st
      · simp only [dfsRequests, ho, h1, if_true, Option.some.injEq] at h
        subst h
        intro _
        exact ⟨o, h1, Relation.TransGen.tail' (hpath o h1) hw,
          fun x hx => Relation.ReflTransGen.tail (hpath x hx) hw⟩
      · by_cases h2 : o ∈ v
        · simp only [dfsRequests, ho, h1, if_false, h2, not_true_eq_false] at h
          exact ih v st hreqs_t hpath hcl hac h
        · simp only [dfsRequests, ho, h1, if_false, h2, not_false_eq_true, if_true] at h
          cases hcall : visit o v st with
          | none => simp [hcall] at h
          | some r1 =>
            obtain ⟨b, v1, st1⟩ := r1
            have hpo : ∀ x ∈ st, Relation.TransGen (WaitsFor s) x o :=
              fun x hx => Relation.TransGen.tail' (hpath x hx) hw
            obtain ⟨hpost, htrue⟩ := hvisit o v st (b, v1, st1) hcall h2 h1 hpo hcl hac
            cases b with
            | true =>
              simp only [hcall, Option.some.injEq] at h
              subst h
              intro _
              exact htrue rfl
            | false =>
              simp only [hcall] at h
              obtain ⟨e1, e2, e3, e4, e5⟩ := hpost.2 rfl
              simp only at e1 e2 e3 e4 e5
              subst e1
              exact ih v1 st1 hreqs_t hpath e4 e5 h

/-- When `dfsHasCycle` answers true, the recursion stack it leaves behind leads into a cycle. -/
theorem dfsHasCycle_true (s : State) (fuel : Nat) (c : Nat) (v st : List Nat)
    (res : Bool × List Nat × List Nat) (h : dfsHasCycle s fuel c v st = some res)
    (hcv : c ∉ v) (hcs : c ∉ st) (hpath : ∀ x ∈ st, Relation.TransGen (WaitsFor s) x c)
    (hcl : DfsClosed s v st) (hac : DfsAcyclic s v st) :
    res.1 = true → LeadsIntoCycle s res.2.2 := by
  induction fuel generalizing c v st res with
  | zero => simp [dfsHasCycle] at h
  | succ n ih =>
    have hvisit : ∀ o v st res, dfsHasCycle s n o v st = some res → o ∉ v → o ∉ st →
        (∀ x ∈ st, Relation.TransGen (WaitsFor s) x o) → DfsClosed s v st →
        DfsAcyclic s v st →
        DfsPost s o v st res ∧ (res.1 = true → LeadsIntoCycle s res.2.2) :=
      fun o v st res h1 h2 h3 h4 h5 h6 =>
        ⟨dfsHasCycle_spec s n o v st res h1 h2 h3 h4 h5 h6, ih o v st res h1 h2 h3 h4 h5 h6⟩
    have hreqs : ∀ req ∈ (find s.waiting_requests c).getD [], ∀ o,
        find s.account_owners req.account_id = some o → WaitsFor s c o :=
      fun req hreq o ho => ⟨req, hreq, ho⟩
    have hpath2 : ∀ x ∈ setInsert st c, Relation.ReflTransGen (WaitsFor s) x c := by
      intro x hx
      rcases (mem_setInsert st c x).1 hx with hx | hx
      · exact (hpath x hx).to_reflTransGen
      · subst hx
        exact Relation.ReflTransGen.refl
    have hcl2 : DfsClosed s (setInsert v c) (setInsert st c) := by
      intro x hx hxs y hy
      have hxc : x ≠ c := fun e => hxs ((mem_setInsert st c x).2 (Or.inr e))
      have hxv : x ∈ v := by
        rcases (mem_setInsert v c x).1 hx with h1 | h1
        · exact h1
        · exact absurd h1 hxc
      have hxst : x ∉ st := fun e => hxs ((mem_setInsert st c x).2 (Or.inl e))
      obtain ⟨y1, y2⟩ := hcl x hxv hxst y hy
      refine ⟨(mem_setInsert v c y).2 (Or.inl y1), ?_⟩
      intro hys
      rcases (mem_setInsert st c y).1 hys with h1 | h1
      · exact y2 h1
      · exact hcv (h1 ▸ y1)
    have hac2 : DfsAcyclic s (setInsert v c) (setInsert st c) := by
      intro x hx hxs
      have hxc : x ≠ c := fun e => hxs ((mem_setInsert st c x).2 (Or.inr e))
      have hxv : x ∈ v := by
        rcases (mem_setInsert v c x).1 hx with h1 | h1
        · exact h1
        · exact absurd h1 hxc
      have hxst : x ∉ st := fun e => hxs ((mem_setInsert st c x).2 (Or.inl e))
      exact hac x hxv hxst
    unfold dfsHasCycle at h
    cases hloop : dfsRequests s (dfsHasCycle s n) ((find s.waiting_requests c).getD [])
        (setInsert v c) (setInsert st c) with
    | none => simp [hloop] at h
    | some r1 =>
      obtain ⟨b, v2, st2⟩ := r1
      have p1 := dfsRequests_true s c (dfsHasCycle s n) hvisit _ _ _ _ hreqs hpath2
        hcl2 hac2 hloop
      cases b with
      | true =>
        simp only [hloop, Option.some.injEq] at h
        subst h
        exact p1
      | false =>
        simp only [hloop, Option.some.injEq] at h
        subst h
        intro hb
        simp at hb

/-- A non-empty result of the loop of `findDeadlockCycle` leads into a cycle. -/
theorem findCycleFrom_spec (s : State) (fuel : Nat) (entries : List (Nat × List Int))
    (v : List Nat) (cyc : List Nat) (hcl : DfsClosed s v []) (hac : DfsAcyclic s v [])
    (h : findCycleFrom s fuel entries v [] = some cyc) (hne : cyc ≠ []) :
    LeadsIntoCycle s cyc := by
  induction entries generalizing v with
  | nil =>
    simp only [findCycleFrom, Option.some.injEq] at h
    exact absurd h.symm hne
  | cons e t ih =>
    obtain ⟨th, l⟩ := e
    by_cases hv : th ∈ v
    · simp only [findCycleFrom, hv, not_true_eq_false, if_false] at h
      exact ih v hcl hac h
    · simp only [findCycleFrom, hv, not_false_eq_true, if_true] at h
      cases hcall : dfsHasCycle s fuel th v [] with
      | none => simp [hcall] at h
      | some r1 =>
        obtain ⟨b1, v1, st1⟩ := r1
        have hpost := dfsHasCycle_spec s fuel th v [] (b1, v1, st1) hcall hv (by simp)
          (by simp) hcl hac
        have htrue := dfsHasCycle_true s fuel th v [] (b1, v1, st1) hcall hv (by simp)
          (by simp) hcl hac
        cases b1 with
        | true =>
          simp only [hcall, Option.some.injEq] at h
          subst h
          exact htrue rfl
        | false =>
          simp only [hcall] at h
          obtain ⟨e1, e2, e3, e4, e5⟩ := hpost.2 rfl
          simp only at e1 e2 e3 e4 e5
          subst e1
          exact ih v1 e4 e5 h

/-! ## Batches with repeated account ids -/

theorem mem_dedupFirst (l : List Int) (x : Int) : x ∈ dedupFirst l ↔ x ∈ l := by
  induction l with
  | nil => simp [dedupFirst]
  | cons a t ih =>
    by_cases h : x = a
    · simp [dedupFirst, h]
    · simp [dedupFirst, h, List.mem_filter, ih]

theorem nodup_dedupFirst (l : List Int) : (dedupFirst l).Nodup := by
  induction l with
  | nil => simp [dedupFirst]
  | cons a t ih =>
    unfold dedupFirst
    exact List.nodup_cons.2 ⟨by simp [List.mem_filter], ih.filter _⟩

theorem sublist_dedupFirst (l : List Int) : (dedupFirst l).Sublist l := by
  induction l with
  | nil => simp [dedupFirst]
  | cons a t ih =>
    unfold dedupFirst
    exact List.Sublist.cons₂ a ((List.filter_sublist _).trans ih)

theorem dedupFirst_eq_nil (l : List Int) : dedupFirst l = [] ↔ l = [] := by
  cases l <;> simp [dedupFirst]

/-- Removing the repetitions and sorting commute. -/
theorem dedupFirst_sorted (B : List Int) :
    dedupFirst (B.insertionSort (fun a b => a ≤ b)) =
      (dedupFirst B).insertionSort (fun a b => a ≤ b) := by
  have s1 : (dedupFirst (B.insertionSort (fun a b => a ≤ b))).Sorted (fun a b => a ≤ b) :=
    (List.sorted_insertionSort (fun a b : Int => a ≤ b) B).sublist (sublist_dedupFirst _)
  have s2 : ((dedupFirst B).insertionSort (fun a b => a ≤ b)).Sorted (fun a b => a ≤ b) :=
    List.sorted_insertionSort (fun a b : Int => a ≤ b) _
  have n2 : ((dedupFirst B).insertionSort (fun a b => a ≤ b)).Nodup :=
    (List.perm_insertionSort (fun a b : Int => a ≤ b) (dedupFirst B)).nodup_iff.2
      (nodup_dedupFirst B)
  have hp : (dedupFirst (B.insertionSort (fun a b => a ≤ b))).Perm
      ((dedupFirst B).insertionSort (fun a b => a ≤ b)) := by
    refine (List.perm_ext_iff_of_nodup (nodup_dedupFirst _) n2).2 ?_
    intro x
    rw [mem_dedupFirst, mem_sorted, mem_sorted, mem_dedupFirst]
  exact List.eq_of_perm_of_sorted hp s1 s2

/-- Locking an account that the thread already owns and holds changes nothing. -/
theorem lockAccount_eq_self (th : Nat) (s : State) (id : Int)
    (h1 : find s.account_owners id = some th) (h2 : id ∈ heldSet s th) :
    lockAccount th s id = s := by
  obtain ⟨l, hl⟩ := find_some_of_mem_heldSet h2
  have hid : id ∈ l := by simpa [heldSet, hl] using h2
  have e1 : assign s.account_owners id th = s.account_owners := assign_eq_self _ _ _ h1
  have e2 : assign s.thread_locks th (setInsert ((find s.thread_locks th).getD []) id) =
      s.thread_locks := by
    rw [hl, Option.getD_some, setInsert_eq_self l id hid]
    exact assign_eq_self _ _ _ hl
  unfold lockAccount
  rw [e1, e2]

theorem locked_lockAccount (th : Nat) (s : State) (a b : Int)
    (h : (find s.account_owners a = some th ∧ a ∈ heldSet s th) ∨ a = b) :
    find (lockAccount th s b).account_owners a = some th ∧
      a ∈ heldSet (lockAccount th s b) th := by
  constructor
  · rw [owner_lockAccount]
    by_cases hb : b = a
    · simp [hb]
    · rcases h with h | h
      · simp [hb, h.1]
      · exact absurd h.symm hb
  · have e : heldSet (lockAccount th s b) th = setInsert (heldSet s th) b := by
      unfold heldSet
      rw [locks_lockAccount]
      simp [heldSet]
    rw [e, mem_setInsert]
    rcases h with h | h
    · exact Or.inl h.2
    · exact Or.inr h

theorem acquireLocks_filter (th : Nat) (a : Int) (l : List Int) (s : State)
    (h1 : find s.account_owners a = some th) (h2 : a ∈ heldSet s th) :
    acquireLocks s th (l.filter (fun x => decide (x ≠ a))) = acquireLocks s th l := by
  induction l generalizing s with
  | nil => rfl
  | cons b t ih =>
    by_cases hb : b = a
    · subst hb
      have e1 : (b :: t).filter (fun x => decide (x ≠ b)) =
          t.filter (fun x => decide (x ≠ b)) := by simp [List.filter]
      have e2 : acquireLocks s th (b :: t) = acquireLocks (lockAccount th s b) th t := rfl
      rw [e1, e2, lockAccount_eq_self th s b h1 h2]
      exact ih s h1 h2
    · have e1 : (b :: t).filter (fun x => decide (x ≠ a)) =
          b :: t.filter (fun x => decide (x ≠ a)) := by simp [List.filter, hb]
      have e2 : acquireLocks s th (b :: t) = acquireLocks (lockAccount th s b) th t := rfl
      have e3 : acquireLocks s th (b :: t.filter (fun x => decide (x ≠ a))) =
          acquireLocks (lockAccount th s b) th (t.filter (fun x => decide (x ≠ a))) := rfl
      obtain ⟨k1, k2⟩ := locked_lockAccount th s a b (Or.inl ⟨h1, h2⟩)
      rw [e1, e2, e3]
      exact ih _ k1 k2

/-- The acquisition loop has the same effect on a batch and on the batch without its
repetitions. -/
theorem acquireLocks_dedupFirst (th : Nat) (l : List Int) (s : State) :
    acquireLocks s th (dedupFirst l) = acquireLocks s th l := by
  induction l generalizing s with
  | nil => rfl
  | cons a t ih =>
    have e1 : acquireLocks s th (dedupFirst (a :: t)) =
        acquireLocks (lockAccount th s a) th
          ((dedupFirst t).filter (fun x => decide (x ≠ a))) := rfl
    have e2 : acquireLocks s th (a :: t) = acquireLocks (lockAccount th s a) th t := rfl
    obtain ⟨k1, k2⟩ := locked_lockAccount th s a a (Or.inr rfl)
    rw [e1, e2, acquireLocks_filter th a _ _ k1 k2]
    exact ih _

theorem firstConflict_filter (s : State) (th : Nat) (a : Int) (l : List Int)
    (h : find s.account_owners a = none ∨ find s.account_owners a = some th) :
    firstConflict s th (l.filter (fun x => decide (x ≠ a))) = firstConflict s th l := by
  induction l with
  | nil => rfl
  | cons b t ih =>
    by_cases hb : b = a
    · subst hb
      have e1 : (b :: t).filter (fun x => decide (x ≠ b)) =
          t.filter (fun x => decide (x ≠ b)) := by simp [List.filter]
      rw [e1, ih]
      rcases h with h | h <;> simp [firstConflict, h]
    · have e1 : (b :: t).filter (fun x => decide (x ≠ a)) =
          b :: t.filter (fun x => decide (x ≠ a)) := by simp [List.filter, hb]
      rw [e1]
      simp only [firstConflict, ih]

theorem firstConflict_dedupFirst (s : State) (th : Nat) (l : List Int) :
    firstConflict s th (dedupFirst l) = firstConflict s th l := by
  induction l with
  | nil => rfl
  | cons a t ih =>
    cases ho : find s.account_owners a with
    | none =>
      simp only [dedupFirst, firstConflict, ho]
      rw [firstConflict_filter s th a _ (Or.inl ho), ih]
    | some o =>
      by_cases hne : o = th
      · subst hne
        simp only [dedupFirst, firstConflict, ho, ne_eq, not_true_eq_false, if_false]
        rw [firstConflict_filter s o a _ (Or.inr ho), ih]
      · simp [dedupFirst, firstConflict, ho, hne]

theorem woundWaitLoop_filter (th : Nat) (a : Int) (l : List Int) (s : State)
    (h : find s.account_owners a = none ∨ find s.account_owners a = some th) :
    woundWaitLoop th s (l.filter (fun x => decide (x ≠ a))) = woundWaitLoop th s l := by
  induction l generalizing s with
  | nil => rfl
  | cons b t ih =>
    by_cases hb : b = a
    · subst hb
      have e1 : (b :: t).filter (fun x => decide (x ≠ b)) =
          t.filter (fun x => decide (x ≠ b)) := by simp [List.filter]
      rw [e1, ih s h]
      rcases h with h | h <;> simp [woundWaitLoop, h]
    · have e1 : (b :: t).filter (fun x => decide (x ≠ a)) =
          b :: t.filter (fun x => decide (x ≠ a)) := by simp [List.filter, hb]
      rw [e1]
      cases ho : find s.account_owners b with
      | none =>
        simp only [woundWaitLoop, ho]
        exact ih s h
      | some o =>
        by_cases hne : o = th
        · simp only [woundWaitLoop, ho, hne, ne_eq, not_true_eq_false, if_false]
          exact ih s h
        · cases hold : isOlderTransaction s th o with
          | false => simp [woundWaitLoop, ho, hne, hold]
          | true =>
            simp only [woundWaitLoop, ho, hne, ne_eq, not_false_eq_true, if_true, hold]
            apply ih
            rw [owner_abortTransaction]
            by_cases hm : a ∈ heldSet s o
            · simp [hm]
            · simpa [hm] using h

/-- In a state that satisfies Invariant 1, the first loop of Wound-Wait has the same effect on a
batch and on the batch without its repetitions. -/
theorem woundWaitLoop_dedupFirst (th : Nat) (l : List Int) (s : State) (hinv : OwnerHeld s) :
    woundWaitLoop th s (dedupFirst l) = woundWaitLoop th s l := by
  induction l generalizing s with
  | nil => rfl
  | cons a t ih =>
    cases ho : find s.account_owners a with
    | none =>
      simp only [dedupFirst, woundWaitLoop, ho]
      rw [woundWaitLoop_filter th a _ s (Or.inl ho), ih s hinv]
    | some o =>
      by_cases hne : o = th
      · subst hne
        simp only [dedupFirst, woundWaitLoop, ho, ne_eq, not_true_eq_false, if_false]
        rw [woundWaitLoop_filter o a _ s (Or.inr ho), ih s hinv]
      · cases hold : isOlderTransaction s th o with
        | false => simp [dedupFirst, woundWaitLoop, ho, hne, hold]
        | true =>
          simp only [dedupFirst, woundWaitLoop, ho, hne, ne_eq, not_false_eq_true, if_true,
            hold]
          have hgone : find (abortTransaction s o).account_owners a = none := by
            obtain ⟨held, hl, hmem⟩ := hinv a o ho
            rw [owner_abortTransaction]
            simp [heldSet, hl, hmem]
          rw [woundWaitLoop_filter th a _ _ (Or.inl hgone),
            ih _ (ownerHeld_abortTransaction o s hinv)]

theorem tryLockAccounts_dedupFirst (s : State) (l : List Int) :
    tryLockAccounts s (dedupFirst l) = tryLockAccounts s l := by
  rw [Bool.eq_iff_iff]
  simp only [tryLockAccounts, List.all_eq_true, mem_dedupFirst]

theorem lockOrderingStrategy_dedupFirst (s : State) (B : List Int) (txn : Int) (th : Nat) :
    lockOrderingStrategy s (dedupFirst B) txn th = lockOrderingStrategy s B txn th := by
  have hany : ((dedupFirst B).insertionSort (fun a b => a ≤ b)).any (ownedByOther s th) =
      (B.insertionSort (fun a b => a ≤ b)).any (ownedByOther s th) := by
    rw [Bool.eq_iff_iff]
    simp only [List.any_eq_true, mem_sorted, mem_dedupFirst]
  have hacq : acquireLocks s th ((dedupFirst B).insertionSort (fun a b => a ≤ b)) =
      acquireLocks s th (B.insertionSort (fun a b => a ≤ b)) := by
    rw [← dedupFirst_sorted, acquireLocks_dedupFirst]
  unfold lockOrderingStrategy
  simp only [hany, hacq]

theorem timeoutRollbackLoop_dedupFirst (s : State) (B : List Int) (th : Nat)
    (clock : Nat → Nat) (fuel k : Nat) :
    timeoutRollbackLoop s (dedupFirst B) th clock fuel k =
      timeoutRollbackLoop s B th clock fuel k := by
  induction fuel generalizing k with
  | zero => rfl
  | succ n ih =>
    simp only [timeoutRollbackLoop, tryLockAccounts_dedupFirst, acquireLocks_dedupFirst, ih]

theorem sameButQueues_refl (s : State) : SameButQueues s s :=
  ⟨rfl, rfl, rfl, rfl, rfl, rfl, rfl, rfl⟩

theorem sameButQueues_enqueueRequests (s : State) (B C : List Int) (txn : Int) (th : Nat)
    (clock : Nat → Nat) :
    SameButQueues (enqueueRequests s B txn th clock) (enqueueRequests s C txn th clock) := by
  unfold enqueueRequests SameButQueues
  split <;> split <;> simp

/-- Wait-Die on a batch and on the batch without its repetitions: same answer, and the same
state except that, when the request is queued, the queue gets one request per element of the
batch given. -/
theorem waitDieStrategy_dedupFirst (s : State) (B : List Int) (txn : Int) (th : Nat)
    (clock : Nat → Nat) :
    (waitDieStrategy s B txn th clock).1 = (waitDieStrategy s (dedupFirst B) txn th clock).1 ∧
    ((waitDieStrategy s B txn th clock).2 = (waitDieStrategy s (dedupFirst B) txn th clock).2 ∨
      ((waitDieStrategy s B txn th clock).1 = false ∧
        ∃ s0, (waitDieStrategy s B txn th clock).2 = enqueueRequests s0 B txn th clock ∧
          (waitDieStrategy s (dedupFirst B) txn th clock).2 =
            enqueueRequests s0 (dedupFirst B) txn th clock)) := by
  unfold waitDieStrategy
  rw [firstConflict_dedupFirst]
  cases firstConflict s th B with
  | none => exact ⟨rfl, Or.inl (acquireLocks_dedupFirst th B s).symm⟩
  | some o =>
    cases hold : isOlderTransaction s th o with
    | false => simp [hold]
    | true =>
      simp only [hold, if_true]
      exact ⟨trivial, Or.inr ⟨trivial, s, rfl, rfl⟩⟩

/-- Wound-Wait, in a state that satisfies Invariant 1, on a batch and on the batch without its
repetitions. -/
theorem woundWaitStrategy_dedupFirst (s : State) (B : List Int) (txn : Int) (th : Nat)
    (clock : Nat → Nat) (hinv : OwnerHeld s) :
    (woundWaitStrategy s B txn th clock).1 =
      (woundWaitStrategy s (dedupFirst B) txn th clock).1 ∧
    ((woundWaitStrategy s B txn th clock).2 =
        (woundWaitStrategy s (dedupFirst B) txn th clock).2 ∨
      ((woundWaitStrategy s B txn th clock).1 = false ∧
        ∃ s0, (woundWaitStrategy s B txn th clock).2 = enqueueRequests s0 B txn th clock ∧
          (woundWaitStrategy s (dedupFirst B) txn th clock).2 =
            enqueueRequests s0 (dedupFirst B) txn th clock)) := by
  unfold woundWaitStrategy
  rw [woundWaitLoop_dedupFirst th B s hinv]
  cases hloop : woundWaitLoop th s B with
  | mk b s1 =>
    cases b with
    | true => exact ⟨rfl, Or.inl (acquireLocks_dedupFirst th B s1).symm⟩
    | false => exact ⟨rfl, Or.inr ⟨rfl, s1, rfl, rfl⟩⟩

/-! ## Threads with a stable key -/

/-- Ordering avoidance for a thread whose `releaseLocks` call gets the key under which its locks
were stored: under Lock Ordering, when every account of a non-empty batch `B` is unowned, `B2`
is a permutation of `B` and the keys `P1`, `P2` differ: the request of `P1` for `B` is granted;
the following request of `P2` for `B2` is refused, leaves every account of `B` owned by `P1` and
leaves the set of `P2` as it was at the start; and after `releaseLocks` of `B` with the key
`P1`, the request of `P2` for `B2` is granted and `P2` owns and holds every account of `B`.
The keys `R1`, `R2`, `R3` used by `registerThread` play no part. -/
theorem lockOrdering_permuted_batches (s : State) (B B2 : List Int) (R1 R2 R3 P1 P2 : Nat)
    (txn1 txn2 txn3 : Int) (clock : Nat → Nat) (fuel : Nat)
    (hs : s.strategy = DeadlockStrategy.LOCK_ORDERING) (hne : B ≠ []) (hperm : B2.Perm B)
    (hP : P1 ≠ P2) (hfree : ∀ r ∈ B, find s.account_owners r = none) :
    ∃ s1 s2 s3,
      requestLocks s B txn1 R1 P1 clock fuel = some (true, s1) ∧
      requestLocks s1 B2 txn2 R2 P2 clock fuel = some (false, s2) ∧
      (∀ r ∈ B, find s2.account_owners r = some P1) ∧
      heldSet s2 P2 = heldSet s P2 ∧
      requestLocks (releaseLocks s2 B P1) B2 txn3 R3 P2 clock fuel = some (true, s3) ∧
      ∀ r ∈ B, find s3.account_owners r = some P2 ∧ r ∈ heldSet s3 P2 := by
  -- first request
  have ha1 : AvailableTo s P1 B := fun r hr => Or.inl (hfree r hr)
  have e1 := lockOrdering_granted s B txn1 R1 P1 clock fuel hs ha1
  generalize hs1 : ({ acquireLocks (registerThread s txn1 R1) P1
      (B.insertionSort (fun a b => a ≤ b)) with
      deadlocks_prevented := (acquireLocks (registerThread s txn1 R1) P1
        (B.insertionSort (fun a b => a ≤ b))).deadlocks_prevented + 1 } : State) = s1 at e1
  have ho1 : ∀ r, find s1.account_owners r =
      if r ∈ B then some P1 else find s.account_owners r := by
    intro r
    rw [← hs1]
    show find (acquireLocks (registerThread s txn1 R1) P1 _).account_owners r = _
    rw [owner_acquireLocks]
    simp only [mem_sorted]
    rfl
  have hst1 : s1.strategy = DeadlockStrategy.LOCK_ORDERING := by
    rw [← hs1]
    show (acquireLocks (registerThread s txn1 R1) P1 _).strategy = _
    rw [(acquireLocks_frame P1 _ _).1]
    exact hs
  have hl1 : ∀ p, p ≠ P1 → find s1.thread_locks p = find s.thread_locks p := by
    intro p hp
    rw [← hs1]
    show find (acquireLocks (registerThread s txn1 R1) P1 _).thread_locks p = _
    rw [locks_acquireLocks_other P1 _ _ p hp]
    rfl
  have hm1 : ∀ r ∈ B, r ∈ heldSet s1 P1 := by
    intro r hr
    have : heldSet s1 P1 = heldSet (acquireLocks (registerThread s txn1 R1) P1
        (B.insertionSort (fun a b => a ≤ b))) P1 := by
      rw [← hs1]
      rfl
    rw [this, mem_heldSet_acquireLocks]
    exact Or.inr ((mem_sorted B r).2 hr)
  -- second request
  obtain ⟨b0, hb0⟩ := List.exists_mem_of_ne_nil B hne
  have ha2 : ¬ AvailableTo s1 P2 B2 := by
    intro h
    have h2 := h b0 (hperm.mem_iff.2 hb0)
    rw [ho1 b0] at h2
    simp only [hb0, if_true] at h2
    rcases h2 with h2 | h2
    · simp at h2
    · exact hP (Option.some.inj h2)
  have e2 := lockOrdering_refused s1 B2 txn2 R2 P2 clock fuel hst1 ha2
  -- release and third request
  obtain ⟨l1, hl1e⟩ := find_some_of_mem_heldSet (hm1 b0 hb0)
  have hl2e : find (registerThread s1 txn2 R2).thread_locks P1 = some l1 := hl1e
  have ho3 : ∀ r, find (releaseLocks (registerThread s1 txn2 R2) B P1).account_owners r =
      if r ∈ B then none else find s1.account_owners r := fun r =>
    owner_releaseLocks_of_entry (registerThread s1 txn2 R2) B P1 l1 hl2e r
  have hst3 : (releaseLocks (registerThread s1 txn2 R2) B P1).strategy =
      DeadlockStrategy.LOCK_ORDERING := by
    rw [strategy_releaseLocks]
    exact hst1
  have ha3 : AvailableTo (releaseLocks (registerThread s1 txn2 R2) B P1) P2 B2 := by
    intro r hr
    left
    rw [ho3 r]
    simp [hperm.mem_iff.1 hr]
  have e3 := lockOrdering_granted _ B2 txn3 R3 P2 clock fuel hst3 ha3
  refine ⟨s1, registerThread s1 txn2 R2, _, e1, e2, ?_, ?_, e3, ?_⟩
  · intro r hr
    show find s1.account_owners r = some P1
    rw [ho1 r]
    simp [hr]
  · show (find s1.thread_locks P2).getD [] = (find s.thread_locks P2).getD []
    rw [hl1 P2 (fun e => hP e.symm)]
  · intro r hr
    have hr2 : r ∈ B2.insertionSort (fun a b => a ≤ b) :=
      (mem_sorted B2 r).2 (hperm.mem_iff.2 hr)
    constructor
    · show find (acquireLocks _ P2 _).account_owners r = some P2
      rw [owner_acquireLocks]
      simp [hr2]
    · show r ∈ heldSet (acquireLocks _ P2 (B2.insertionSort (fun a b => a ≤ b))) P2
      rw [mem_heldSet_acquireLocks]
      exact Or.inr hr2

/-- Wait-Die precedence for a thread with a stable key (`registerThread` and the strategy get
the same key `P`, so that the age the strategy reads for `P` is the transaction id of the call).
If no account of the batch is owned by another thread, the batch is granted.  Otherwise let `Q`
be the owner of the first account of the batch owned by a thread other than `P`.  If `P` is
older than `Q` the call returns false, the wait queue of `P` is extended by one request per
element of the batch, other wait queues and `transactions_aborted` stay as they were.  If `P` is
younger than `Q` the call returns false, `transactions_aborted` grows by one and no wait queue
changes.  In both cases the ownership map and `thread_locks` are unchanged. -/
theorem waitDie_precedence_stable_key (s : State) (account_ids : List Int) (transaction_id : Int)
    (P : Nat) (clock : Nat → Nat) (fuel : Nat) (hs : s.strategy = DeadlockStrategy.WAIT_DIE) :
    ((∀ r ∈ account_ids, ∀ q, find s.account_owners r = some q → q = P) →
      ∃ s2, requestLocks s account_ids transaction_id P P clock fuel = some (true, s2)) ∧
    (∀ pre r post Q, account_ids = pre ++ r :: post →
      (∀ x ∈ pre, ∀ q, find s.account_owners x = some q → q = P) →
      find s.account_owners r = some Q → Q ≠ P →
      (transaction_id < getThreadTimestamp s Q →
        ∃ s2 reqs, requestLocks s account_ids transaction_id P P clock fuel = some (false, s2) ∧
          find s2.waiting_requests P = some ((find s.waiting_requests P).getD [] ++ reqs) ∧
          reqs.map LockRequest.account_id = account_ids ∧
          (∀ q ∈ reqs, q.thread_hash = P ∧ q.transaction_id = transaction_id) ∧
          (∀ p, p ≠ P → find s2.waiting_requests p = find s.waiting_requests p) ∧
          s2.transactions_aborted = s.transactions_aborted ∧
          s2.account_owners = s.account_owners ∧ s2.thread_locks = s.thread_locks) ∧
      (getThreadTimestamp s Q < transaction_id →
        ∃ s2, requestLocks s account_ids transaction_id P P clock fuel = some (false, s2) ∧
          s2.transactions_aborted = s.transactions_aborted + 1 ∧
          s2.waiting_requests = s.waiting_requests ∧
          s2.account_owners = s.account_owners ∧ s2.thread_locks = s.thread_locks)) := by
  have hst : (registerThread s transaction_id P).strategy = DeadlockStrategy.WAIT_DIE := hs
  constructor
  · intro h
    have hf : firstConflict (registerThread s transaction_id P) P account_ids = none :=
      firstConflict_none _ P account_ids h
    exact ⟨acquireLocks (registerThread s transaction_id P) P account_ids,
      by simp only [requestLocks, hst, waitDieStrategy, hf]⟩
  · intro pre r post Q hsplit hpre hr hQ
    have hf : firstConflict (registerThread s transaction_id P) P account_ids = some Q := by
      rw [hsplit]
      exact firstConflict_split _ P pre r post Q hpre hr hQ
    have hne : account_ids ≠ [] := by
      rw [hsplit]
      simp
    have hP := getThreadTimestamp_registerThread_self s transaction_id P
    have hQt := getThreadTimestamp_registerThread_other s transaction_id P Q hQ
    constructor
    · intro hlt
      have ho : isOlderTransaction (registerThread s transaction_id P) P Q = true := by
        simp [isOlderTransaction, hP, hQt, hlt]
      refine ⟨enqueueRequests (registerThread s transaction_id P) account_ids transaction_id P
        clock, newRequests P transaction_id clock account_ids 0, ?_, ?_, ?_, ?_, ?_, ?_, ?_, ?_⟩
      · simp only [requestLocks, hst, waitDieStrategy, hf, ho, if_true]
      · rw [waiting_enqueueRequests _ _ _ _ _ hne]
        simp
        rfl
      · exact newRequests_account_ids P transaction_id clock account_ids 0
      · exact newRequests_origin P transaction_id clock account_ids 0
      · intro p hp
        rw [waiting_enqueueRequests _ _ _ _ _ hne]
        have : ¬ P = p := fun e => hp e.symm
        simp [this]
        rfl
      · exact (enqueueRequests_tables _ account_ids transaction_id P clock).2.2.2
      · exact (enqueueRequests_tables _ account_ids transaction_id P clock).2.1
      · exact (enqueueRequests_tables _ account_ids transaction_id P clock).1
    · intro hgt
      have ho : isOlderTransaction (registerThread s transaction_id P) P Q = false := by
        simp [isOlderTransaction, hP, hQt, le_of_lt hgt]
      refine ⟨{ registerThread s transaction_id P with
        transactions_aborted := s.transactions_aborted + 1 }, ?_, rfl, rfl, rfl, rfl⟩
      simp only [requestLocks, hst, waitDieStrategy, hf, ho]
      rfl

/-- Wound-Wait preemption for a thread with a stable key (`registerThread` and the strategy
get the same key `P`): in a state that satisfies Invariant 1 and its converse, when every other
owner of an account of the batch is strictly younger than `P` (whose age is then the
transaction id of the call), the request is granted, `P` owns every account of the batch, every
other former owner of an account of the batch has an empty set and owns no account at all, and
`transactions_aborted` grows by the number of those distinct owners. -/
theorem woundWait_preemption_stable_key (s : State) (account_ids : List Int) (transaction_id : Int)
    (P : Nat) (clock : Nat → Nat) (fuel : Nat)
    (hs : s.strategy = DeadlockStrategy.WOUND_WAIT) (h1 : OwnerHeld s) (h2 : HeldOwned s)
    (hy : ∀ q ∈ otherOwners s P account_ids, transaction_id < getThreadTimestamp s q) :
    ∃ s2, requestLocks s account_ids transaction_id P P clock fuel = some (true, s2) ∧
      (∀ r ∈ account_ids, find s2.account_owners r = some P) ∧
      (∀ q ∈ otherOwners s P account_ids,
        heldSet s2 q = [] ∧ ∀ x, find s2.account_owners x ≠ some q) ∧
      s2.transactions_aborted =
        s.transactions_aborted + ((otherOwners s P account_ids).length : Int) := by
  have hst : (registerThread s transaction_id P).strategy = DeadlockStrategy.WOUND_WAIT := hs
  have hy0 : ∀ r ∈ account_ids, ∀ q,
      find (registerThread s transaction_id P).account_owners r = some q → q ≠ P →
      isOlderTransaction (registerThread s transaction_id P) P q = true := by
    intro r hr q hq hne
    have hm : q ∈ otherOwners s P account_ids :=
      (mem_otherOwners s P account_ids q).2 ⟨hne, r, hr, hq⟩
    simp [isOlderTransaction, getThreadTimestamp_registerThread_self,
      getThreadTimestamp_registerThread_other s transaction_id P q hne, hy q hm]
  obtain ⟨s1, e, _, _, r3, r4, r5, _⟩ :=
    woundWaitLoop_wounds P account_ids (registerThread s transaction_id P) h1 h2 hy0
  have hO : otherOwners (registerThread s transaction_id P) P account_ids =
      otherOwners s P account_ids := rfl
  rw [hO] at r3 r4 r5
  refine ⟨acquireLocks s1 P account_ids, ?_, ?_, ?_, ?_⟩
  · simp only [requestLocks, hst, woundWaitStrategy, e]
  · intro r hr
    rw [owner_acquireLocks]
    simp [hr]
  · intro q hq
    have hqP : q ≠ P := ((mem_otherOwners s P account_ids q).1 hq).1
    constructor
    · unfold heldSet
      rw [locks_acquireLocks_other P account_ids s1 q hqP]
      cases hl : find s1.thread_locks q with
      | none => rfl
      | some l => exact absurd hq ((r4 q l).1 hl).2
    · intro x hx
      rw [owner_acquireLocks] at hx
      by_cases hm : x ∈ account_ids
      · simp only [hm, if_true, Option.some.injEq] at hx
        exact hqP hx.symm
      · simp only [hm, if_false] at hx
        exact ((r3 x q).1 hx).2 hq
  · rw [(acquireLocks_frame P account_ids s1).2.2.2.2.2.2, r5]
    rfl
/-! ## Owners and waiters -/

theorem ownerNotWaiter_of_shrink (s t : State)
    (ho : ∀ r p, find t.account_owners r = some p → find s.account_owners r = some p)
    (hw : ∀ p req, req ∈ (find t.waiting_requests p).getD [] →
      req ∈ (find s.waiting_requests p).getD [])
    (h : OwnerNotWaiter s) : OwnerNotWaiter t := by
  intro p req hreq hown
  exact h p req (hw p req hreq) (ho _ _ hown)

theorem freshBatch_of_shrink (s t : State) (th : Nat) (ids : List Int)
    (ho : ∀ r p, find t.account_owners r = some p → find s.account_owners r = some p)
    (hw : ∀ p req, req ∈ (find t.waiting_requests p).getD [] →
      req ∈ (find s.waiting_requests p).getD [])
    (h : FreshBatch s th ids) : FreshBatch t th ids := by
  intro r hr
  obtain ⟨h1, h2⟩ := h r hr
  exact ⟨fun e => h1 (ho _ _ e), fun req hreq => h2 req (hw th req hreq)⟩

theorem owners_shrink_abortTransaction (s : State) (Q : Nat) (r : Int) (p : Nat)
    (h : find (abortTransaction s Q).account_owners r = some p) :
    find s.account_owners r = some p := by
  rw [owner_abortTransaction] at h
  by_cases hm : r ∈ heldSet s Q
  · simp [hm] at h
  · simpa [hm] using h

theorem waiting_shrink_abortTransaction (s : State) (Q p : Nat) (req : LockRequest)
    (h : req ∈ (find (abortTransaction s Q).waiting_requests p).getD []) :
    req ∈ (find s.waiting_requests p).getD [] := by
  rw [waiting_abortTransaction] at h
  by_cases hq : Q = p
  · simp [hq] at h
  · simpa [hq] using h

/-- The first loop of Wound-Wait only removes owners and wait queues. -/
theorem woundWaitLoop_shrinks (th : Nat) (ids : List Int) (s : State) :
    (∀ r p, find (woundWaitLoop th s ids).2.account_owners r = some p →
      find s.account_owners r = some p) ∧
    (∀ p req, req ∈ (find (woundWaitLoop th s ids).2.waiting_requests p).getD [] →
      req ∈ (find s.waiting_requests p).getD []) := by
  induction ids generalizing s with
  | nil => exact ⟨fun _ _ h => h, fun _ _ h => h⟩
  | cons id t ih =>
    unfold woundWaitLoop
    cases ho : find s.account_owners id with
    | none => exact ih s
    | some o =>
      by_cases hne : o = th
      · simp only [hne, ne_eq, not_true_eq_false, if_false]
        exact ih s
      · cases hold : isOlderTransaction s th o with
        | false =>
          simp only [ne_eq, hne, not_false_eq_true, if_true, hold, Bool.false_eq_true,
            if_false]
          exact ⟨fun _ _ h => h, fun _ _ h => h⟩
        | true =>
          simp only [ne_eq, hne, not_false_eq_true, if_true, hold]
          obtain ⟨i1, i2⟩ := ih (abortTransaction s o)
          exact ⟨fun r p h => owners_shrink_abortTransaction s o r p (i1 r p h),
            fun p req h => waiting_shrink_abortTransaction s o p req (i2 p req h)⟩

theorem ownerNotWaiter_acquireLocks (s : State) (th : Nat) (ids : List Int)
    (h : OwnerNotWaiter s)
    (hq : ∀ req ∈ (find s.waiting_requests th).getD [], req.account_id ∉ ids) :
    OwnerNotWaiter (acquireLocks s th ids) := by
  intro p req hreq hown
  rw [(acquireLocks_frame th ids s).2.1] at hreq
  rw [owner_acquireLocks] at hown
  by_cases hm : req.account_id ∈ ids
  · simp only [hm, if_true, Option.some.injEq] at hown
    subst hown
    exact hq req hreq hm
  · simp only [hm, if_false] at hown
    exact h p req hreq hown

theorem ownerNotWaiter_enqueueRequests (s : State) (ids : List Int) (txn : Int) (th : Nat)
    (clock : Nat → Nat) (h : OwnerNotWaiter s)
    (ho : ∀ r ∈ ids, find s.account_owners r ≠ some th) :
    OwnerNotWaiter (enqueueRequests s ids txn th clock) := by
  by_cases hne : ids = []
  · simpa [enqueueRequests, hne] using h
  · intro p req hreq hown
    rw [(enqueueRequests_tables s ids txn th clock).2.1] at hown
    rw [waiting_enqueueRequests s ids txn th clock hne p] at hreq
    by_cases hp : th = p
    · subst hp
      simp only [if_true, Option.getD_some, List.mem_append] at hreq
      rcases hreq with hreq | hreq
      · exact h th req hreq hown
      · have hm : req.account_id ∈ ids := by
          rw [← newRequests_account_ids th txn clock ids 0]
          exact List.mem_map_of_mem _ hreq
        exact ho _ hm hown
    · simp only [hp, if_false] at hreq
      exact h p req hreq hown

theorem freshBatch_queue (s : State) (th : Nat) (ids : List Int) (h : FreshBatch s th ids) :
    ∀ req ∈ (find s.waiting_requests th).getD [], req.account_id ∉ ids :=
  fun req hreq hm => (h _ hm).2 req hreq rfl

/-- A request for a fresh batch under Wait-Die or Wound-Wait preserves Invariant 2. -/
theorem ownerNotWaiter_requestLocks (s : State) (ids : List Int) (txn : Int) (rh th : Nat)
    (clock : Nat → Nat) (fuel : Nat) (b : Bool) (s2 : State)
    (hs : s.strategy = DeadlockStrategy.WAIT_DIE ∨ s.strategy = DeadlockStrategy.WOUND_WAIT)
    (h : OwnerNotWaiter s) (hf : FreshBatch s th ids)
    (hr : requestLocks s ids txn rh th clock fuel = some (b, s2)) : OwnerNotWaiter s2 := by
  have h1 : OwnerNotWaiter (registerThread s txn rh) := h
  have hf1 : FreshBatch (registerThread s txn rh) th ids := hf
  rcases hs with hs | hs
  · have hst : (registerThread s txn rh).strategy = DeadlockStrategy.WAIT_DIE := hs
    simp only [requestLocks, hst, waitDieStrategy, Option.some.injEq] at hr
    cases hc : firstConflict (registerThread s txn rh) th ids with
    | none =>
      simp only [hc, Prod.mk.injEq] at hr
      rw [← hr.2]
      exact ownerNotWaiter_acquireLocks _ th ids h1 (freshBatch_queue _ th ids hf1)
    | some o =>
      simp only [hc] at hr
      cases hold : isOlderTransaction (registerThread s txn rh) th o with
      | true =>
        simp only [hold, if_true, Prod.mk.injEq] at hr
        rw [← hr.2]
        exact ownerNotWaiter_enqueueRequests _ ids txn th clock h1 (fun r hm => (hf1 r hm).1)
      | false =>
        simp only [hold, Bool.false_eq_true, if_false, Prod.mk.injEq] at hr
        rw [← hr.2]
        exact h1
  · have hst : (registerThread s txn rh).strategy = DeadlockStrategy.WOUND_WAIT := hs
    simp only [requestLocks, hst, woundWaitStrategy, Option.some.injEq] at hr
    obtain ⟨k1, k2⟩ := woundWaitLoop_shrinks th ids (registerThread s txn rh)
    have h2 := ownerNotWaiter_of_shrink _ _ k1 k2 h1
    have hf2 := freshBatch_of_shrink _ _ th ids k1 k2 hf1
    cases hloop : woundWaitLoop th (registerThread s txn rh) ids with
    | mk b1 s1 =>
      rw [hloop] at h2 hf2
      simp only at h2 hf2
      cases b1 with
      | true =>
        simp only [hloop, Prod.mk.injEq] at hr
        rw [← hr.2]
        exact ownerNotWaiter_acquireLocks _ th ids h2 (freshBatch_queue _ th ids hf2)
      | false =>
        simp only [hloop, Prod.mk.injEq] at hr
        rw [← hr.2]
        exact ownerNotWaiter_enqueueRequests _ ids txn th clock h2 (fun r hm => (hf2 r hm).1)

theorem ownerNotWaiter_releaseLocks (s : State) (ids : List Int) (th : Nat)
    (h : OwnerNotWaiter s) : OwnerNotWaiter (releaseLocks s ids th) := by
  apply ownerNotWaiter_of_shrink s _ _ _ h
  · intro r p hown
    rw [owner_releaseLocks] at hown
    split at hown
    · simp at hown
    · exact hown
  · intro p req hreq
    rw [waiting_releaseLocks, find_erase] at hreq
    by_cases hp : th = p
    · simp [hp] at hreq
    · simpa [hp] using hreq

theorem ownerNotWaiter_releaseAllLocks (s : State) (th : Nat)
    (h : OwnerNotWaiter s) : OwnerNotWaiter (releaseAllLocks s th) := by
  apply ownerNotWaiter_of_shrink s _ _ _ h
  · intro r p hown
    have e : (releaseAllLocks s th).account_owners = (dropLocks s th).account_owners := rfl
    rw [e, owner_dropLocks] at hown
    by_cases hm : r ∈ heldSet s th
    · simp [hm] at hown
    · simpa [hm] using hown
  · intro p req hreq
    rw [waiting_releaseAllLocks, find_erase, find_erase] at hreq
    by_cases hp : th = p
    · simp [hp] at hreq
    · simpa [hp] using hreq

theorem strategy_of_reachableFresh {s : State} (h : ReachableFresh s) :
    ∃ st, s.strategy = st ∧
      ((st = DeadlockStrategy.LOCK_ORDERING ∨ st = DeadlockStrategy.TIMEOUT_ROLLBACK) →
        s.waiting_requests = []) := by
  induction h with
  | init strategy => exact ⟨strategy, rfl, fun _ => rfl⟩
  | @requestLocks s0 ids txn rh th clock fuel b s2 _ _ hr ih =>
    obtain ⟨st, e, hw⟩ := ih
    refine ⟨st, by rw [strategy_requestLocks s0 ids txn rh th clock fuel b s2 hr, e], ?_⟩
    intro hst
    rw [waiting_requestLocks_of_no_queue s0 ids txn rh th clock fuel b s2 (by rw [e]; exact hst)
      hr]
    exact hw hst
  | @releaseLocks s0 ids th _ ih =>
    obtain ⟨st, e, hw⟩ := ih
    refine ⟨st, by rw [strategy_releaseLocks, e], ?_⟩
    intro hst
    rw [waiting_releaseLocks]
    exact erase_nil_of_nil _ _ (hw hst)
  | @releaseAllLocks s0 th _ ih =>
    obtain ⟨st, e, hw⟩ := ih
    have h1 : (releaseAllLocks s0 th).strategy = (dropLocks s0 th).strategy := rfl
    refine ⟨st, by rw [h1, (dropLocks_frame th s0).1, e], ?_⟩
    intro hst
    rw [waiting_releaseAllLocks, erase_nil_of_nil _ _ (hw hst)]
    rfl

/-- Invariant 2 holds in every state reached by requests for fresh batches. -/
theorem ownerNotWaiter_of_reachableFresh {s : State} (h : ReachableFresh s) :
    OwnerNotWaiter s := by
  induction h with
  | init strategy =>
    intro p req hreq
    simp [init, find] at hreq
  | @requestLocks s0 ids txn rh th clock fuel b s2 hreach hfresh hr ih =>
    by_cases hq : s0.strategy = DeadlockStrategy.WAIT_DIE ∨
        s0.strategy = DeadlockStrategy.WOUND_WAIT
    · exact ownerNotWaiter_requestLocks s0 ids txn rh th clock fuel b s2 hq ih (hfresh hq) hr
    · have hno : s0.strategy = DeadlockStrategy.LOCK_ORDERING ∨
          s0.strategy = DeadlockStrategy.TIMEOUT_ROLLBACK := by
        cases hst : s0.strategy <;> simp_all
      obtain ⟨st, e, hw⟩ := strategy_of_reachableFresh hreach
      have hw0 : s0.waiting_requests = [] := hw (by rw [← e]; exact hno)
      have hw2 : s2.waiting_requests = [] := by
        rw [waiting_requestLocks_of_no_queue s0 ids txn rh th clock fuel b s2 hno hr]
        exact hw0
      intro p req hreq
      rw [hw2] at hreq
      simp [find] at hreq
  | releaseLocks ids th _ ih => exact ownerNotWaiter_releaseLocks _ ids th ih
  | releaseAllLocks th _ ih => exact ownerNotWaiter_releaseAllLocks _ th ih

/-! ## Claims -/

/-- C1 (the code breaks mutual exclusion): after thread 1 acquires account 2, thread 2 acquires
account 3, thread 2 releases account 2 (which it does not own) and thread 2 requests account 2,
the reached state has account 2 in the `thread_locks` sets of both thread 1 and thread 2. -/
theorem C1_mutual_exclusion_broken_by_releaseLocks :
    Reachable overlapRun4 ∧ (1 : Nat) ≠ 2 ∧
      (2 : Int) ∈ heldSet overlapRun4 1 ∧ (2 : Int) ∈ heldSet overlapRun4 2 := by
  refine ⟨?_, by decide, by decide, by decide⟩
  have h1 : Reachable overlapRun1 :=
    Reachable.requestLocks [2] 1 1 1 tickClock 0 true overlapRun1
      (Reachable.init DeadlockStrategy.LOCK_ORDERING) (by decide)
  have h2 : Reachable overlapRun2 :=
    Reachable.requestLocks [3] 2 2 2 tickClock 0 true overlapRun2 h1 (by decide)
  have h3 : Reachable overlapRun3 := Reachable.releaseLocks [2] 2 h2
  exact Reachable.requestLocks [2] 3 2 2 tickClock 0 true overlapRun4 h3 (by decide)

/-- C2 (Invariant 1): in every reachable state, the owner recorded for an account has a
`thread_locks` entry, and the account is a member of it. -/
theorem C2_owner_is_in_heldSet (s : State) (h : Reachable s) (r : Int) (p : Nat)
    (hr : find s.account_owners r = some p) :
    ∃ l, find s.thread_locks p = some l ∧ r ∈ l :=
  ownerHeld_of_reachable h r p hr

/-- Witness of C2 on the run in which thread 1 acquired accounts 4 and 7. -/
theorem C2_owner_is_in_heldSet_witness :
    ∃ l, find grantRun.thread_locks 1 = some l ∧ (7 : Int) ∈ l :=
  C2_owner_is_in_heldSet grantRun
    (Reachable.requestLocks [4, 7] 1 1 1 tickClock 0 true grantRun
      (Reachable.init DeadlockStrategy.WAIT_DIE) (by decide))
    7 1 (by decide)

/-- C3 (atomic grant): whatever the strategy and the state, when `requestLocks` returns true
every account of the batch is owned by the requester and is a member of its `thread_locks`
set in the resulting state. -/
theorem C3_granted_batch_is_owned_and_held (s : State) (account_ids : List Int)
    (transaction_id : Int) (register_hash thread_hash : Nat) (clock : Nat → Nat) (fuel : Nat)
    (s2 : State)
    (h : requestLocks s account_ids transaction_id register_hash thread_hash clock fuel =
      some (true, s2))
    (r : Int) (hr : r ∈ account_ids) :
    find s2.account_owners r = some thread_hash ∧ r ∈ heldSet s2 thread_hash := by
  obtain ⟨s1, ids2, hm, ho, hl⟩ :=
    requestLocks_granted s account_ids transaction_id register_hash thread_hash clock fuel s2 h
  have hr2 : r ∈ ids2 := (hm r).2 hr
  constructor
  · rw [ho, owner_acquireLocks]
    simp [hr2]
  · have h3 : heldSet s2 thread_hash = heldSet (acquireLocks s1 thread_hash ids2) thread_hash := by
      simp [heldSet, hl]
    rw [h3, mem_heldSet_acquireLocks]
    exact Or.inr hr2

/-- Witness of C3: thread 1 is granted accounts 4 and 7 under Wait-Die. -/
theorem C3_granted_batch_is_owned_and_held_witness :
    find grantRun.account_owners 7 = some 1 ∧ (7 : Int) ∈ heldSet grantRun 1 :=
  C3_granted_batch_is_owned_and_held (init DeadlockStrategy.WAIT_DIE) [4, 7] 1 1 1 tickClock 0
    grantRun (by decide) 7 (by decide)

/-- C4 as stated fails: thread 1 holds account 1, thread 2 holds account 2; the request of
thread 1 for accounts 1 and 2 under Lock Ordering is refused, and account 1 of the batch is still
in the set of thread 1. -/
theorem C4_refused_batch_member_still_held :
    Reachable denyRun2 ∧
      requestLocks denyRun2 [1, 2] 3 1 1 tickClock 0 = some (false, registerThread denyRun2 3 1) ∧
      (1 : Int) ∈ [1, 2] ∧ (1 : Int) ∈ heldSet (registerThread denyRun2 3 1) 1 := by
  refine ⟨?_, by decide, by decide, by decide⟩
  have h1 : Reachable denyRun1 :=
    Reachable.requestLocks [1] 1 1 1 tickClock 0 true denyRun1
      (Reachable.init DeadlockStrategy.LOCK_ORDERING) (by decide)
  exact Reachable.requestLocks [2] 2 2 2 tickClock 0 true denyRun2 h1 (by decide)

/-- C4 (amended): whatever the strategy and the state, when `requestLocks` returns false the
`thread_locks` entry of the requester is exactly as before the call; hence no account of the
batch that was not in its set before is in it afterwards. -/
theorem C4_refused_heldSet_unchanged (s : State) (account_ids : List Int)
    (transaction_id : Int) (register_hash thread_hash : Nat) (clock : Nat → Nat) (fuel : Nat)
    (s2 : State)
    (h : requestLocks s account_ids transaction_id register_hash thread_hash clock fuel =
      some (false, s2)) :
    find s2.thread_locks thread_hash = find s.thread_locks thread_hash ∧
      heldSet s2 thread_hash = heldSet s thread_hash ∧
      ∀ r ∈ account_ids, r ∉ heldSet s thread_hash → r ∉ heldSet s2 thread_hash := by
  have h1 := requestLocks_refused_locks s account_ids transaction_id register_hash thread_hash
    clock fuel s2 h
  have h2 : heldSet s2 thread_hash = heldSet s thread_hash := by simp [heldSet, h1]
  refine ⟨h1, h2, ?_⟩
  intro r _ hn
  rw [h2]
  exact hn

/-- Witness of C4 (amended): the refused request of thread 1 for accounts 1 and 2. -/
theorem C4_refused_heldSet_unchanged_witness :
    find (registerThread denyRun2 3 1).thread_locks 1 = find denyRun2.thread_locks 1 ∧
      heldSet (registerThread denyRun2 3 1) 1 = heldSet denyRun2 1 ∧
      (2 : Int) ∉ heldSet (registerThread denyRun2 3 1) 1 :=
  have h := C4_refused_heldSet_unchanged denyRun2 [1, 2] 3 1 1 tickClock 0
    (registerThread denyRun2 3 1) (by decide)
  ⟨h.1, h.2.1, h.2.2 2 (by decide) (by decide)⟩

/-- C5 (Lock Ordering decision): under Lock Ordering `requestLocks` returns, and it returns true
exactly when every account of the batch is unowned or owned by the requester; when it returns
false the ownership map, the `thread_locks` table, the wait queues and the three counters are
the same as before the call. -/
theorem C5_lockOrdering_decision (s : State) (account_ids : List Int) (transaction_id : Int)
    (register_hash thread_hash : Nat) (clock : Nat → Nat) (fuel : Nat)
    (hs : s.strategy = DeadlockStrategy.LOCK_ORDERING) :
    ∃ granted s2,
      requestLocks s account_ids transaction_id register_hash thread_hash clock fuel =
        some (granted, s2) ∧
      (granted = true ↔
        ∀ r ∈ account_ids,
          find s.account_owners r = none ∨ find s.account_owners r = some thread_hash) ∧
      (granted = false →
        s2.account_owners = s.account_owners ∧ s2.thread_locks = s.thread_locks ∧
        s2.waiting_requests = s.waiting_requests ∧
        s2.deadlocks_detected = s.deadlocks_detected ∧
        s2.deadlocks_prevented = s.deadlocks_prevented ∧
        s2.transactions_aborted = s.transactions_aborted) := by
  by_cases ha : AvailableTo s thread_hash account_ids
  · refine ⟨true, _, lockOrdering_granted s account_ids transaction_id register_hash thread_hash
      clock fuel
      hs ha, ?_, ?_⟩
    · simpa using ha
    · intro h
      simp at h
  · refine ⟨false, _, lockOrdering_refused s account_ids transaction_id register_hash thread_hash
      clock fuel
      hs ha, ?_, ?_⟩
    · constructor
      · intro h
        simp at h
      · intro h
        exact absurd h ha
    · intro _
      exact ⟨rfl, rfl, rfl, rfl, rfl, rfl⟩

/-- Witness of C5: in the state where thread 1 holds account 1 and thread 2 holds account 2,
the request of thread 1 for accounts 1 and 2 returns, and changes none of the tables. -/
theorem C5_lockOrdering_decision_witness :
    ∃ granted s2,
      requestLocks denyRun2 [1, 2] 3 1 1 tickClock 0 = some (granted, s2) ∧
      (granted = true ↔
        ∀ r ∈ ([1, 2] : List Int),
          find denyRun2.account_owners r = none ∨ find denyRun2.account_owners r = some 1) ∧
      (granted = false →
        s2.account_owners = denyRun2.account_owners ∧ s2.thread_locks = denyRun2.thread_locks ∧
        s2.waiting_requests = denyRun2.waiting_requests ∧
        s2.deadlocks_detected = denyRun2.deadlocks_detected ∧
        s2.deadlocks_prevented = denyRun2.deadlocks_prevented ∧
        s2.transactions_aborted = denyRun2.transactions_aborted) :=
  C5_lockOrdering_decision denyRun2 [1, 2] 3 1 1 tickClock 0 (by decide)

/-- C6 (the code does not free what `requestLocks` acquired): under Lock Ordering thread 1 is
granted accounts 5, 2 and 9 and thread 2 is refused accounts 9, 2 and 5.  Thread 1 then calls
`releaseLocks` on 5, 2 and 9: `getThreadHash()` is evaluated in the frame of `releaseLocks`,
its value (201) is not the key under which the strategy stored the locks (1), the test
`thread_locks.find(thread_hash) != thread_locks.end()` fails and the state is unchanged.  The
next request of thread 2 is refused again, the three accounts are still owned by the key of
thread 1 and none is in the set of thread 2.  (Had `releaseLocks` got the key 1, the request
would have been granted.) -/
theorem C6_release_from_another_frame_frees_nothing :
    requestLocks (init DeadlockStrategy.LOCK_ORDERING) [5, 2, 9] 1 101 1 tickClock 0 =
      some (true, frameRun1) ∧
    requestLocks frameRun1 [9, 2, 5] 2 102 2 tickClock 0 = some (false, frameRun2) ∧
    find frameRun2.thread_locks 201 = none ∧
    releaseLocks frameRun2 [5, 2, 9] 201 = frameRun2 ∧
    requestLocks (releaseLocks frameRun2 [5, 2, 9] 201) [9, 2, 5] 3 102 2 tickClock 0 =
      some (false, frameRun3) ∧
    (∀ r ∈ ([5, 2, 9] : List Int), find frameRun3.account_owners r = some 1) ∧
    (∀ r ∈ ([5, 2, 9] : List Int), r ∉ heldSet frameRun3 2) ∧
    (requestLocks (releaseLocks frameRun2 [5, 2, 9] 1) [9, 2, 5] 3 102 2 tickClock 0).map
      Prod.fst = some true := by
  have h1 : requestLocks (init DeadlockStrategy.LOCK_ORDERING) [5, 2, 9] 1 101 1 tickClock 0 =
      some (true, frameRun1) := by decide
  have h2 : requestLocks frameRun1 [9, 2, 5] 2 102 2 tickClock 0 = some (false, frameRun2) := by
    decide
  have h3 : releaseLocks frameRun2 [5, 2, 9] 201 = frameRun2 := by decide
  have h4 : requestLocks (releaseLocks frameRun2 [5, 2, 9] 201) [9, 2, 5] 3 102 2 tickClock
      0 = some (false, frameRun3) := by decide
  exact ⟨h1, h2, by decide, h3, h4, by decide, by decide, by decide⟩

/-- C7 (the age of the requester is stored under a key the strategy does not read): under
Wait-Die thread 2, with transaction id 2, is granted account 10; thread 1, with transaction
id 1 (older), asks for account 10.  `registerThread` has stored the two ages under the keys 102
and 101 that `getThreadHash()` has in its frame, while `waitDieStrategy` compares the ages of
the keys 1 and 2 that `getThreadHash()` has in the frame of the strategy: both read 0, the
requester is not older, and it dies: `transactions_aborted` grows by one and no request is
queued.  (With the same key in both frames, as in the last item, the requester is queued and
`transactions_aborted` does not change.) -/
theorem C7_older_requester_dies :
    requestLocks (init DeadlockStrategy.WAIT_DIE) [10] 2 102 2 tickClock 0 =
      some (true, dieRun1) ∧
    find dieRun1.account_owners 10 = some 2 ∧
    requestLocks dieRun1 [10] 1 101 1 tickClock 0 = some (false, dieRun2) ∧
    dieRun2.thread_timestamps = [(102, 2), (101, 1)] ∧
    getThreadTimestamp dieRun2 1 = 0 ∧ getThreadTimestamp dieRun2 2 = 0 ∧
    dieRun2.transactions_aborted = dieRun1.transactions_aborted + 1 ∧
    dieRun2.waiting_requests = [] ∧
    (requestLocks waitDieRun [10] 1 1 1 tickClock 0).map
        (fun r => (r.1, r.2.transactions_aborted - waitDieRun.transactions_aborted,
          ((find r.2.waiting_requests 1).getD []).map LockRequest.account_id)) =
      some (false, 0, [10]) := by
  have h1 : requestLocks (init DeadlockStrategy.WAIT_DIE) [10] 2 102 2 tickClock 0 =
      some (true, dieRun1) := by decide
  have h2 : requestLocks dieRun1 [10] 1 101 1 tickClock 0 = some (false, dieRun2) := by decide
  exact ⟨h1, by decide, h2, by decide, by decide, by decide, by decide, by decide, by decide⟩

/-- C8 (the ages the strategy compares are not the registered ones): under Wound-Wait thread 2,
with transaction id 2, is granted accounts 10 and 11; the state satisfies Invariant 1.
Thread 1, with transaction id 1 (older), asks for account 10.  The two ages are stored under
the keys 102 and 101 of `registerThread`, `woundWaitStrategy` compares the ages of the keys 1
and 2, which both read 0: the requester is not older, nobody is wounded, the request is refused
and queued, thread 2 keeps accounts 10 and 11 and `transactions_aborted` does not change.
(With the same key in both frames, as in the last item, the request is granted.) -/
theorem C8_younger_owner_is_not_wounded :
    requestLocks (init DeadlockStrategy.WOUND_WAIT) [10, 11] 2 102 2 tickClock 0 =
      some (true, spareRun1) ∧
    OwnerHeld spareRun1 ∧
    find spareRun1.account_owners 10 = some 2 ∧
    requestLocks spareRun1 [10] 1 101 1 tickClock 0 = some (false, spareRun2) ∧
    spareRun2.thread_timestamps = [(102, 2), (101, 1)] ∧
    getThreadTimestamp spareRun2 1 = 0 ∧ getThreadTimestamp spareRun2 2 = 0 ∧
    find spareRun2.account_owners 10 = some 2 ∧ heldSet spareRun2 2 = [10, 11] ∧
    spareRun2.transactions_aborted = spareRun1.transactions_aborted ∧
    ((find spareRun2.waiting_requests 1).getD []).map LockRequest.account_id = [10] ∧
    (requestLocks preemptRun1 [10] 1 1 1 tickClock 0).map
        (fun r => (r.1, find r.2.account_owners 10, heldSet r.2 2)) =
      some (true, some 1, []) := by
  have h1 : requestLocks (init DeadlockStrategy.WOUND_WAIT) [10, 11] 2 102 2 tickClock 0 =
      some (true, spareRun1) := by decide
  have h2 : requestLocks spareRun1 [10] 1 101 1 tickClock 0 = some (false, spareRun2) := by
    decide
  exact ⟨h1, ownerHeld_of_check spareRun1 (by decide), by decide, h2, by decide, by decide,
    by decide, by decide, by decide, by decide, by decide, by decide⟩

/-- C9 (Timeout-Rollback abort): under Timeout-Rollback, when the batch contains an account
owned by another thread, the clock does not go back between `start_time` and the first test of
the loop condition and advances by at least one polling interval over every sleep, and the
tables are those of `s` at every attempt: for every timeout the call returns false after at most
`lock_timeout / deadlock_check_interval + 2` tests of the loop condition,
`transactions_aborted` grows by exactly one, and the ownership map, `thread_locks` and the wait
queues are unchanged.  (`P` is the key of the requester in the strategy; the key `R` it has in
`registerThread` plays no part.) -/
theorem C9_timeoutRollback_abort (s : State) (account_ids : List Int) (transaction_id : Int)
    (R P : Nat) (clock : Nat → Nat) (fuel : Nat)
    (hs : s.strategy = DeadlockStrategy.TIMEOUT_ROLLBACK)
    (hown : ∃ r ∈ account_ids, ∃ q, find s.account_owners r = some q ∧ q ≠ P)
    (hstart : clock 0 ≤ clock 1)
    (hsleep : ∀ k, 1 ≤ k → clock k + deadlock_check_interval ≤ clock (k + 1))
    (hfuel : s.lock_timeout.toNat / deadlock_check_interval + 2 ≤ fuel) :
    ∃ s2, requestLocks s account_ids transaction_id R P clock fuel = some (false, s2) ∧
      s2.transactions_aborted = s.transactions_aborted + 1 ∧
      s2.account_owners = s.account_owners ∧ s2.thread_locks = s.thread_locks ∧
      s2.waiting_requests = s.waiting_requests := by
  obtain ⟨r, hr, q, ho, _⟩ := hown
  have hst : (registerThread s transaction_id R).strategy = DeadlockStrategy.TIMEOUT_ROLLBACK :=
    hs
  have ht : tryLockAccounts (registerThread s transaction_id R) account_ids = false :=
    tryLockAccounts_eq_false _ account_ids r q hr ho
  have hpos : 0 < fuel := lt_of_lt_of_le (Nat.succ_pos _) hfuel
  have he := timeoutRollbackLoop_expires (registerThread s transaction_id R) account_ids P clock
    ht fuel 0 hpos (timeout_elapsed s.lock_timeout clock hstart hsleep fuel hfuel)
  have hreq : requestLocks s account_ids transaction_id R P clock fuel =
      timeoutRollbackLoop (registerThread s transaction_id R) account_ids P clock fuel 0 := by
    simp only [requestLocks, hst, timeoutRollbackStrategy]
  exact ⟨_, hreq.trans he, rfl, rfl, rfl, rfl⟩

/-- Witness of C9: account 1 is held by thread 2; thread 1 requests it with the default timeout
of 5000 ms and a clock that ticks once per polling interval. -/
theorem C9_timeoutRollback_abort_witness :
    ∃ s2, requestLocks timeoutRun [1] 1 1 1 tickClock 52 = some (false, s2) ∧
      s2.transactions_aborted = timeoutRun.transactions_aborted + 1 ∧
      s2.account_owners = timeoutRun.account_owners ∧
      s2.thread_locks = timeoutRun.thread_locks ∧
      s2.waiting_requests = timeoutRun.waiting_requests :=
  C9_timeoutRollback_abort timeoutRun [1] 1 1 1 tickClock 52 (by decide)
    ⟨1, by decide, 2, by decide, by decide⟩ (by decide)
    (fun k hk => by simp only [tickClock, deadlock_check_interval]; omega) (by decide)

/-- C10 (the code refuses a thread its own accounts under Timeout-Rollback): thread 1 owns
account 1 after a granted request; its next request for account 1 polls for the whole timeout
of 5000 ms (50 failed attempts, the loop is still running after 50 tests of its condition) and
returns false at test 51 with `transactions_aborted` incremented. -/
theorem C10_timeoutRollback_refuses_own_account :
    requestLocks (init DeadlockStrategy.TIMEOUT_ROLLBACK) [1] 1 1 1 tickClock 51
        = some (true, ownRun) ∧
      find ownRun.account_owners 1 = some 1 ∧
      requestLocks ownRun [1] 1 1 1 tickClock 50 = none ∧
      requestLocks ownRun [1] 1 1 1 tickClock 51 =
        some (false, { ownRun with transactions_aborted := ownRun.transactions_aborted + 1 }) := by
  refine ⟨by decide, by decide, by decide, ?_⟩
  decide

/-- C11 as stated fails: with the timeout set to zero, the loop of Timeout-Rollback is never
entered; the request for the empty batch returns false and `transactions_aborted` grows by
one. -/
theorem C11_empty_batch_refused_with_zero_timeout :
    requestLocks zeroTimeoutRun [] 1 1 1 tickClock 1 =
        some (false, { registerThread zeroTimeoutRun 1 1 with transactions_aborted := 1 }) ∧
      zeroTimeoutRun.transactions_aborted = 0 := by
  decide

/-- C11 (amended): under Lock Ordering, Wait-Die and Wound-Wait, and under Timeout-Rollback when
the first test of the loop condition is read before the timeout has elapsed (which needs a
positive timeout), `requestLocks` with the empty batch returns true and changes neither the
ownership map, nor `thread_locks`, nor the wait queues, nor `transactions_aborted`. -/
theorem C11_empty_batch_granted (s : State) (transaction_id : Int) (register_hash thread_hash : Nat)
    (clock : Nat → Nat) (fuel : Nat)
    (ht : s.strategy = DeadlockStrategy.TIMEOUT_ROLLBACK →
      0 < fuel ∧ (clock 1 : Int) - (clock 0 : Int) < s.lock_timeout) :
    ∃ s2, requestLocks s [] transaction_id register_hash thread_hash clock fuel =
        some (true, s2) ∧
      s2.account_owners = s.account_owners ∧ s2.thread_locks = s.thread_locks ∧
      s2.waiting_requests = s.waiting_requests ∧
      s2.transactions_aborted = s.transactions_aborted := by
  have hcase : s.strategy = DeadlockStrategy.LOCK_ORDERING ∨
      s.strategy = DeadlockStrategy.WAIT_DIE ∨ s.strategy = DeadlockStrategy.WOUND_WAIT ∨
      s.strategy = DeadlockStrategy.TIMEOUT_ROLLBACK := by
    cases s.strategy <;> simp
  rcases hcase with hs | hs | hs | hs
  · have hst : (registerThread s transaction_id register_hash).strategy =
        DeadlockStrategy.LOCK_ORDERING := hs
    have hreq : requestLocks s [] transaction_id register_hash thread_hash clock fuel =
        some (lockOrderingStrategy (registerThread s transaction_id register_hash) []
          transaction_id thread_hash) := by
      simp only [requestLocks, hst]
    exact ⟨_, hreq, rfl, rfl, rfl, rfl⟩
  · have hst : (registerThread s transaction_id register_hash).strategy =
        DeadlockStrategy.WAIT_DIE := hs
    have hreq : requestLocks s [] transaction_id register_hash thread_hash clock fuel =
        some (waitDieStrategy (registerThread s transaction_id register_hash) []
          transaction_id thread_hash clock) := by
      simp only [requestLocks, hst]
    exact ⟨_, hreq, rfl, rfl, rfl, rfl⟩
  · have hst : (registerThread s transaction_id register_hash).strategy =
        DeadlockStrategy.WOUND_WAIT := hs
    have hreq : requestLocks s [] transaction_id register_hash thread_hash clock fuel =
        some (woundWaitStrategy (registerThread s transaction_id register_hash) []
          transaction_id thread_hash clock) := by
      simp only [requestLocks, hst]
    exact ⟨_, hreq, rfl, rfl, rfl, rfl⟩
  · have hst : (registerThread s transaction_id register_hash).strategy =
        DeadlockStrategy.TIMEOUT_ROLLBACK := hs
    obtain ⟨hf, hc⟩ := ht hs
    obtain ⟨n, rfl⟩ : ∃ n, fuel = n + 1 := ⟨fuel - 1, by omega⟩
    have hc2 : (clock (0 + 1) : Int) - (clock 0 : Int) <
        (registerThread s transaction_id register_hash).lock_timeout := by simpa using hc
    have hreq : requestLocks s [] transaction_id register_hash thread_hash clock (n + 1) =
        some (true, acquireLocks (registerThread s transaction_id register_hash) thread_hash
          []) := by
      simp only [requestLocks, hst, timeoutRollbackStrategy, timeoutRollbackLoop, hc2, if_true]
      rfl
    exact ⟨_, hreq, rfl, rfl, rfl, rfl⟩

/-- Witness of C11 (amended): the empty batch under Timeout-Rollback with the default timeout. -/
theorem C11_empty_batch_granted_witness :
    ∃ s2, requestLocks (init DeadlockStrategy.TIMEOUT_ROLLBACK) [] 1 1 1 tickClock 1
        = some (true, s2) ∧
      s2.account_owners = (init DeadlockStrategy.TIMEOUT_ROLLBACK).account_owners ∧
      s2.thread_locks = (init DeadlockStrategy.TIMEOUT_ROLLBACK).thread_locks ∧
      s2.waiting_requests = (init DeadlockStrategy.TIMEOUT_ROLLBACK).waiting_requests ∧
      s2.transactions_aborted = (init DeadlockStrategy.TIMEOUT_ROLLBACK).transactions_aborted :=
  C11_empty_batch_granted (init DeadlockStrategy.TIMEOUT_ROLLBACK) 1 1 1 tickClock 1
    (fun _ => ⟨by decide, by decide⟩)

/-- C13 (releaseLocks releases only what is named): after `releaseLocks(B)` by thread `P`, every
account that is not in `B` has the same owner as before and is a member of the set of exactly
the same threads as before. -/
theorem C13_releaseLocks_frame (s : State) (B : List Int) (P : Nat) (r : Int) (hr : r ∉ B) :
    find (releaseLocks s B P).account_owners r = find s.account_owners r ∧
      ∀ p, r ∈ heldSet (releaseLocks s B P) p ↔ r ∈ heldSet s p := by
  constructor
  · rw [owner_releaseLocks]
    simp [hr]
  · intro p
    by_cases hp : p = P
    · subst hp
      rw [mem_heldSet_releaseLocks_self]
      exact ⟨fun h => h.1, fun h => ⟨h, hr⟩⟩
    · unfold heldSet
      rw [locks_releaseLocks_other s B P p hp]

/-- Witness of C13: thread 1 holds accounts 4 and 7 and releases account 4; account 7 stays
owned and held by thread 1. -/
theorem C13_releaseLocks_frame_witness :
    find (releaseLocks grantRun [4] 1).account_owners 7 = find grantRun.account_owners 7 ∧
      (∀ p, (7 : Int) ∈ heldSet (releaseLocks grantRun [4] 1) p ↔ (7 : Int) ∈ heldSet grantRun p) ∧
      find (releaseLocks grantRun [4] 1).account_owners 7 = some 1 ∧
      (7 : Int) ∈ heldSet (releaseLocks grantRun [4] 1) 1 :=
  have h := C13_releaseLocks_frame grantRun [4] 1 7 (by decide)
  ⟨h.1, h.2, by decide, by decide⟩

/-- C14 (idempotent release): `releaseLocks(B)` by thread `P` performed twice in a row gives
exactly the state that it gives performed once. -/
theorem C14_releaseLocks_idempotent (s : State) (B : List Int) (P : Nat) :
    releaseLocks (releaseLocks s B P) B P = releaseLocks s B P :=
  releaseLocks_idem s B P

/-- C15 (the code never completes `releaseAllLocks`): thread 1, registered with timestamp 1, holds
accounts 4 and 7 and calls `releaseAllLocks`.  The call locks the mutex, removes the locks and the
wait queue, and then blocks for ever in `unregisterThread`, which locks the same mutex again;
the timestamp of thread 1 is still recorded in the state in which it blocks. -/
theorem C15_releaseAllLocks_blocks_before_unregistering :
    releaseAllLocksCall grantRun 1 =
        CallOutcome.blocked
          { dropLocks grantRun 1 with
            waiting_requests := erase (dropLocks grantRun 1).waiting_requests 1 } ∧
      find (dropLocks grantRun 1).thread_timestamps 1 = some 1 := by
  have hblocked := releaseAllLocksCall_blocked grantRun 1
  have hage : find (dropLocks grantRun 1).thread_timestamps 1 = some 1 := by decide
  exact ⟨hblocked, hage⟩

/-- C16 as stated fails: thread 1 is registered with age 1; registering it again with age 7
makes its recorded age 7, and so does a granted request carrying transaction id 7. -/
theorem C16_age_overwritten :
    getThreadTimestamp (registerThread (init DeadlockStrategy.WAIT_DIE) 1 1) 1 = 1 ∧
      getThreadTimestamp
        (registerThread (registerThread (init DeadlockStrategy.WAIT_DIE) 1 1) 7 1) 1 = 7 ∧
      requestLocks (registerThread (init DeadlockStrategy.WAIT_DIE) 1 1) [4] 7 1 1 tickClock 0 =
        some (true,
          acquireLocks (registerThread (registerThread (init DeadlockStrategy.WAIT_DIE) 1 1) 7 1)
            1 [4]) ∧
      getThreadTimestamp
        (acquireLocks (registerThread (registerThread (init DeadlockStrategy.WAIT_DIE) 1 1) 7 1)
          1 [4]) 1 = 7 := by
  decide

/-- C16 (amended): registering thread `P` with age `b`, directly or through a `requestLocks` call
that carries transaction id `b` (`P` being the value of `getThreadHash()` in `registerThread`,
whatever its value in the strategy), makes the recorded age of `P` equal to `b` whatever it was
before, and leaves the recorded age of every other thread unchanged. -/
theorem C16_latest_registration_wins (s : State) (P : Nat) (b : Int) :
    getThreadTimestamp (registerThread s b P) P = b ∧
    (∀ q, q ≠ P → getThreadTimestamp (registerThread s b P) q = getThreadTimestamp s q) ∧
    ∀ account_ids thread_hash clock fuel granted s2,
      requestLocks s account_ids b P thread_hash clock fuel = some (granted, s2) →
      getThreadTimestamp s2 P = b ∧
      ∀ q, q ≠ P → getThreadTimestamp s2 q = getThreadTimestamp s q := by
  refine ⟨getThreadTimestamp_registerThread_self s b P,
    fun q hq => getThreadTimestamp_registerThread_other s b P q hq, ?_⟩
  intro ids th clock fuel granted s2 hr
  have ht := timestamps_requestLocks s ids b P th clock fuel granted s2 hr
  have hts : ∀ q, getThreadTimestamp s2 q = getThreadTimestamp (registerThread s b P) q := by
    intro q
    simp only [getThreadTimestamp, ht, registerThread]
  constructor
  · rw [hts]
    exact getThreadTimestamp_registerThread_self s b P
  · intro q hq
    rw [hts]
    exact getThreadTimestamp_registerThread_other s b P q hq

/-- Witness of C16 (amended): thread 1, registered with age 1, requests account 4 with
transaction id 7. -/
theorem C16_latest_registration_wins_witness :
    getThreadTimestamp
        (acquireLocks (registerThread (registerThread (init DeadlockStrategy.WAIT_DIE) 1 1) 7 1)
          1 [4]) 1 = 7 ∧
      getThreadTimestamp
        (acquireLocks (registerThread (registerThread (init DeadlockStrategy.WAIT_DIE) 1 1) 7 1)
          1 [4]) 2 =
        getThreadTimestamp (registerThread (init DeadlockStrategy.WAIT_DIE) 1 1) 2 :=
  have h := (C16_latest_registration_wins (registerThread (init DeadlockStrategy.WAIT_DIE) 1 1)
    1 7).2.2 [4] 1 tickClock 0 true _ (by decide)
  ⟨h.1, h.2 2 (by decide)⟩

/-- C17 as stated fails: threads 1 and 2 are both registered with age 7, and neither is older
than the other. -/
theorem C17_equal_ages_neither_older :
    (1 : Nat) ≠ 2 ∧ getThreadTimestamp tieRun 1 = 7 ∧ getThreadTimestamp tieRun 2 = 7 ∧
      isOlderTransaction tieRun 1 2 = false ∧ isOlderTransaction tieRun 2 1 = false := by
  decide

/-- C17 (amended): for every state and every two threads, `isOlderTransaction` never holds in
both directions, and it holds in one direction exactly when the two recorded ages differ (there
is no tie-break between equal ages). -/
theorem C17_precedence_strict_order_on_ages (s : State) (a b : Nat) :
    ¬ (isOlderTransaction s a b = true ∧ isOlderTransaction s b a = true) ∧
    ((isOlderTransaction s a b = true ∨ isOlderTransaction s b a = true) ↔
      getThreadTimestamp s a ≠ getThreadTimestamp s b) := by
  simp only [isOlderTransaction, decide_eq_true_eq]
  constructor
  · rintro ⟨h1, h2⟩
    exact lt_asymm h1 h2
  · constructor
    · rintro (h | h)
      · exact ne_of_lt h
      · exact (ne_of_lt h).symm
    · intro h
      exact lt_or_gt_of_ne h

/-- C18 (deadlock detection is exact): in every state in which every recorded owner has a
`thread_locks` entry, `detectDeadlock` returns (with recursion depth `dfsFuel`), and whatever it
returns is true exactly when the wait-for graph, with an edge from `p` to `q` when `p` has a
pending request for an account owned by `q`, has a directed cycle. -/
theorem C18_detectDeadlock_iff_cycle (s : State)
    (hinv : ∀ r p, find s.account_owners r = some p → ∃ l, find s.thread_locks p = some l) :
    (∃ b, detectDeadlock s (dfsFuel s) = some b) ∧
      ∀ fuel b, detectDeadlock s fuel = some b → (b = true ↔ HasCycle s) :=
  ⟨detectDeadlock_returns s, fun fuel b h => detectDeadlock_exact s hinv fuel b h⟩

/-- Witness of C18: thread 1 holds account 10 and waits for account 20, thread 2 holds account
20 and waits for account 10. -/
theorem C18_detectDeadlock_iff_cycle_witness :
    (∃ b, detectDeadlock cycleRun (dfsFuel cycleRun) = some b) ∧
      ∀ fuel b, detectDeadlock cycleRun fuel = some b → (b = true ↔ HasCycle cycleRun) :=
  C18_detectDeadlock_iff_cycle cycleRun
    (fun r p h => by
      obtain ⟨l, hl, _⟩ := ownerHeld_of_check cycleRun (by decide) r p h
      exact ⟨l, hl⟩)

/-- C20 (victim selection): when `findDeadlockCycle` returns a non-empty list, `resolveDeadlock`
returns true and the resulting state is the one obtained by aborting one thread `v` of that
list, whose age is at least the age of every thread of the list, and then incrementing
`deadlocks_detected`; when `findDeadlockCycle` returns the empty list, `resolveDeadlock` returns
false and the state is unchanged. -/
theorem C20_victim_selection (s : State) (fuel : Nat) (cycle : List Nat)
    (h : findDeadlockCycle s fuel = some cycle) :
    (cycle ≠ [] →
      ∃ v ∈ cycle, (∀ x ∈ cycle, getThreadTimestamp s x ≤ getThreadTimestamp s v) ∧
        resolveDeadlock s fuel =
          some (true, { abortTransaction s v with
            deadlocks_detected := s.deadlocks_detected + 1 }) ∧
        (abortTransaction s v).transactions_aborted = s.transactions_aborted + 1) ∧
    (cycle = [] → resolveDeadlock s fuel = some (false, s)) := by
  constructor
  · intro hne
    cases cycle with
    | nil => exact absurd rfl hne
    | cons first rest =>
      obtain ⟨h1, h2, h3⟩ := maxElement_spec s rest first
      refine ⟨maxElement s first rest, h1, ?_, ?_, (abortTransaction_frame s _).2.1⟩
      · intro x hx
        rcases List.mem_cons.1 hx with hx | hx
        · subst hx
          exact h2
        · exact h3 x hx
      · simp only [resolveDeadlock, h]
        rw [show (abortTransaction s (maxElement s first rest)).deadlocks_detected =
          s.deadlocks_detected from (dropLocks_frame _ s).2.2.2.2.1]
  · intro he
    subst he
    simp only [resolveDeadlock, h]

/-- Witness of C20: the cycle found in the two-party deadlock is `[1, 2]`, and thread 1 (age 1,
against age 0 for thread 2) is aborted; in a fresh coordinator no cycle is found. -/
theorem C20_victim_selection_witness :
    (∃ v ∈ [1, 2], (∀ x ∈ [1, 2], getThreadTimestamp cycleRun x ≤ getThreadTimestamp cycleRun v) ∧
      resolveDeadlock cycleRun 3 =
        some (true, { abortTransaction cycleRun v with
          deadlocks_detected := cycleRun.deadlocks_detected + 1 }) ∧
      (abortTransaction cycleRun v).transactions_aborted = cycleRun.transactions_aborted + 1) ∧
    resolveDeadlock (init DeadlockStrategy.WAIT_DIE) 1 =
      some (false, init DeadlockStrategy.WAIT_DIE) :=
  ⟨(C20_victim_selection cycleRun 3 [1, 2] (by decide)).1 (by decide),
    (C20_victim_selection (init DeadlockStrategy.WAIT_DIE) 1 [] (by decide)).2 rfl⟩

/-- C21 as stated fails.  Thread 1 has been granted accounts 4 and 7 under Wait-Die, its age
being stored under the key 101 of `registerThread` and its locks under the key 1 of the
strategy.  After `unregisterThread`, whichever of the two keys it gets, account 4 is still
owned by the key 1; after `abortTransaction` of the owner key 1 the age is still recorded.  The
same holds when one key serves for both (`grantRun`): after `unregisterThread` the thread still
owns account 4, after `abortTransaction` its age is still recorded. -/
theorem C21_entries_left_behind :
    find (unregisterThread splitRun 1).account_owners 4 = some 1 ∧
      find (unregisterThread splitRun 101).account_owners 4 = some 1 ∧
      (abortTransaction splitRun 1).thread_timestamps = [(101, 1)] ∧
      find (unregisterThread grantRun 1).account_owners 4 = some 1 ∧
      find (abortTransaction grantRun 1).thread_timestamps 1 = some 1 := by
  refine ⟨?_, ?_, ?_, ?_, ?_⟩
  · decide
  · decide
  · decide
  · decide
  · decide

/-- C21 (amended): `unregisterThread` leaves the key `P` without `thread_locks` entry, wait
queue and age, and does not touch the ownership map.  `abortTransaction` leaves the key `P`
without `thread_locks` entry and wait queue and, when the state satisfied Invariant 1, without
any owned account, and does not touch the ages.  A wound of Wound-Wait is `abortTransaction` of
the owner, and a `resolveDeadlock` call that returns true is `abortTransaction` of the youngest
thread of the set returned by `findDeadlockCycle`, followed by `deadlocks_detected++`. -/
theorem C21_what_destruction_purges (s : State) (P : Nat) :
    (find (unregisterThread s P).thread_locks P = none ∧
      find (unregisterThread s P).waiting_requests P = none ∧
      find (unregisterThread s P).thread_timestamps P = none ∧
      (unregisterThread s P).account_owners = s.account_owners) ∧
    (find (abortTransaction s P).thread_locks P = none ∧
      find (abortTransaction s P).waiting_requests P = none ∧
      (OwnerHeld s → ∀ r, find (abortTransaction s P).account_owners r ≠ some P) ∧
      (abortTransaction s P).thread_timestamps = s.thread_timestamps) ∧
    (∀ requester account_id rest,
      find s.account_owners account_id = some P → P ≠ requester →
      isOlderTransaction s requester P = true →
      woundWaitLoop requester s (account_id :: rest) =
        woundWaitLoop requester (abortTransaction s P) rest) ∧
    (∀ fuel s2, resolveDeadlock s fuel = some (true, s2) →
      ∃ first rest, findDeadlockCycle s fuel = some (first :: rest) ∧
        s2 = { abortTransaction s (maxElement s first rest) with
          deadlocks_detected :=
            (abortTransaction s (maxElement s first rest)).deadlocks_detected + 1 }) := by
  refine ⟨⟨?_, ?_, ?_, rfl⟩, ⟨?_, ?_, ?_, ?_⟩, ?_, ?_⟩
  · simp [unregisterThread, find_erase]
  · simp [unregisterThread, find_erase]
  · simp [unregisterThread, find_erase]
  · simp [locks_abortTransaction]
  · simp [waiting_abortTransaction]
  · exact fun h r => abortTransaction_owns_nothing s P h r
  · exact (abortTransaction_frame s P).1
  · intro requester account_id rest ho hne hold
    simp [woundWaitLoop, ho, hne, hold]
  · intro fuel s2 hr
    unfold resolveDeadlock at hr
    split at hr
    · simp at hr
    · simp at hr
    · next first rest hc =>
      simp only [Option.some.injEq, Prod.mk.injEq, true_and] at hr
      exact ⟨first, rest, hc, hr.symm⟩

/-- Witness of C21 (amended): the key 1, holding accounts 4 and 7, is aborted or unregistered;
the deadlock between threads 1 and 2 is resolved by aborting thread 1. -/
theorem C21_what_destruction_purges_witness :
    find (abortTransaction grantRun 1).thread_locks 1 = none ∧
      find (abortTransaction grantRun 1).waiting_requests 1 = none ∧
      find (abortTransaction grantRun 1).account_owners 4 ≠ some 1 ∧
      (abortTransaction grantRun 1).thread_timestamps = grantRun.thread_timestamps ∧
      find (unregisterThread grantRun 1).thread_timestamps 1 = none ∧
      (unregisterThread grantRun 1).account_owners = grantRun.account_owners ∧
      ∃ first rest, findDeadlockCycle cycleRun 3 = some (first :: rest) ∧
        { abortTransaction cycleRun 1 with
            deadlocks_detected := (abortTransaction cycleRun 1).deadlocks_detected + 1 } =
          { abortTransaction cycleRun (maxElement cycleRun first rest) with
            deadlocks_detected :=
              (abortTransaction cycleRun (maxElement cycleRun first rest)).deadlocks_detected
                + 1 } :=
  have h := C21_what_destruction_purges grantRun 1
  have k := C21_what_destruction_purges cycleRun 1
  ⟨h.2.1.1, h.2.1.2.1, h.2.1.2.2.1 (ownerHeld_of_check grantRun (by decide)) 4,
    h.2.1.2.2.2, h.1.2.2.1, h.1.2.2.2,
    k.2.2.2 3 _ (by decide)⟩

/-- C22 as stated fails, in two ways, under Wound-Wait.  First run: thread 1 is granted
account 1, thread 2 is granted account 2, and thread 1 asks for accounts 1 and 2; it is queued
with one request per element of the batch, hence with a pending request for account 1, which it
owns.  Second run: thread 2 is granted account 2, thread 1 asks for accounts 1 and 2 and is
queued (account 1 is free), then asks for account 1 alone and is granted it, while its queue
still holds the request for account 1. -/
theorem C22_owner_waits_for_own_account :
    ReachableUnder (fun _ => True) loopRun3 ∧
      ((find loopRun3.waiting_requests 1).getD []).map LockRequest.account_id = [1, 2] ∧
      find loopRun3.account_owners 1 = some 1 ∧
    ReachableUnder (fun _ => True) staleRun3 ∧
      ((find staleRun3.waiting_requests 1).getD []).map LockRequest.account_id = [1, 2] ∧
      find staleRun3.account_owners 1 = some 1 := by
  have h1 : ReachableUnder (fun _ => True) loopRun1 :=
    ReachableUnder.requestLocks [1] 5 101 1 tickClock 0 true loopRun1
      (ReachableUnder.init DeadlockStrategy.WOUND_WAIT trivial) (by decide)
  have h2 : ReachableUnder (fun _ => True) loopRun2 :=
    ReachableUnder.requestLocks [2] 0 102 2 tickClock 0 true loopRun2 h1 (by decide)
  have h3 : ReachableUnder (fun _ => True) loopRun3 :=
    ReachableUnder.requestLocks [1, 2] 5 101 1 tickClock 0 false loopRun3 h2 (by decide)
  have k1 : ReachableUnder (fun _ => True) staleRun1 :=
    ReachableUnder.requestLocks [2] 0 102 2 tickClock 0 true staleRun1
      (ReachableUnder.init DeadlockStrategy.WOUND_WAIT trivial) (by decide)
  have k2 : ReachableUnder (fun _ => True) staleRun2 :=
    ReachableUnder.requestLocks [1, 2] 5 101 1 tickClock 0 false staleRun2 k1 (by decide)
  have k3 : ReachableUnder (fun _ => True) staleRun3 :=
    ReachableUnder.requestLocks [1] 5 101 1 tickClock 0 true staleRun3 k2 (by decide)
  exact ⟨h3, by decide, by decide, k3, by decide, by decide⟩

/-- C22 (amended): in every state reached from a fresh coordinator by `requestLocks` (any
strategy), `releaseLocks` and `releaseAllLocks` calls, every `requestLocks` call made under
Wait-Die or Wound-Wait being for a batch of which the requester owns no account and for no
account of which it has a pending request, no thread has a pending request for an account that
it owns. -/
theorem C22_owner_not_waiter_for_fresh_batches (s : State) (h : ReachableFresh s) :
    ∀ p req, req ∈ (find s.waiting_requests p).getD [] →
      find s.account_owners req.account_id ≠ some p :=
  ownerNotWaiter_of_reachableFresh h

/-- Witness of C22 (amended): under Wound-Wait thread 1 is granted account 1, thread 2 is
granted account 2, and thread 1 asks for account 2 and is queued. -/
theorem C22_owner_not_waiter_for_fresh_batches_witness :
    ((find crossRun3.waiting_requests 1).getD []).map LockRequest.account_id = [2] ∧
      ∀ p req, req ∈ (find crossRun3.waiting_requests p).getD [] →
        find crossRun3.account_owners req.account_id ≠ some p :=
  ⟨by decide,
    C22_owner_not_waiter_for_fresh_batches crossRun3
      (ReachableFresh.requestLocks [2] 5 101 1 tickClock 0 false crossRun3
        (ReachableFresh.requestLocks [2] 0 102 2 tickClock 0 true loopRun2
          (ReachableFresh.requestLocks [1] 5 101 1 tickClock 0 true loopRun1
            (ReachableFresh.init DeadlockStrategy.WOUND_WAIT)
            (fun _ => by unfold FreshBatch; decide) (by decide))
          (fun _ => by unfold FreshBatch; decide) (by decide))
        (fun _ => by unfold FreshBatch; decide) (by decide))⟩

/-- C23 as stated fails.  Under Wait-Die (thread 2, age 2, holds account 10) the older thread 1
asks for the batch 10, 10: it is queued with two requests, against one for the batch 10.  The
same happens under Wound-Wait (thread 1, age 5, holds account 1; thread 3, age 7, asks for 1, 1).
In a Wound-Wait state that violates Invariant 1 the counters differ as well: the owner of
account 1 has no `thread_locks` entry, so aborting it leaves it the owner, and the batch 1, 1
aborts it twice. -/
theorem C23_duplicates_are_queued_twice :
    dedupFirst [10, 10] = [10] ∧ dedupFirst [1, 1] = [1] ∧
    Reachable waitDieRun ∧
    (requestLocks waitDieRun [10, 10] 1 1 1 tickClock 0).map
        (fun r => (r.1, ((find r.2.waiting_requests 1).getD []).map LockRequest.account_id)) =
      some (false, [10, 10]) ∧
    (requestLocks waitDieRun (dedupFirst [10, 10]) 1 1 1 tickClock 0).map
        (fun r => (r.1, ((find r.2.waiting_requests 1).getD []).map LockRequest.account_id)) =
      some (false, [10]) ∧
    Reachable mixedRun2 ∧
    (requestLocks mixedRun2 [1, 1] 7 3 3 tickClock 0).map
        (fun r => (r.1, ((find r.2.waiting_requests 3).getD []).map LockRequest.account_id)) =
      some (false, [1, 1]) ∧
    (requestLocks mixedRun2 (dedupFirst [1, 1]) 7 3 3 tickClock 0).map
        (fun r => (r.1, ((find r.2.waiting_requests 3).getD []).map LockRequest.account_id)) =
      some (false, [1]) ∧
    (requestLocks orphanOwner [1, 1] 0 1 1 tickClock 0).map
        (fun r => (r.1, r.2.transactions_aborted)) = some (true, 2) ∧
    (requestLocks orphanOwner (dedupFirst [1, 1]) 0 1 1 tickClock 0).map
        (fun r => (r.1, r.2.transactions_aborted)) = some (true, 1) := by
  have h1 : Reachable waitDieRun :=
    Reachable.requestLocks [10] 2 2 2 tickClock 0 true waitDieRun
      (Reachable.init DeadlockStrategy.WAIT_DIE) (by decide)
  have k1 : Reachable mixedRun1 :=
    Reachable.requestLocks [1] 5 1 1 tickClock 0 true mixedRun1
      (Reachable.init DeadlockStrategy.WOUND_WAIT) (by decide)
  have k2 : Reachable mixedRun2 :=
    Reachable.requestLocks [2] 0 2 2 tickClock 0 true mixedRun2 k1 (by decide)
  exact ⟨by decide, by decide, h1, by decide, by decide, k2, by decide, by decide, by decide,
    by decide⟩

/-- C23 (amended): in a state that, under Wound-Wait, satisfies Invariant 1 (as every reachable
state does), `requestLocks` on a batch `B` and on `B` with repeated account ids removed (first
occurrences kept) return the same result, and the two resulting states agree on the ownership
map, the held sets, the timestamps and the counters.  The two states are equal except when the
request is queued (result false under Wait-Die or Wound-Wait): then each is the same state with
one request appended per element of the batch it was given, repetitions included.  A call that
does not return within the fuel on one batch does not on the other. -/
theorem C23_duplicates_treated_once_outside_the_queue (s : State) (B : List Int)
    (transaction_id : Int) (register_hash thread_hash : Nat) (clock : Nat → Nat) (fuel : Nat)
    (hinv : s.strategy = DeadlockStrategy.WOUND_WAIT → OwnerHeld s) :
    (∀ granted s1,
      requestLocks s B transaction_id register_hash thread_hash clock fuel = some (granted, s1) →
      ∃ s2, requestLocks s (dedupFirst B) transaction_id register_hash thread_hash clock fuel =
            some (granted, s2) ∧
        SameButQueues s1 s2 ∧
        (s1 = s2 ∨
          (granted = false ∧
            (s.strategy = DeadlockStrategy.WAIT_DIE ∨
              s.strategy = DeadlockStrategy.WOUND_WAIT) ∧
            ∃ s0, s1 = enqueueRequests s0 B transaction_id thread_hash clock ∧
              s2 = enqueueRequests s0 (dedupFirst B) transaction_id thread_hash clock))) ∧
    (requestLocks s B transaction_id register_hash thread_hash clock fuel = none →
      requestLocks s (dedupFirst B) transaction_id register_hash thread_hash clock fuel =
        none) := by
  have hcase : s.strategy = DeadlockStrategy.LOCK_ORDERING ∨
      s.strategy = DeadlockStrategy.WAIT_DIE ∨ s.strategy = DeadlockStrategy.WOUND_WAIT ∨
      s.strategy = DeadlockStrategy.TIMEOUT_ROLLBACK := by
    cases s.strategy <;> simp
  have hshape : ∀ r1 r2 : Bool × State, r1.1 = r2.1 →
      (r1.2 = r2.2 ∨ (r1.1 = false ∧
        ∃ s0, r1.2 = enqueueRequests s0 B transaction_id thread_hash clock ∧
          r2.2 = enqueueRequests s0 (dedupFirst B) transaction_id thread_hash clock)) →
      (s.strategy = DeadlockStrategy.WAIT_DIE ∨ s.strategy = DeadlockStrategy.WOUND_WAIT) →
      ∀ granted s1, some r1 = some (granted, s1) →
        ∃ s2, some r2 = some (granted, s2) ∧ SameButQueues s1 s2 ∧
          (s1 = s2 ∨ (granted = false ∧
            (s.strategy = DeadlockStrategy.WAIT_DIE ∨
              s.strategy = DeadlockStrategy.WOUND_WAIT) ∧
            ∃ s0, s1 = enqueueRequests s0 B transaction_id thread_hash clock ∧
              s2 = enqueueRequests s0 (dedupFirst B) transaction_id thread_hash clock)) := by
    rintro ⟨b1, t1⟩ ⟨b2, t2⟩ hb hstate hst granted s1 hr
    simp only [Option.some.injEq, Prod.mk.injEq] at hr
    obtain ⟨e1, e2⟩ := hr
    simp only at hb hstate
    subst e1 e2
    refine ⟨t2, by rw [hb], ?_, ?_⟩
    · rcases hstate with h | ⟨_, s0, h1, h2⟩
      · rw [h]
        exact sameButQueues_refl _
      · rw [h1, h2]
        exact sameButQueues_enqueueRequests _ _ _ _ _ _
    · rcases hstate with h | ⟨h0, s0, h1, h2⟩
      · exact Or.inl h
      · exact Or.inr ⟨h0, hst, s0, h1, h2⟩
  have hsame : requestLocks s (dedupFirst B) transaction_id register_hash thread_hash clock fuel =
        requestLocks s B transaction_id register_hash thread_hash clock fuel →
      (∀ granted s1,
        requestLocks s B transaction_id register_hash thread_hash clock fuel =
          some (granted, s1) →
        ∃ s2, requestLocks s (dedupFirst B) transaction_id register_hash thread_hash clock fuel =
              some (granted, s2) ∧
          SameButQueues s1 s2 ∧
          (s1 = s2 ∨
            (granted = false ∧
              (s.strategy = DeadlockStrategy.WAIT_DIE ∨
                s.strategy = DeadlockStrategy.WOUND_WAIT) ∧
              ∃ s0, s1 = enqueueRequests s0 B transaction_id thread_hash clock ∧
                s2 = enqueueRequests s0 (dedupFirst B) transaction_id thread_hash clock))) ∧
      (requestLocks s B transaction_id register_hash thread_hash clock fuel = none →
        requestLocks s (dedupFirst B) transaction_id register_hash thread_hash clock fuel =
          none) := by
    intro he
    rw [he]
    exact ⟨fun granted s1 hr => ⟨s1, hr, sameButQueues_refl _, Or.inl rfl⟩, fun h => h⟩
  rcases hcase with hs | hs | hs | hs
  · apply hsame
    have hst : (registerThread s transaction_id register_hash).strategy =
        DeadlockStrategy.LOCK_ORDERING := hs
    simp only [requestLocks, hst, lockOrderingStrategy_dedupFirst]
  · have hst : (registerThread s transaction_id register_hash).strategy =
        DeadlockStrategy.WAIT_DIE := hs
    have e1 : requestLocks s B transaction_id register_hash thread_hash clock fuel =
        some (waitDieStrategy (registerThread s transaction_id register_hash) B transaction_id
          thread_hash clock) := by
      simp only [requestLocks, hst]
    have e2 : requestLocks s (dedupFirst B) transaction_id register_hash thread_hash clock fuel =
        some (waitDieStrategy (registerThread s transaction_id register_hash) (dedupFirst B)
          transaction_id thread_hash clock) := by
      simp only [requestLocks, hst]
    rw [e1, e2]
    obtain ⟨p1, p2⟩ := waitDieStrategy_dedupFirst
      (registerThread s transaction_id register_hash)
      B transaction_id thread_hash clock
    exact ⟨hshape _ _ p1 p2 (Or.inl hs), fun h => by simp at h⟩
  · have hst : (registerThread s transaction_id register_hash).strategy =
        DeadlockStrategy.WOUND_WAIT := hs
    have e1 : requestLocks s B transaction_id register_hash thread_hash clock fuel =
        some (woundWaitStrategy (registerThread s transaction_id register_hash) B transaction_id
          thread_hash clock) := by
      simp only [requestLocks, hst]
    have e2 : requestLocks s (dedupFirst B) transaction_id register_hash thread_hash clock fuel =
        some (woundWaitStrategy (registerThread s transaction_id register_hash) (dedupFirst B)
          transaction_id thread_hash clock) := by
      simp only [requestLocks, hst]
    rw [e1, e2]
    obtain ⟨p1, p2⟩ := woundWaitStrategy_dedupFirst
      (registerThread s transaction_id register_hash) B transaction_id thread_hash clock
      (ownerHeld_registerThread s transaction_id register_hash (hinv hs))
    exact ⟨hshape _ _ p1 p2 (Or.inr hs), fun h => by simp at h⟩
  · apply hsame
    have hst : (registerThread s transaction_id register_hash).strategy =
        DeadlockStrategy.TIMEOUT_ROLLBACK := hs
    simp only [requestLocks, hst, timeoutRollbackStrategy, timeoutRollbackLoop_dedupFirst]

/-- Witness of C23 (amended): under Wound-Wait thread 1 (age 5) holds account 1 and thread 2
holds account 2; thread 3, with transaction id 7, asks for the batch 1, 1 and is queued. -/
theorem C23_duplicates_treated_once_outside_the_queue_witness :
    ∃ s2, requestLocks mixedRun2 (dedupFirst [1, 1]) 7 3 3 tickClock 0 = some (false, s2) ∧
      SameButQueues (woundWaitStrategy (registerThread mixedRun2 7 3) [1, 1] 7 3 tickClock).2
        s2 ∧
      ((woundWaitStrategy (registerThread mixedRun2 7 3) [1, 1] 7 3 tickClock).2 = s2 ∨
        (false = false ∧
          (mixedRun2.strategy = DeadlockStrategy.WAIT_DIE ∨
            mixedRun2.strategy = DeadlockStrategy.WOUND_WAIT) ∧
          ∃ s0, (woundWaitStrategy (registerThread mixedRun2 7 3) [1, 1] 7 3 tickClock).2 =
              enqueueRequests s0 [1, 1] 7 3 tickClock ∧
            s2 = enqueueRequests s0 (dedupFirst [1, 1]) 7 3 tickClock)) :=
  (C23_duplicates_treated_once_outside_the_queue mixedRun2 [1, 1] 7 3 3 tickClock 0
    (fun _ => ownerHeld_of_check mixedRun2 (by decide))).1 false
    (woundWaitStrategy (registerThread mixedRun2 7 3) [1, 1] 7 3 tickClock).2 (by decide)

/-- C24 (no circular wait under Lock Ordering): in every state reached from a fresh coordinator
by `requestLocks` under Lock Ordering, `releaseLocks` and `releaseAllLocks`, there is no wait
queue, `transactions_aborted` is 0 and `detectDeadlock` returns false. -/
theorem C24_lockOrdering_never_waits (s : State)
    (h : ReachableUnder (fun st => st = DeadlockStrategy.LOCK_ORDERING) s) :
    s.waiting_requests = [] ∧ (∀ p, find s.waiting_requests p = none) ∧
      s.transactions_aborted = 0 ∧ detectDeadlock s (dfsFuel s) = some false := by
  obtain ⟨hw, ha⟩ := lockOrdering_invariant h
  refine ⟨hw, fun p => by rw [hw]; rfl, ha, ?_⟩
  have hinv := ownerHeld_of_reachable (reachable_of_reachableUnder h)
  obtain ⟨b, hb⟩ := detectDeadlock_returns s
  have hex := detectDeadlock_exact s
    (fun r p hr => by
      obtain ⟨l, hl, _⟩ := hinv r p hr
      exact ⟨l, hl⟩) (dfsFuel s) b hb
  cases b with
  | false => exact hb
  | true => exact absurd (hex.1 rfl) (not_hasCycle_of_no_queue s hw)

/-- Witness of C24: the state in which thread 1 holds account 1, thread 2 holds account 2 and a
request of thread 1 for both was refused. -/
theorem C24_lockOrdering_never_waits_witness :
    (registerThread denyRun2 3 1).waiting_requests = [] ∧
      (∀ p, find (registerThread denyRun2 3 1).waiting_requests p = none) ∧
      (registerThread denyRun2 3 1).transactions_aborted = 0 ∧
      detectDeadlock (registerThread denyRun2 3 1) (dfsFuel (registerThread denyRun2 3 1))
        = some false :=
  C24_lockOrdering_never_waits (registerThread denyRun2 3 1)
    (ReachableUnder.requestLocks [1, 2] 3 1 1 tickClock 0 false _
      (ReachableUnder.requestLocks [2] 2 2 2 tickClock 0 true denyRun2
        (ReachableUnder.requestLocks [1] 1 1 1 tickClock 0 true denyRun1
          (ReachableUnder.init DeadlockStrategy.LOCK_ORDERING rfl) (by decide))
        (by decide))
      (by decide))

/-- C25 (Lock Ordering grant effects): under Lock Ordering, a granted `requestLocks` of thread
`P` increases `deadlocks_prevented` by exactly one and leaves `transactions_aborted`,
`deadlocks_detected` and the wait queues unchanged; every other thread keeps its `thread_locks`
entry and owns exactly the accounts it owned before.  (`P` is the key of the requester in the
strategy; the key `R` it has in `registerThread` plays no part.) -/
theorem C25_lockOrdering_grant_effects (s : State) (account_ids : List Int)
    (transaction_id : Int) (R P : Nat) (clock : Nat → Nat) (fuel : Nat) (s2 : State)
    (hs : s.strategy = DeadlockStrategy.LOCK_ORDERING)
    (h : requestLocks s account_ids transaction_id R P clock fuel = some (true, s2)) :
    s2.deadlocks_prevented = s.deadlocks_prevented + 1 ∧
    s2.transactions_aborted = s.transactions_aborted ∧
    s2.deadlocks_detected = s.deadlocks_detected ∧
    s2.waiting_requests = s.waiting_requests ∧
    ∀ q, q ≠ P →
      find s2.thread_locks q = find s.thread_locks q ∧
      ∀ r, find s2.account_owners r = some q ↔ find s.account_owners r = some q := by
  have ha : AvailableTo s P account_ids := by
    by_contra hna
    rw [lockOrdering_refused s account_ids transaction_id R P clock fuel hs hna] at h
    simp at h
  rw [lockOrdering_granted s account_ids transaction_id R P clock fuel hs ha] at h
  simp only [Option.some.injEq, Prod.mk.injEq, true_and] at h
  have hfr := acquireLocks_frame P (account_ids.insertionSort (fun a b => a ≤ b))
    (registerThread s transaction_id R)
  have hown : ∀ r, find s2.account_owners r =
      if r ∈ account_ids then some P else find s.account_owners r := by
    intro r
    rw [← h]
    show find (acquireLocks _ P _).account_owners r = _
    rw [owner_acquireLocks]
    simp only [mem_sorted]
    rfl
  refine ⟨?_, ?_, ?_, ?_, ?_⟩
  · rw [← h]
    show (acquireLocks _ P _).deadlocks_prevented + 1 = _
    rw [hfr.2.2.2.2.2.1]
    rfl
  · rw [← h]
    exact hfr.2.2.2.2.2.2
  · rw [← h]
    exact hfr.2.2.2.2.1
  · rw [← h]
    exact hfr.2.1
  · intro q hq
    constructor
    · rw [← h]
      show find (acquireLocks _ P _).thread_locks q = _
      rw [locks_acquireLocks_other P _ _ q hq]
      rfl
    · intro r
      rw [hown r]
      by_cases hr : r ∈ account_ids
      · simp only [hr, if_true, Option.some.injEq]
        constructor
        · intro e
          exact absurd e.symm hq
        · intro e
          rcases ha r hr with h1 | h1
          · rw [h1] at e
            simp at e
          · rw [h1] at e
            exact absurd (Option.some.inj e).symm hq
      · simp only [hr, if_false]

/-- Witness of C25: thread 2 is granted account 2 while thread 1 holds account 1. -/
theorem C25_lockOrdering_grant_effects_witness :
    denyRun2.deadlocks_prevented = denyRun1.deadlocks_prevented + 1 ∧
    denyRun2.transactions_aborted = denyRun1.transactions_aborted ∧
    denyRun2.deadlocks_detected = denyRun1.deadlocks_detected ∧
    denyRun2.waiting_requests = denyRun1.waiting_requests ∧
    find denyRun2.thread_locks 1 = find denyRun1.thread_locks 1 ∧
    (find denyRun2.account_owners 1 = some 1 ↔ find denyRun1.account_owners 1 = some 1) :=
  have h := C25_lockOrdering_grant_effects denyRun1 [2] 2 2 2 tickClock 0 denyRun2 (by decide)
    (by decide)
  ⟨h.1, h.2.1, h.2.2.1, h.2.2.2.1, (h.2.2.2.2 1 (by decide)).1, (h.2.2.2.2 1 (by decide)).2 1⟩

/-- C28 as stated fails: under Wound-Wait threads 2 and 3 wait for each other and thread 1 waits
for thread 2.  The search starts at thread 1, so `findDeadlockCycle` returns the whole recursion
stack, thread 1 included, although no thread waits for thread 1; thread 1 is the youngest of the
three, and `resolveDeadlock` aborts it: afterwards threads 2 and 3 still own their accounts and
still wait for each other. -/
theorem C28_bystander_reported_and_aborted :
    Reachable bystanderRun ∧
      findDeadlockCycle bystanderRun (dfsFuel bystanderRun) = some [1, 2, 3] ∧
      ¬ Relation.TransGen (WaitsFor bystanderRun) 1 1 ∧
      maxElement bystanderRun 1 [2, 3] = 1 ∧
      (resolveDeadlock bystanderRun (dfsFuel bystanderRun)).map
          (fun r => (r.1, r.2.account_owners)) = some (true, [(10, 2), (20, 3)]) ∧
      (resolveDeadlock bystanderRun (dfsFuel bystanderRun)).map
          (fun r => r.2.thread_locks) = some [(2, [10]), (3, [20])] ∧
      (resolveDeadlock bystanderRun (dfsFuel bystanderRun)).map
          (fun r => r.2.waiting_requests.map (fun e => (e.1, e.2.map LockRequest.account_id))) =
        some [(2, [20]), (3, [10])] := by
  have h1 : Reachable bystanderRun1 :=
    Reachable.requestLocks [100] 9 1 1 tickClock 0 true bystanderRun1
      (Reachable.init DeadlockStrategy.WOUND_WAIT) (by decide)
  have h2 : Reachable bystanderRun2 :=
    Reachable.requestLocks [10] 2 2 2 tickClock 0 true bystanderRun2 h1 (by decide)
  have h3 : Reachable bystanderRun3 :=
    Reachable.requestLocks [20] 1 3 3 tickClock 0 true bystanderRun3 h2 (by decide)
  have h4 : Reachable bystanderRun4 :=
    Reachable.requestLocks [20] 2 2 2 tickClock 0 false bystanderRun4 h3 (by decide)
  have h5 : Reachable bystanderRun5 :=
    Reachable.requestLocks [10] 5 3 3 tickClock 0 false bystanderRun5 h4 (by decide)
  have h6 : Reachable bystanderRun :=
    Reachable.requestLocks [10] 9 1 1 tickClock 0 false bystanderRun h5 (by decide)
  refine ⟨h6, by decide, ?_, by decide, by decide, by decide, by decide⟩
  intro hcyc
  obtain ⟨p, _, hp⟩ := Relation.TransGen.tail'_iff.1 hcyc
  exact no_incoming_of_check bystanderRun 1 (by decide) p hp

/-- C28 (amended): every non-empty set returned by `findDeadlockCycle` leads into a cycle: one of
its members lies on a directed cycle of the wait-for graph, and every member reaches that one by
following zero or more waiting-for edges.  Consequently the victim aborted by `resolveDeadlock`
is a member of the returned set and waits, directly or through other threads, for a thread on an
actual cycle. -/
theorem C28_reported_threads_lead_into_a_cycle (s : State) (fuel : Nat) (cyc : List Nat)
    (h : findDeadlockCycle s fuel = some cyc) (hne : cyc ≠ []) :
    ∃ z ∈ cyc, Relation.TransGen (WaitsFor s) z z ∧
      (∀ x ∈ cyc, Relation.ReflTransGen (WaitsFor s) x z) ∧
      ∃ victim ∈ cyc, Relation.ReflTransGen (WaitsFor s) victim z ∧
        resolveDeadlock s fuel = some (true,
          { abortTransaction s victim with
            deadlocks_detected := (abortTransaction s victim).deadlocks_detected + 1 }) := by
  have hcl : DfsClosed s [] [] := by
    intro x hx
    simp at hx
  have hac : DfsAcyclic s [] [] := by
    intro x hx
    simp at hx
  obtain ⟨z, hz, hzz, hall⟩ := findCycleFrom_spec s fuel s.thread_locks [] cyc hcl hac h hne
  refine ⟨z, hz, hzz, hall, ?_⟩
  cases cyc with
  | nil => exact absurd rfl hne
  | cons first rest =>
    have hm := (maxElement_spec s rest first).1
    refine ⟨maxElement s first rest, hm, hall _ hm, ?_⟩
    simp only [resolveDeadlock, h]

/-- Witness of C28 (amended): two threads that wait for each other under Wait-Die. -/
theorem C28_reported_threads_lead_into_a_cycle_witness :
    ∃ z ∈ [1, 2], Relation.TransGen (WaitsFor cycleRun) z z ∧
      (∀ x ∈ [1, 2], Relation.ReflTransGen (WaitsFor cycleRun) x z) ∧
      ∃ victim ∈ [1, 2], Relation.ReflTransGen (WaitsFor cycleRun) victim z ∧
        resolveDeadlock cycleRun (dfsFuel cycleRun) = some (true,
          { abortTransaction cycleRun victim with
            deadlocks_detected := (abortTransaction cycleRun victim).deadlocks_detected + 1 }) :=
  C28_reported_threads_lead_into_a_cycle cycleRun (dfsFuel cycleRun) [1, 2] (by decide)
    (by decide)

/-- C29 (the counters do not influence locking): when two states have the same strategy, timeout,
ownership map, `thread_locks`, wait queues and ages, whatever their three counters, a
`requestLocks` call returns the same answer in both and the two resulting states again have the
same tables (and the call returns in one exactly when it returns in the other); and
`resetStatistics` sets the three counters to 0 and changes no table.  (`R` and `P` are the keys
of the requester in `registerThread` and in the strategy.) -/
theorem C29_counters_do_not_influence_locking (s t : State) (account_ids : List Int)
    (transaction_id : Int) (R P : Nat) (clock : Nat → Nat) (fuel : Nat) (h : SameTables s t) :
    (∀ granted s2,
      requestLocks s account_ids transaction_id R P clock fuel = some (granted, s2) →
      ∃ t2, requestLocks t account_ids transaction_id R P clock fuel = some (granted, t2) ∧
        SameTables s2 t2) ∧
    (requestLocks s account_ids transaction_id R P clock fuel = none →
      requestLocks t account_ids transaction_id R P clock fuel = none) ∧
    (resetStatistics s).deadlocks_detected = 0 ∧ (resetStatistics s).deadlocks_prevented = 0 ∧
    (resetStatistics s).transactions_aborted = 0 ∧ SameTables (resetStatistics s) s := by
  have hres := sameResult_requestLocks s t account_ids transaction_id R P clock fuel h
  refine ⟨?_, ?_, rfl, rfl, rfl, sameTables_refl s⟩
  · intro granted s2 hs2
    rw [hs2] at hres
    cases ht : requestLocks t account_ids transaction_id R P clock fuel with
    | none =>
      rw [ht] at hres
      exact absurd hres (by simp [SameResult])
    | some res =>
      obtain ⟨g2, t2⟩ := res
      rw [ht] at hres
      obtain ⟨e1, e2⟩ := hres
      subst e1
      exact ⟨t2, rfl, e2⟩
  · intro hs2
    rw [hs2] at hres
    cases ht : requestLocks t account_ids transaction_id R P clock fuel with
    | none => rfl
    | some res =>
      obtain ⟨g2, t2⟩ := res
      rw [ht] at hres
      exact absurd hres (by simp [SameResult])

/-- Witness of C29: the state in which thread 1 holds account 1 and thread 2 holds account 2,
and the same state with counters 5, 6 and 7; thread 1 requests accounts 1 and 2. -/
theorem C29_counters_do_not_influence_locking_witness :
    ∃ t2, requestLocks
        { denyRun2 with deadlocks_detected := 5, deadlocks_prevented := 6,
                        transactions_aborted := 7 } [1, 2] 3 1 1 tickClock 0 = some (false, t2) ∧
      SameTables (registerThread denyRun2 3 1) t2 :=
  (C29_counters_do_not_influence_locking denyRun2
    { denyRun2 with deadlocks_detected := 5, deadlocks_prevented := 6,
                    transactions_aborted := 7 } [1, 2] 3 1 1 tickClock 0
    ⟨rfl, rfl, rfl, rfl, rfl, rfl⟩).1 false (registerThread denyRun2 3 1) (by decide)

/-- C30 (the code locks the mutex it already holds in `releaseAllLocks`): the bodies of
`registerThread`, `unregisterThread`, `releaseLocks`, `detectDeadlock` and `requestLocks` never
reach a `lock` while holding the mutex, but the body of `releaseAllLocks` does, through its call
of `unregisterThread`; a call of it on a fresh coordinator blocks for ever instead of
returning. -/
theorem C30_releaseAllLocks_relocks_the_mutex :
    relocks false (registerThreadBody 1 1) = false ∧
      relocks false (unregisterThreadBody 1) = false ∧
      relocks false (releaseLocksBody [1] 1) = false ∧
      relocks false detectDeadlockBody = false ∧
      relocks false (requestLocksBody 1 1 [fun s => s]) = false ∧
      relocks false (releaseAllLocksBody 1) = true ∧
      releaseAllLocksCall (init DeadlockStrategy.LOCK_ORDERING) 1 =
        CallOutcome.blocked (init DeadlockStrategy.LOCK_ORDERING) := by
  have hblocked : releaseAllLocksCall (init DeadlockStrategy.LOCK_ORDERING) 1 =
      CallOutcome.blocked (init DeadlockStrategy.LOCK_ORDERING) := by decide
  exact ⟨by decide, by decide, by decide, by decide, by decide, by decide, hblocked⟩

end DeadlockPrevention
